import Mathlib

/-!
# Link paths, joint paths, Jacobian and inverse kinematics (hrpModel/LinkPath.cpp)

A shallow embedding of `LinkPath` and `JointPath`.

* Links live in an arena (`Body`, a list of `Link` records); a `Link*` is an
  index into the arena, a nullable `Link*` is an `Option Nat` (`Ptr`).
* A call that dereferences a pointer outside the arena, or that exhausts its
  recursion budget (`fuel`), yields `none`.
* A finite `double` is the rational number it denotes. Each arithmetic operation of the
  source is the exact operation followed by a rounding `fl : ℚ → ℚ`; comparisons, `fabs` and
  sign changes are exact. The rounding is a parameter of the numeric functions (a field of
  `IKEnv` for the IK solver): `roundDouble` is IEEE 754 binary64 round-to-nearest-even, and
  `id` gives exact arithmetic. Overflow to infinity and NaN are outside the model.
-/

namespace hrp

/-- A nullable `Link*`: `none` is the null pointer, `some i` is the address of arena slot `i`. -/
abbrev Ptr := Option Nat

/-- Modelled from the spec: the joint kind enumeration of `Link.h` (fixed, rotational,
prismatic, free / other); the source names `ROTATIONAL_JOINT` and `SLIDE_JOINT`. -/
inductive JointType where
  | FREE_JOINT
  | FIXED_JOINT
  | ROTATIONAL_JOINT
  | SLIDE_JOINT
  deriving DecidableEq, Repr

/-- Modelled from the spec: `Vector3` (a tvmet 3-vector of `double`), each component given by
the rational number it denotes. -/
structure Vector3 where
  x : ℚ
  y : ℚ
  z : ℚ
  deriving DecidableEq

/-- Modelled from the spec: `Matrix33` (a tvmet 3x3 matrix) given by its three rows. -/
structure Matrix33 where
  r0 : Vector3
  r1 : Vector3
  r2 : Vector3
  deriving DecidableEq

/-- Modelled from the spec: the fields of `Link` (`Link.h`) that `LinkPath.cpp` reads or writes:
name, tree relations, joint kind, joint value `q`, pose `p`, `R`, local joint axes `a`, `d`,
and the reference rotation offset `Rs`. -/
structure Link where
  name : String
  parent : Ptr
  child : Ptr
  sibling : Ptr
  jointType : JointType
  q : ℚ
  p : Vector3
  R : Matrix33
  a : Vector3
  d : Vector3
  Rs : Matrix33
  deriving DecidableEq

/-- The arena holding every link; a `Link*` is an index into it. -/
abbrev Body := List Link

/-- The data members of `LinkPath`: `links` and `numUpwardConnections`. -/
structure LinkPath where
  links : List Nat
  numUpwardConnections : Int
  deriving DecidableEq, Repr

mutual
/-- Source function `LinkPath::findPathSub(link, prev, end, isUpward)` on the object state `s`.
The result is the returned flag with the object state on return. -/
def LinkPath.findPathSub (T : Body) :
    Nat → Nat → Ptr → Ptr → Bool → LinkPath → Option (Bool × LinkPath)
  | 0, _, _, _, _, _ => none
  | fuel + 1, link, prev, end_, isUpward, s =>
    -- links.push_back(link); if(isUpward) ++numUpwardConnections;
    let s1 : LinkPath :=
      ⟨s.links ++ [link],
        if isUpward then s.numUpwardConnections + 1 else s.numUpwardConnections⟩
    if some link = end_ then
      some (true, s1)
    else
      match T[link]? with
      | none => none
      | some L =>
        -- for(Link* child = link->child; child; child = child->sibling)
        match LinkPath.findPathSubChildren T fuel L.child link prev end_ s1 with
        | none => none
        | some (true, s2) => some (true, s2)
        | some (false, s2) =>
          -- Link* parent = link->parent; if(parent && parent != prev)
          let afterParent : Option (Bool × LinkPath) :=
            match L.parent with
            | none => some (false, s2)
            | some parent =>
              if some parent ≠ prev then
                LinkPath.findPathSub T fuel parent (some link) end_ true s2
              else
                some (false, s2)
          match afterParent with
          | none => none
          | some (true, s3) => some (true, s3)
          | some (false, s3) =>
            -- links.pop_back(); if(isUpward) --numUpwardConnections;
            some (false,
              ⟨s3.links.dropLast,
                if isUpward then s3.numUpwardConnections - 1 else s3.numUpwardConnections⟩)
/-- The `for` loop over the child/sibling chain inside `findPathSub`, entered with loop
variable `child`; it returns `true` as soon as one recursive call does, `false` when the
chain is exhausted. -/
def LinkPath.findPathSubChildren (T : Body) :
    Nat → Ptr → Nat → Ptr → Ptr → LinkPath → Option (Bool × LinkPath)
  | 0, _, _, _, _, _ => none
  | _ + 1, none, _, _, _, s => some (false, s)
  | fuel + 1, some child, link, prev, end_, s =>
    let visited : Option (Bool × LinkPath) :=
      if some child ≠ prev then
        LinkPath.findPathSub T fuel child (some link) end_ false s
      else
        some (false, s)
    match visited with
    | none => none
    | some (true, s1) => some (true, s1)
    | some (false, s1) =>
      match T[child]? with
      | none => none
      | some C => LinkPath.findPathSubChildren T fuel C.sibling link prev end_ s1
end

/-- Source function `LinkPath::find(root, end)`; `root` is dereferenced by the source (unless
it equals `end`), so it is an arena index; `end` is only compared and may be null. -/
def LinkPath.find (T : Body) (fuel : Nat) (root : Nat) (end_ : Ptr) (_self : LinkPath) :
    Option (Bool × LinkPath) :=
  -- links.clear(); numUpwardConnections = 0;
  let s0 : LinkPath := ⟨[], 0⟩
  match LinkPath.findPathSub T fuel root none end_ false s0 with
  | none => none
  | some (found, s1) =>
    if !found then some (found, ⟨[], s1.numUpwardConnections⟩) else some (found, s1)

/-- Source function `LinkPath::findPathFromRootSub(link)`. -/
def LinkPath.findPathFromRootSub (T : Body) : Nat → Nat → LinkPath → Option LinkPath
  | 0, _, _ => none
  | fuel + 1, link, s =>
    let s1 : LinkPath := ⟨s.links ++ [link], s.numUpwardConnections⟩
    match T[link]? with
    | none => none
    | some L =>
      match L.parent with
      | none => some s1
      | some parent => LinkPath.findPathFromRootSub T fuel parent s1

/-- Source function `LinkPath::findPathFromRoot(end)`. -/
def LinkPath.findPathFromRoot (T : Body) (fuel : Nat) (end_ : Nat) (_self : LinkPath) :
    Option LinkPath :=
  match LinkPath.findPathFromRootSub T fuel end_ ⟨[], 0⟩ with
  | none => none
  | some s1 => some ⟨s1.links.reverse, s1.numUpwardConnections⟩

/-- Modelled from the spec: `LinkPath::isDownward(index)` of `LinkPath.h`: segment `index`
is downward when `index >= numUpwardConnections`. -/
def LinkPath.isDownward (self : LinkPath) (index : Int) : Bool :=
  decide (self.numUpwardConnections ≤ index)

/-- The parent step of `findPathSub`: `if(parent && parent != prev)` with its recursive call;
when the guard fails the search state is passed on with result `false`. -/
def parentStep (T : Body) (fuel : Nat) (parent : Ptr) (link : Nat) (prev end_ : Ptr)
    (s : LinkPath) : Option (Bool × LinkPath) :=
  match parent with
  | none => some (false, s)
  | some p =>
    if some p ≠ prev then LinkPath.findPathSub T fuel p (some link) end_ true s
    else some (false, s)

/-- One iteration body of the child loop of `findPathSub`: `if(child != prev)` with its
recursive call. -/
def childVisit (T : Body) (fuel : Nat) (child : Nat) (link : Nat) (prev end_ : Ptr)
    (s : LinkPath) : Option (Bool × LinkPath) :=
  if some child ≠ prev then LinkPath.findPathSub T fuel child (some link) end_ false s
  else some (false, s)

/-- The entry of `findPathSub`: `links.push_back(link); if(isUpward) ++numUpwardConnections`. -/
def pushLink (s : LinkPath) (link : Nat) (isUpward : Bool) : LinkPath :=
  ⟨s.links ++ [link], if isUpward then s.numUpwardConnections + 1 else s.numUpwardConnections⟩

/-- The failing exit of `findPathSub`: `links.pop_back(); if(isUpward) --numUpwardConnections`. -/
def popLink (s : LinkPath) (isUpward : Bool) : LinkPath :=
  ⟨s.links.dropLast, if isUpward then s.numUpwardConnections - 1 else s.numUpwardConnections⟩

/-- The pointer `link->parent` read through the arena (null when the index is outside the arena). -/
def par (T : Body) (i : Nat) : Ptr :=
  match T[i]? with
  | some L => L.parent
  | none => none

/-- Predicate `SibChain T c cs`: starting at pointer `c` and following `sibling` pointers
visits exactly the links `cs`, in this order, and then reaches null. -/
inductive SibChain (T : Body) : Ptr → List Nat → Prop where
  | nil : SibChain T none []
  | cons {c : Nat} {C : Link} {cs : List Nat} :
      T[c]? = some C → SibChain T C.sibling cs → SibChain T (some c) (c :: cs)

/-- Each link's child/sibling list enumerates exactly the links whose parent is that link. -/
def ChildrenOK (T : Body) : Prop :=
  ∀ i L, T[i]? = some L → ∃ cs, SibChain T L.child cs ∧ ∀ j, j ∈ cs ↔ par T j = some i

/-- Predicate `Walk T link prev e P k`: `P` is a walk in the tree from `link` to `e` that steps to a
child or to the parent, never back to the link it just came from (`prev` for the first
step), and never continues past `e`; `k` is its number of steps into a parent. -/
inductive Walk (T : Body) : Nat → Ptr → Nat → List Nat → Nat → Prop where
  | stop {e : Nat} {prev : Ptr} : Walk T e prev e [e] 0
  | down {link c e : Nat} {prev : Ptr} {P : List Nat} {k : Nat} :
      par T c = some link → some c ≠ prev → Walk T c (some link) e P k →
      Walk T link prev e (link :: P) k
  | up {link p e : Nat} {prev : Ptr} {P : List Nat} {k : Nat} :
      par T link = some p → some p ≠ prev → Walk T p (some link) e P k →
      Walk T link prev e (link :: P) (k + 1)

/-- Predicate `IsParent T p c`: the parent pointer of link `c` is `p`. -/
def IsParent (T : Body) (p c : Nat) : Prop := par T c = some p

/-- Predicate `Anc T a x`: `a` is `x` itself or an ancestor of `x`. -/
def Anc (T : Body) (a x : Nat) : Prop := Relation.ReflTransGen (IsParent T) a x

/-- A finite well-formed link forest: each link's child/sibling list enumerates exactly the
links whose parent is that link, parent pointers stay inside the arena, and the parent
relation is acyclic (no link is its own proper ancestor). -/
structure WellFormed (T : Body) : Prop where
  children : ChildrenOK T
  parentValid : ∀ i p, par T i = some p → p < T.length
  acyclic : ∀ i, ¬ Relation.TransGen (IsParent T) i i

/-- Two links are in the same tree: they have the same parentless ancestor. -/
def SameTree (T : Body) (a b : Nat) : Prop :=
  ∃ r, r < T.length ∧ par T r = none ∧ Anc T r a ∧ Anc T r b

/-- Tree adjacency: one of the two links is the parent of the other. -/
def Adjacent (T : Body) (a b : Nat) : Prop := par T a = some b ∨ par T b = some a

/-- The number of consecutive pairs `(l[i], l[i+1])` in which `l[i+1]` is the parent of
`l[i]`. -/
def countUp (T : Body) : List Nat → Nat
  | a :: b :: l => (if par T a = some b then 1 else 0) + countUp T (b :: l)
  | _ => 0

/-- Predicate `Directed T k P`: the first `k` segments of the non-empty path `P` step from a link to
its parent and all later segments step from a link to one of its children. -/
def Directed (T : Body) : Nat → List Nat → Prop
  | 0, [] => True
  | 0, [_] => True
  | 0, a :: b :: l => par T b = some a ∧ Directed T 0 (b :: l)
  | _ + 1, [] => False
  | _ + 1, [_] => False
  | k + 1, a :: b :: l => par T a = some b ∧ Directed T k (b :: l)

/-- A link record with the given name, tree pointers and joint kind, at the identity pose with
joint axis `z` and joint value zero. -/
def sampleLink (name : String) (parent child sibling : Ptr) (jointType : JointType) : Link :=
  ⟨name, parent, child, sibling, jointType, 0, ⟨0, 0, 0⟩,
    ⟨⟨1, 0, 0⟩, ⟨0, 1, 0⟩, ⟨0, 0, 1⟩⟩, ⟨0, 0, 1⟩, ⟨0, 0, 1⟩,
    ⟨⟨1, 0, 0⟩, ⟨0, 1, 0⟩, ⟨0, 0, 1⟩⟩⟩

/-- A sample forest of two trees: `0 → {1 → {2, 3}, 4}` and `5 → {6}`. -/
def sampleBody : Body :=
  [ sampleLink "WAIST" none (some 1) none JointType.FIXED_JOINT,
    sampleLink "HIP" (some 0) (some 2) (some 4) JointType.ROTATIONAL_JOINT,
    sampleLink "KNEE" (some 1) none (some 3) JointType.ROTATIONAL_JOINT,
    sampleLink "SLIDER" (some 1) none none JointType.SLIDE_JOINT,
    sampleLink "ARM" (some 0) none none JointType.ROTATIONAL_JOINT,
    sampleLink "TABLE" none (some 6) none JointType.FIXED_JOINT,
    sampleLink "LID" (some 5) none none JointType.ROTATIONAL_JOINT ]

/-- Predicate `DownPath T r x D`: `D` lists the links met when descending from `r` to `x`, each link
being the parent of the next one. -/
inductive DownPath (T : Body) (r : Nat) : Nat → List Nat → Prop where
  | single : DownPath T r r [r]
  | snoc {p x : Nat} {D : List Nat} :
      DownPath T r p D → par T x = some p → DownPath T r x (D ++ [x])

/-- The data members of `JointPath` (which derives from `LinkPath`): `joints`,
`numUpwardJointConnections`, `maxIKErrorSqr` and `isBestEffortIKMode`. -/
structure JointPath extends LinkPath where
  joints : List Nat
  numUpwardJointConnections : Int
  maxIKErrorSqr : ℚ
  isBestEffortIKMode : Bool

/-- The test `jointType == Link::ROTATIONAL_JOINT || jointType == Link::SLIDE_JOINT`. -/
def Link.isActuated (L : Link) : Bool :=
  decide (L.jointType = JointType.ROTATIONAL_JOINT) || decide (L.jointType = JointType.SLIDE_JOINT)

/-- The `while(i < m)` loop of `JointPath::extractJoints`, on the loop variable `i`, the joint
sequence and `numUpwardJointConnections`. -/
def JointPath.extractLoop (T : Body) (path : LinkPath) (m : Nat) :
    Nat → Nat → List Nat → Int → Option (List Nat × Int)
  | 0, _, _, _ => none
  | fuel + 1, i, joints, numUpwardJointConnections =>
    if i < m then
      -- Link* link = links[i];
      match path.links[i]? with
      | none => none
      | some link =>
        match T[link]? with
        | none => none
        | some L =>
          if L.isActuated then
            JointPath.extractLoop T path m fuel (i + 1) (joints ++ [link])
              numUpwardJointConnections
          else if !path.isDownward i then
            JointPath.extractLoop T path m fuel (i + 1) joints (numUpwardJointConnections - 1)
          else
            JointPath.extractLoop T path m fuel (i + 1) joints numUpwardJointConnections
    else
      some (joints, numUpwardJointConnections)

/-- Source function `JointPath::extractJoints()`. -/
def JointPath.extractJoints (T : Body) (self : JointPath) : Option JointPath :=
  -- numUpwardJointConnections = numUpwardConnections; int n = links.size();
  let n := self.links.length
  if n ≤ 1 then
    some ⟨self.toLinkPath, [], self.numUpwardConnections, self.maxIKErrorSqr,
      self.isBestEffortIKMode⟩
  else
    let i := if self.isDownward 0 then 1 else 0
    let m := n - 1
    match JointPath.extractLoop T self.toLinkPath m n i [] self.numUpwardConnections with
    | none => none
    | some (joints, numUpJoint) =>
      if self.isDownward (((m - 1 : Nat) : Int)) then
        -- Link* link = links[m];
        match self.links[m]? with
        | none => none
        | some link =>
          match T[link]? with
          | none => none
          | some L =>
            if L.isActuated then
              some ⟨self.toLinkPath, joints ++ [link], numUpJoint, self.maxIKErrorSqr,
                self.isBestEffortIKMode⟩
            else
              some ⟨self.toLinkPath, joints, numUpJoint, self.maxIKErrorSqr,
                self.isBestEffortIKMode⟩
      else
        some ⟨self.toLinkPath, joints, numUpJoint, self.maxIKErrorSqr,
          self.isBestEffortIKMode⟩

/-- Source function `JointPath::extractJoints()` as a step on the whole program state (the
arena together with the `JointPath` object): the source writes only data members of the object. -/
def JointPath.extractJointsOn (T : Body) (self : JointPath) : Option (Body × JointPath) :=
  match JointPath.extractJoints T self with
  | none => none
  | some jp => some (T, jp)

/-- Whether the link at arena index `j` is rotational or prismatic. -/
def isJointAt (T : Body) (j : Nat) : Bool :=
  match T[j]? with
  | some L => L.isActuated
  | none => false

/-- The joint sequence `extractJoints` is expected to produce from a link path: the actuated
links among `links[i0], ..., links[n-2]` (`i0` is 1 when segment 0 is downward, else 0),
followed by the last link when segment `n-2` is downward and the last link is actuated. -/
def jointsOf (T : Body) (path : LinkPath) : List Nat :=
  if path.links.length ≤ 1 then []
  else
    ((path.links.take (path.links.length - 1)).drop
        (if path.isDownward 0 then 1 else 0)).filter (isJointAt T) ++
      (path.links.drop (path.links.length - 1)).filter
        (fun l => path.isDownward (((path.links.length - 1 - 1 : Nat) : Int)) && isJointAt T l)

/-- Source function `JointPath::find(root, end)`; the hook `onJointPathUpdated()` is empty in
`JointPath`. -/
def JointPath.find (T : Body) (fuel : Nat) (root : Nat) (end_ : Ptr) (self : JointPath) :
    Option (Bool × JointPath) :=
  match LinkPath.find T fuel root end_ self.toLinkPath with
  | none => none
  | some (found, lp) =>
    let self1 : JointPath :=
      ⟨lp, self.joints, self.numUpwardJointConnections, self.maxIKErrorSqr,
        self.isBestEffortIKMode⟩
    -- if(LinkPath::find(root, end)){ extractJoints(); }
    let afterExtract : Option JointPath :=
      if found then JointPath.extractJoints T self1 else some self1
    match afterExtract with
    | none => none
    | some self2 =>
      -- return (!joints.empty());
      some (!self2.joints.isEmpty, self2)

/-- Source function `JointPath::findPathFromRoot(end)`. -/
def JointPath.findPathFromRoot (T : Body) (fuel : Nat) (end_ : Nat) (self : JointPath) :
    Option (Bool × JointPath) :=
  match LinkPath.findPathFromRoot T fuel end_ self.toLinkPath with
  | none => none
  | some lp =>
    match JointPath.extractJoints T
        ⟨lp, self.joints, self.numUpwardJointConnections, self.maxIKErrorSqr,
          self.isBestEffortIKMode⟩ with
    | none => none
    | some self2 => some (!self2.joints.isEmpty, self2)

/-- The position of the leading binary digit of `n` (zero for `n < 2`), found by halving. -/
def ilog2 : Nat → Nat → Nat
  | 0, _ => 0
  | fuel + 1, n => if n < 2 then 0 else ilog2 fuel (n / 2) + 1

/-- The fraction `n / d` multiplied by `2^s`, as a numerator and a denominator. -/
def scale2 (n d : Nat) (s : Int) : Nat × Nat :=
  if 0 ≤ s then (n * 2 ^ s.toNat, d) else (n, d * 2 ^ (-s).toNat)

/-- The binary exponent of the positive fraction `n / d`: the integer `e` with
`2^e <= n/d < 2^(e+1)`. -/
def binaryExponent (n d : Nat) : Int :=
  -- n / d lies between 2^(e1 - 1) and 2^(e1 + 1)
  let e1 : Int := (ilog2 n n : Int) - (ilog2 d d : Int)
  let p : Nat × Nat := scale2 n d (-e1)
  if p.2 ≤ p.1 then e1 else e1 - 1

/-- The integer nearest to `num / den`, ties to the even one. -/
def roundHalfEven (num den : Nat) : Nat :=
  let q : Nat := num / den
  let r : Nat := num % den
  if 2 * r < den then q else if den < 2 * r then q + 1 else q + q % 2

/-- The rational `m / 2^s`. -/
def unscale2 (m : Nat) (s : Int) : ℚ :=
  if 0 ≤ s then mkRat m (2 ^ s.toNat) else ((m * 2 ^ (-s).toNat : Nat) : ℚ)

/-- IEEE 754 binary64 rounding of the positive fraction `n / d` to the nearest `double`, ties
to even: with `2^e <= n/d < 2^(e+1)` (and `e` raised to -1022 in the subnormal range) the
result is the multiple of `2^(e-52)` nearest to `n / d`. -/
def roundPositive (n d : Nat) : ℚ :=
  let e0 : Int := binaryExponent n d
  let e : Int := if e0 < -1022 then -1022 else e0
  let s : Int := 52 - e
  let p : Nat × Nat := scale2 n d s
  unscale2 (roundHalfEven p.1 p.2) s

/-- IEEE 754 binary64 rounding of a rational to the nearest `double`, ties to even. Overflow
to infinity is not modelled: the exponent is not bounded above. -/
def roundDouble (x : ℚ) : ℚ :=
  if x.num = 0 then 0
  else if x.num < 0 then -roundPositive x.num.natAbs x.den
  else roundPositive x.num.natAbs x.den

/-- The value `1.0e-6 * 1.0e-6` that `JointPath::initialize()` stores in `maxIKErrorSqr`: the
`double` product of the `double` nearest to `10^-6` with itself. -/
def initialMaxIKErrorSqr : ℚ :=
  roundDouble (roundDouble (1 / 1000000) * roundDouble (1 / 1000000))

/-- A `JointPath` object as left by the default constructor: empty sequences and the
settings of `JointPath::initialize()` (`maxIKErrorSqr = 1.0e-6 * 1.0e-6`, strict mode). -/
def JointPath.fresh : JointPath :=
  ⟨⟨[], 0⟩, [], 0, initialMaxIKErrorSqr, false⟩

/-- Modelled from the spec: `dot(a, b)` of tvmet, the inner product of two 3-vectors, with
every product and sum rounded by `fl`. -/
def dot (fl : ℚ → ℚ) (a b : Vector3) : ℚ :=
  fl (fl (fl (a.x * b.x) + fl (a.y * b.y)) + fl (a.z * b.z))

/-- Modelled from the spec: `cross(a, b)` of tvmet, the vector product, with every product and
difference rounded by `fl`. -/
def cross (fl : ℚ → ℚ) (a b : Vector3) : Vector3 :=
  ⟨fl (fl (a.y * b.z) - fl (a.z * b.y)), fl (fl (a.z * b.x) - fl (a.x * b.z)),
    fl (fl (a.x * b.y) - fl (a.y * b.x))⟩

/-- Modelled from the spec: the difference `a - b` of two 3-vectors, each component rounded
by `fl`. -/
def Vector3.sub (fl : ℚ → ℚ) (a b : Vector3) : Vector3 :=
  ⟨fl (a.x - b.x), fl (a.y - b.y), fl (a.z - b.z)⟩

/-- Modelled from the spec: `v *= c`, the product of a 3-vector with a scalar, each component
rounded by `fl`. -/
def Vector3.scale (fl : ℚ → ℚ) (v : Vector3) (c : ℚ) : Vector3 :=
  ⟨fl (v.x * c), fl (v.y * c), fl (v.z * c)⟩

/-- Modelled from the spec: `-v`, the negated 3-vector. -/
def Vector3.neg (v : Vector3) : Vector3 := ⟨-v.x, -v.y, -v.z⟩

/-- Modelled from the spec: the matrix-vector product `M * v` of tvmet: the inner products of
the rows of `M` with `v`. -/
def Matrix33.mulVec (fl : ℚ → ℚ) (M : Matrix33) (v : Vector3) : Vector3 :=
  ⟨dot fl M.r0 v, dot fl M.r1 v, dot fl M.r2 v⟩

/-- Modelled from the spec: `trans(M)` of tvmet, the transposed matrix. -/
def trans (M : Matrix33) : Matrix33 :=
  ⟨⟨M.r0.x, M.r1.x, M.r2.x⟩, ⟨M.r0.y, M.r1.y, M.r2.y⟩, ⟨M.r0.z, M.r1.z, M.r2.z⟩⟩

/-- Modelled from the spec: the matrix product `A * B` of tvmet: the inner products of the
rows of `A` with the columns of `B`. -/
def Matrix33.mul (fl : ℚ → ℚ) (A B : Matrix33) : Matrix33 :=
  ⟨(trans B).mulVec fl A.r0, (trans B).mulVec fl A.r1, (trans B).mulVec fl A.r2⟩

/-- Modelled from the spec: `dmatrix` (a uBLAS dense matrix of `double`): its two sizes and
its entries; entries outside the sizes carry no meaning. -/
structure dmatrix where
  size1 : Nat
  size2 : Nat
  data : Nat → Nat → ℚ

/-- Modelled from the spec: `dvector` (a uBLAS dense vector of `double`) by its entries. -/
abbrev dvector := Nat → ℚ

/-- Modelled from the spec: `out_J.resize(rows, cols, false)`: the sizes are set and the
entries are not preserved (they are whatever the storage held). -/
def dmatrix.resize (M : dmatrix) (rows cols : Nat) : dmatrix := ⟨rows, cols, M.data⟩

/-- The assignment `M(r, c) = v`. -/
def dmatrix.set (M : dmatrix) (r c : Nat) (v : ℚ) : dmatrix :=
  ⟨M.size1, M.size2, fun a b => if a = r ∧ b = c then v else M.data a b⟩

/-- Modelled from the spec: `setVector3(v, M, top, col)`: the three components of `v` are
written to rows `top`, `top+1`, `top+2` of column `col`. -/
def setVector3 (v : Vector3) (M : dmatrix) (top col : Nat) : dmatrix :=
  ((M.set top col v.x).set (top + 1) col v.y).set (top + 2) col v.z

/-- Modelled from the spec: `JointPath::isJointDownward(index)` of `LinkPath.h`: joint
`index` is downward when `index >= numUpwardJointConnections`. -/
def JointPath.isJointDownward (self : JointPath) (index : Int) : Bool :=
  decide (self.numUpwardJointConnections ≤ index)

/-- The body of the `for` loop of `JointPath::calcJacobian` for column `i`, whose joint is
the link record `link`; `targetLink` is the record of the end link. -/
def JointPath.jacobianColumn (fl : ℚ → ℚ) (self : JointPath) (targetLink link : Link)
    (i : Nat) (out_J : dmatrix) : dmatrix :=
  match link.jointType with
  | JointType.ROTATIONAL_JOINT =>
    let omega0 : Vector3 := link.R.mulVec fl link.a
    let arm : Vector3 := targetLink.p.sub fl link.p
    let omega : Vector3 := if !self.isJointDownward i then omega0.scale fl (-1) else omega0
    let dp : Vector3 := cross fl omega arm
    setVector3 omega (setVector3 dp out_J 0 i) 3 i
  | JointType.SLIDE_JOINT =>
    let dp0 : Vector3 := link.R.mulVec fl link.d
    let dp : Vector3 := if !self.isJointDownward i then dp0.scale fl (-1) else dp0
    (((setVector3 dp out_J 0 i).set 3 i 0).set 4 i 0).set 5 i 0
  | _ =>
    -- for(int j=0; j < 6; ++j) out_J(j, i) = 0.0;
    (((((out_J.set 0 i 0).set 1 i 0).set 2 i 0).set 3 i 0).set 4 i 0).set 5 i 0

/-- The loop `for(int i=0; i < n; ++i)` of `JointPath::calcJacobian`. -/
def JointPath.jacobianLoop (fl : ℚ → ℚ) (T : Body) (self : JointPath) (targetLink : Link)
    (n : Nat) : Nat → Nat → dmatrix → Option dmatrix
  | 0, _, _ => none
  | fuel + 1, i, out_J =>
    if i < n then
      -- Link* link = joints[i];
      match self.joints[i]? with
      | none => none
      | some j =>
        match T[j]? with
        | none => none
        | some link =>
          JointPath.jacobianLoop fl T self targetLink n fuel (i + 1)
            (self.jacobianColumn fl targetLink link i out_J)
    else
      some out_J

/-- Source function `JointPath::calcJacobian(out_J)`; `LinkPath::endLink()` is `links.back()`. -/
def JointPath.calcJacobian (fl : ℚ → ℚ) (T : Body) (self : JointPath) (out_J : dmatrix) :
    Option dmatrix :=
  let n := self.joints.length
  let J := out_J.resize 6 n
  if 0 < n then
    match self.links.getLast? with
    | none => none
    | some target =>
      match T[target]? with
      | none => none
      | some targetLink => JointPath.jacobianLoop fl T self targetLink n (n + 1) 0 J
  else
    some J

/-- The column the Jacobian Builder of the spec prescribes for a joint held by `link`, over
exact arithmetic (the rounding is `id`): for a rotational joint the axis `ω = R a` (negated
when the joint is not downward), linear part `ω × (p_end - p)` in rows 0-2 and `ω` in rows
3-5; for a prismatic joint `R d` (negated when not downward) in rows 0-2 and zero in rows 3-5;
zero for any other joint kind. -/
def specColumn (link : Link) (p_end : Vector3) (downward : Bool) (row : Nat) : ℚ :=
  match link.jointType with
  | JointType.ROTATIONAL_JOINT =>
    let w : Vector3 :=
      if downward then link.R.mulVec id link.a else (link.R.mulVec id link.a).neg
    let v : Vector3 := cross id w (p_end.sub id link.p)
    match row with
    | 0 => v.x
    | 1 => v.y
    | 2 => v.z
    | 3 => w.x
    | 4 => w.y
    | 5 => w.z
    | _ => 0
  | JointType.SLIDE_JOINT =>
    let v : Vector3 :=
      if downward then link.R.mulVec id link.d else (link.R.mulVec id link.d).neg
    match row with
    | 0 => v.x
    | 1 => v.y
    | 2 => v.z
    | _ => 0
  | _ => 0

/-- The six entries that the loop body of `calcJacobian` writes into the column of a joint
held by `link`, under the rounding `fl`: the values of `dp` and `omega` (rotational joint), of
`dp` and zeros (prismatic joint), or zeros. -/
def columnEntry (fl : ℚ → ℚ) (link : Link) (p_end : Vector3) (downward : Bool) (row : Nat) :
    ℚ :=
  match link.jointType with
  | JointType.ROTATIONAL_JOINT =>
    let w : Vector3 :=
      if downward then link.R.mulVec fl link.a else (link.R.mulVec fl link.a).scale fl (-1)
    let v : Vector3 := cross fl w (p_end.sub fl link.p)
    match row with
    | 0 => v.x
    | 1 => v.y
    | 2 => v.z
    | 3 => w.x
    | 4 => w.y
    | 5 => w.z
    | _ => 0
  | JointType.SLIDE_JOINT =>
    let v : Vector3 :=
      if downward then link.R.mulVec fl link.d else (link.R.mulVec fl link.d).scale fl (-1)
    match row with
    | 0 => v.x
    | 1 => v.y
    | 2 => v.z
    | _ => 0
  | _ => 0

/-- The collaborators of the IK solver that are not part of `LinkPath.cpp`: the rotation
logarithm `omegaFromRot`, the two linear solvers of `MatrixSolvers.h` (each maps the matrix,
the right-hand side and the previous content of the output vector to the new output vector),
forward kinematics `calcForwardKinematics()` (a map on the arena, for a given path), the
contents of freshly constructed, uninitialised `dmatrix J(6, n)` and `dvector dq(n)`, and the
rounding `fl` of the machine's `double` arithmetic. -/
structure IKEnv where
  omegaFromRot : Matrix33 → Vector3
  solveLinearEquationLU : dmatrix → dvector → dvector → dvector
  solveLinearEquationSVD : dmatrix → dvector → dvector → dvector
  calcForwardKinematics : JointPath → Body → Body
  freshJ : Nat → Nat → ℚ
  freshDq : dvector
  fl : ℚ → ℚ

/-- The calls the IK solver makes, in the order it makes them. -/
inductive IKEvent where
  | jacobian
  | solveLU
  | solveSVD
  | forwardKinematics
  deriving DecidableEq, Repr

/-- The mutable state of one run of `calcInverseKinematics`: the arena (joint values and
poses), the locals `J`, `dq` and the outer `errsqr`, and the calls made so far. -/
structure IKState where
  body : Body
  J : dmatrix
  dq : dvector
  errsqr : ℚ
  trace : List IKEvent

/-- Source constant `static const int MAX_IK_ITERATION = 50`. -/
def MAX_IK_ITERATION : Nat := 50

/-- Source constant `static const double LAMBDA = 0.9`: the `double` nearest to 9/10. -/
def LAMBDA (fl : ℚ → ℚ) : ℚ := fl (9 / 10)

/-- The assignment `link->q = v` on the arena. -/
def setQ (T : Body) (link : Nat) (v : ℚ) : Option Body :=
  match T[link]? with
  | none => none
  | some L => some (T.set link ⟨L.name, L.parent, L.child, L.sibling, L.jointType, v, L.p, L.R,
      L.a, L.d, L.Rs⟩)

/-- The loop `qorg[i] = joints[i]->q`. -/
def saveQ (T : Body) : List Nat → Option (List ℚ)
  | [] => some []
  | link :: rest =>
    match T[link]? with
    | none => none
    | some L =>
      match saveQ T rest with
      | none => none
      | some qs => some (L.q :: qs)

/-- The loop `joints[j]->q += LAMBDA * dq(j)`, from index `j` on. -/
def applyDq (fl : ℚ → ℚ) (dq : dvector) : List Nat → Nat → Body → Option Body
  | [], _, T => some T
  | link :: rest, j, T =>
    match T[link]? with
    | none => none
    | some L =>
      match setQ T link (fl (L.q + fl (LAMBDA fl * dq j))) with
      | none => none
      | some T1 => applyDq fl dq rest (j + 1) T1

/-- The loop `joints[i]->q = qorg[i]`. -/
def restoreQ : List Nat → List ℚ → Body → Option Body
  | link :: rest, q0 :: qs, T =>
    match setQ T link q0 with
    | none => none
    | some T1 => restoreQ rest qs T1
  | _, _, T => some T

/-- Modelled from the spec: `setVector3(dp, v, 0); setVector3(omega, v, 3)` on the 6-vector
`v`: the position error in entries 0-2 and the orientation error in entries 3-5. -/
def packPose (dp omega : Vector3) : dvector := fun k =>
  match k with
  | 0 => dp.x
  | 1 => dp.y
  | 2 => dp.z
  | 3 => omega.x
  | 4 => omega.y
  | 5 => omega.z
  | _ => 0

/-- The first half of one loop round: `calcJacobian(J)`, then the position error `dp` and the
orientation error `omega` of the end link against the target pose. -/
def JointPath.ikError (env : IKEnv) (self : JointPath) (target : Nat) (end_p : Vector3)
    (end_R : Matrix33) (st : IKState) : Option (Vector3 × Vector3 × IKState) :=
  match self.calcJacobian env.fl st.body st.J with
  | none => none
  | some J =>
    match st.body[target]? with
    | none => none
    | some targetLink =>
      let dp : Vector3 := end_p.sub env.fl targetLink.p
      let omega : Vector3 :=
        targetLink.R.mulVec env.fl (env.omegaFromRot ((trans targetLink.R).mul env.fl end_R))
      some (dp, omega, ⟨st.body, J, st.dq, st.errsqr, st.trace ++ [IKEvent.jacobian]⟩)

/-- The second half of one loop round: the linear solve (LU when `n == 6`, SVD otherwise),
the damped update of the joint values, and forward kinematics. -/
def JointPath.ikUpdate (env : IKEnv) (self : JointPath) (dp omega : Vector3)
    (st : IKState) : Option IKState :=
  let v : dvector := packPose dp omega
  let n := self.joints.length
  let dq : dvector :=
    if n = 6 then env.solveLinearEquationLU st.J v st.dq
    else env.solveLinearEquationSVD st.J v st.dq
  match applyDq env.fl dq self.joints 0 st.body with
  | none => none
  | some T1 =>
    some ⟨env.calcForwardKinematics self T1, st.J, dq, st.errsqr,
      st.trace ++ [if n = 6 then IKEvent.solveLU else IKEvent.solveSVD,
        IKEvent.forwardKinematics]⟩

/-- The loop `for(int i=0; i < MAX_IK_ITERATION; i++)` of `calcInverseKinematics`, by the
number of rounds left; the result is `converged` with the state at loop exit. -/
def JointPath.ikLoop (env : IKEnv) (self : JointPath) (target : Nat) (end_p : Vector3)
    (end_R : Matrix33) : Nat → IKState → Option (Bool × IKState)
  | 0, st => some (false, st)
  | left + 1, st =>
    match self.ikError env target end_p end_R st with
    | none => none
    | some (dp, omega, st1) =>
      let errsqrNew : ℚ := env.fl (dot env.fl dp dp + dot env.fl omega omega)
      if self.isBestEffortIKMode then
        -- const double errsqr0 = errsqr; errsqr = dot(dp, dp) + dot(omega, omega);
        let st2 : IKState := ⟨st1.body, st1.J, st1.dq, errsqrNew, st1.trace⟩
        -- if(fabs(errsqr - errsqr0) < maxIKErrorSqr)
        if |env.fl (errsqrNew - st1.errsqr)| < self.maxIKErrorSqr then
          some (true, st2)
        else
          match self.ikUpdate env dp omega st2 with
          | none => none
          | some st3 => JointPath.ikLoop env self target end_p end_R left st3
      else
        -- const double errsqr = dot(dp, dp) + dot(omega, omega);
        if errsqrNew < self.maxIKErrorSqr then
          some (true, st1)
        else
          match self.ikUpdate env dp omega st1 with
          | none => none
          | some st3 => JointPath.ikLoop env self target end_p end_R left st3

/-- Source function `JointPath::calcInverseKinematics(end_p, end_R0)`: the returned flag, the
arena on return, and the calls made. -/
def JointPath.calcInverseKinematics (env : IKEnv) (T : Body) (self : JointPath)
    (end_p : Vector3) (end_R0 : Matrix33) : Option (Bool × Body × List IKEvent) :=
  if self.joints.isEmpty then
    some (false, T, [])
  else
    let n := self.joints.length
    if n < 1 then
      some (false, T, [])
    else
      -- Link* target = LinkPath::endLink();
      match self.links.getLast? with
      | none => none
      | some target =>
        match T[target]? with
        | none => none
        | some targetLink =>
          let end_R : Matrix33 := end_R0.mul env.fl (trans targetLink.Rs)
          match saveQ T self.joints with
          | none => none
          | some qorg =>
            let st0 : IKState :=
              ⟨T, ⟨6, n, env.freshJ⟩, env.freshDq, env.fl (self.maxIKErrorSqr * 100), []⟩
            match self.ikLoop env target end_p end_R MAX_IK_ITERATION st0 with
            | none => none
            | some (converged, st) =>
              if !converged then
                match restoreQ self.joints qorg st.body with
                | none => none
                | some T1 =>
                  some (false, env.calcForwardKinematics self T1,
                    st.trace ++ [IKEvent.forwardKinematics])
              else
                some (true, st.body, st.trace)

/-- A sample environment: the rotation logarithm is constantly zero, both solvers return the
vector of ones, forward kinematics places every link at `(q, 0, 0)` for its joint value `q`,
fresh storage holds zeros, and the arithmetic rounds to the nearest `double`. -/
def sampleEnv : IKEnv :=
  ⟨fun _ => ⟨0, 0, 0⟩, fun _ _ _ => fun _ => 1, fun _ _ _ => fun _ => 1,
    fun _ B => B.map (fun L => ⟨L.name, L.parent, L.child, L.sibling, L.jointType, L.q,
      ⟨L.q, 0, 0⟩, L.R, L.a, L.d, L.Rs⟩),
    fun _ _ => 0, fun _ => 0, roundDouble⟩

/-- The sample joint path 3, 1, 4 over the link path 3, 1, 0, 4, in strict mode with the
threshold of `initialize()`. -/
def samplePath : JointPath := ⟨⟨[3, 1, 0, 4], 2⟩, [3, 1, 4], 2, initialMaxIKErrorSqr, false⟩

/-- One loop round that does not stop: Jacobian and pose error, then the damped update. -/
def JointPath.ikRound (env : IKEnv) (self : JointPath) (target : Nat) (end_p : Vector3)
    (end_R : Matrix33) (st : IKState) : Option IKState :=
  match self.ikError env target end_p end_R st with
  | none => none
  | some (dp, omega, st1) => self.ikUpdate env dp omega st1

/-- The state reached from `st` after `k` damped updates. -/
def JointPath.ikStateAfter (env : IKEnv) (self : JointPath) (target : Nat) (end_p : Vector3)
    (end_R : Matrix33) : Nat → IKState → Option IKState
  | 0, st => some st
  | k + 1, st =>
    match self.ikRound env target end_p end_R st with
    | none => none
    | some st1 => JointPath.ikStateAfter env self target end_p end_R k st1

/-- The squared pose error `dot(dp, dp) + dot(omega, omega)` of a state. -/
def JointPath.ikErrSqr (env : IKEnv) (self : JointPath) (target : Nat) (end_p : Vector3)
    (end_R : Matrix33) (st : IKState) : Option ℚ :=
  match self.ikError env target end_p end_R st with
  | none => none
  | some (dp, omega, _) => some (env.fl (dot env.fl dp dp + dot env.fl omega omega))

/-- Predicate `StrictHit ... st0 k st'`: the state after `k` damped updates from `st0` is the
first one whose squared pose error is below `maxIKErrorSqr`, and `st'` is that state with its Jacobian
built. -/
def StrictHit (env : IKEnv) (self : JointPath) (target : Nat) (end_p : Vector3)
    (end_R : Matrix33) (st0 : IKState) (k : Nat) (st' : IKState) : Prop :=
  ∃ stk dp omega, self.ikStateAfter env target end_p end_R k st0 = some stk ∧
    self.ikError env target end_p end_R stk = some (dp, omega, st') ∧
    env.fl (dot env.fl dp dp + dot env.fl omega omega) < self.maxIKErrorSqr ∧
    ∀ j, j < k → ∀ stj e, self.ikStateAfter env target end_p end_R j st0 = some stj →
      self.ikErrSqr env target end_p end_R stj = some e → ¬ e < self.maxIKErrorSqr

/-- The number of decrements the loop of `extractJoints` applies to
`numUpwardJointConnections` over the links `ls`, the first of which has Path index `i`: one
for each link that is not actuated and whose index is not downward. -/
def skipCount (T : Body) (path : LinkPath) : Nat → List Nat → Nat
  | _, [] => 0
  | i, l :: rest =>
    (if !isJointAt T l && !path.isDownward i then 1 else 0) + skipCount T path (i + 1) rest

/-- The calls made by `k` full loop rounds of the IK solver with `n` joints: Jacobian, linear
solve (LU when `n = 6`, SVD otherwise), forward kinematics, `k` times over. -/
def ikRounds (n k : Nat) : List IKEvent :=
  (List.replicate k [IKEvent.jacobian, if n = 6 then IKEvent.solveLU else IKEvent.solveSVD,
    IKEvent.forwardKinematics]).flatten

/-- The sample joint path 3, 1, 4 over the link path 3, 1, 0, 4, in best-effort mode with
threshold `maxIKErrorSqr = 0.01` (the `double` nearest to 1/100). -/
def sampleBestEffortPath : JointPath :=
  ⟨⟨[3, 1, 0, 4], 2⟩, [3, 1, 4], 2, roundDouble (1 / 100), true⟩

/-- Source constructor `JointPath::JointPath(Link* root, Link* end)`: the base constructor
`LinkPath(root, end)` runs `find(root, end)` and drops its result, then `initialize()` and
`extractJoints()` run. The `links.size()` null entries that `joints(links.size())` creates and
the unset `numUpwardJointConnections` are overwritten by `extractJoints()` before they are read;
they are given as the empty sequence and zero. -/
def JointPath.construct (T : Body) (fuel : Nat) (root : Nat) (end_ : Ptr) : Option JointPath :=
  match LinkPath.find T fuel root end_ ⟨[], 0⟩ with
  | none => none
  | some (_, lp) =>
    -- initialize(); extractJoints();
    JointPath.extractJoints T ⟨lp, [], 0, initialMaxIKErrorSqr, false⟩

/-- The loop `for(int i=0; i < n; ++i)` of `JointPath::putInformation`, on the text written
to the stream so far; `joint(i)` is `joints[i]`. -/
def JointPath.putInformationLoop (T : Body) (self : JointPath) (n : Nat) :
    Nat → Nat → String → Option String
  | 0, _, _ => none
  | fuel + 1, i, os =>
    if i < n then
      -- Link* link = joint(i);
      match self.joints[i]? with
      | none => none
      | some j =>
        match T[j]? with
        | none => none
        | some link =>
          -- os << link->name;
          let os1 := os ++ link.name
          -- if(i != n){ os << (isDownward(i) ? " => " : " <= "); }
          let os2 := if i ≠ n then os1 ++ (if self.isDownward i then " => " else " <= ") else os1
          JointPath.putInformationLoop T self n fuel (i + 1) os2
    else
      some os

/-- Source function `JointPath::putInformation(os)`: the stream is the text written so far,
`numJoints()` is `joints.size()` and `std::endl` writes a line feed. -/
def JointPath.putInformation (T : Body) (self : JointPath) (os : String) : Option String :=
  let n := self.joints.length
  match JointPath.putInformationLoop T self n (n + 1) 0 os with
  | none => none
  | some os1 => some (os1 ++ "\n")

/-- A link record with the given name, tree pointers, joint kind and position, with the
identity attitude, joint axis `z` and joint value zero. -/
def toolLink (name : String) (parent child sibling : Ptr) (jointType : JointType)
    (p : Vector3) : Link :=
  ⟨name, parent, child, sibling, jointType, 0, p,
    ⟨⟨1, 0, 0⟩, ⟨0, 1, 0⟩, ⟨0, 0, 1⟩⟩, ⟨0, 0, 1⟩, ⟨0, 0, 1⟩,
    ⟨⟨1, 0, 0⟩, ⟨0, 1, 0⟩, ⟨0, 0, 1⟩⟩⟩

/-- A sample tree `0 → {1 → {2}, 3 → {4}}` with a fixed base and mount, a rotational tool on
the mount, and a rotational shoulder at `(1, 0, 0)` carrying a rotational elbow at
`(2, 0, 0)`. -/
def toolBody : Body :=
  [ toolLink "BASE" none (some 1) none JointType.FIXED_JOINT ⟨0, 0, 0⟩,
    toolLink "MOUNT" (some 0) (some 2) (some 3) JointType.FIXED_JOINT ⟨0, 0, 0⟩,
    toolLink "TOOL" (some 1) none none JointType.ROTATIONAL_JOINT ⟨0, 0, 0⟩,
    toolLink "SHOULDER" (some 0) (some 4) none JointType.ROTATIONAL_JOINT ⟨1, 0, 0⟩,
    toolLink "ELBOW" (some 3) none none JointType.ROTATIONAL_JOINT ⟨2, 0, 0⟩ ]
/-- Following the spec's words (damped update `q_j += 0.9 * dq_j`): the link record `L` with
its joint value advanced by 0.9 times the step `dqj`, in `double` arithmetic with rounding
`fl`; every other field is kept. -/
def dampedLink (fl : ℚ → ℚ) (L : Link) (dqj : ℚ) : Link :=
  ⟨L.name, L.parent, L.child, L.sibling, L.jointType, fl (L.q + fl (fl (9 / 10) * dqj)), L.p,
    L.R, L.a, L.d, L.Rs⟩

/-- Following the spec's words: `U` is the arena `B` after one damped update by the solver
output `dq`: for every `j` the link of joint `j` has had its joint value advanced by
`0.9 * dq(j)`, and no other link and no other field has changed. -/
def DampedUpdate (fl : ℚ → ℚ) (joints : List Nat) (dq : dvector) (B U : Body) : Prop :=
  U.length = B.length ∧
  (∀ l, l ∉ joints → U[l]? = B[l]?) ∧
  ∀ (j l : Nat) (L : Link), joints[j]? = some l → B[l]? = some L →
    U[l]? = some (dampedLink fl L (dq j))

/-- Following the spec's words: the 6-vector of the pose error of the end link against the
target pose: the position error `end_p - p` in entries 0-2 and the orientation error
`R * omegaFromRot(R^T * end_R)` in entries 3-5. -/
def poseError (env : IKEnv) (targetLink : Link) (end_p : Vector3) (end_R : Matrix33) :
    dvector :=
  packPose (end_p.sub env.fl targetLink.p)
    (targetLink.R.mulVec env.fl (env.omegaFromRot ((trans targetLink.R).mul env.fl end_R)))

/-- Following the spec's words, one full iteration of the solver, from the arena, the
Jacobian storage and the step storage `s` to `s'`: the Jacobian `J` of the current arena is
built, the step `dq` solves `J dq = v` for the pose error `v` by the direct square solve when
the joint count is 6 and by the least-squares solve otherwise, every joint value is advanced
by `0.9 * dq(j)`, and forward kinematics is run. -/
def DampedRound (env : IKEnv) (self : JointPath) (target : Nat) (end_p : Vector3)
    (end_R : Matrix33) (s s' : Body × dmatrix × dvector) : Prop :=
  ∃ (J : dmatrix) (targetLink : Link) (U : Body),
    self.calcJacobian env.fl s.1 s.2.1 = some J ∧ s.1[target]? = some targetLink ∧
    DampedUpdate env.fl self.joints
      (if self.joints.length = 6 then
        env.solveLinearEquationLU J (poseError env targetLink end_p end_R) s.2.2
      else env.solveLinearEquationSVD J (poseError env targetLink end_p end_R) s.2.2) s.1 U ∧
    s' = (env.calcForwardKinematics self U, J,
      if self.joints.length = 6 then
        env.solveLinearEquationLU J (poseError env targetLink end_p end_R) s.2.2
      else env.solveLinearEquationSVD J (poseError env targetLink end_p end_R) s.2.2)

/-- Predicate `DampedRounds ... k s s'`: exactly `k` full iterations lead from `s` to `s'`. -/
inductive DampedRounds (env : IKEnv) (self : JointPath) (target : Nat) (end_p : Vector3)
    (end_R : Matrix33) : Nat → Body × dmatrix × dvector → Body × dmatrix × dvector → Prop where
  | zero (s : Body × dmatrix × dvector) : DampedRounds env self target end_p end_R 0 s s
  | step {k : Nat} {s s1 s2 : Body × dmatrix × dvector} :
      DampedRound env self target end_p end_R s s1 →
      DampedRounds env self target end_p end_R k s1 s2 →
      DampedRounds env self target end_p end_R (k + 1) s s2

/-! ## Theorems -/

theorem findPathSub_succ (T : Body) (n link : Nat) (prev end_ : Ptr) (isUp : Bool)
    (s : LinkPath) :
    LinkPath.findPathSub T (n + 1) link prev end_ isUp s =
      if some link = end_ then some (true, pushLink s link isUp)
      else
        match T[link]? with
        | none => none
        | some L =>
          match LinkPath.findPathSubChildren T n L.child link prev end_ (pushLink s link isUp) with
          | none => none
          | some (true, s2) => some (true, s2)
          | some (false, s2) =>
            match parentStep T n L.parent link prev end_ s2 with
            | none => none
            | some (true, s3) => some (true, s3)
            | some (false, s3) => some (false, popLink s3 isUp) := by
  rfl

theorem findPathSubChildren_succ (T : Body) (n : Nat) (ch : Nat) (link : Nat)
    (prev end_ : Ptr) (s : LinkPath) :
    LinkPath.findPathSubChildren T (n + 1) (some ch) link prev end_ s =
      match childVisit T n ch link prev end_ s with
      | none => none
      | some (true, s1) => some (true, s1)
      | some (false, s1) =>
        match T[ch]? with
        | none => none
        | some C => LinkPath.findPathSubChildren T n C.sibling link prev end_ s1 := by
  rfl


theorem findPathSub_eq_some_iff (T : Body) (n link : Nat) (prev end_ : Ptr) (isUp : Bool)
    (s : LinkPath) (r : Bool × LinkPath) :
    LinkPath.findPathSub T (n + 1) link prev end_ isUp s = some r ↔
      (some link = end_ ∧ r = (true, pushLink s link isUp)) ∨
      (some link ≠ end_ ∧ ∃ L, T[link]? = some L ∧
        ∃ r2, LinkPath.findPathSubChildren T n L.child link prev end_ (pushLink s link isUp)
            = some r2 ∧
          ((r2.1 = true ∧ r = r2) ∨
           (r2.1 = false ∧ ∃ r3, parentStep T n L.parent link prev end_ r2.2 = some r3 ∧
              ((r3.1 = true ∧ r = r3) ∨ (r3.1 = false ∧ r = (false, popLink r3.2 isUp)))))) := by
  rw [findPathSub_succ]
  constructor
  · intro h
    split at h
    · rename_i he
      left
      exact ⟨he, (Option.some.inj h).symm⟩
    · rename_i he
      right
      refine ⟨he, ?_⟩
      split at h
      · exact absurd h (by simp)
      · rename_i L hL
        refine ⟨L, hL, ?_⟩
        split at h
        · exact absurd h (by simp)
        · rename_i s2 hc
          exact ⟨_, hc, Or.inl ⟨rfl, (Option.some.inj h).symm⟩⟩
        · rename_i s2 hc
          refine ⟨_, hc, Or.inr ⟨rfl, ?_⟩⟩
          split at h
          · exact absurd h (by simp)
          · rename_i s3 hp
            exact ⟨_, hp, Or.inl ⟨rfl, (Option.some.inj h).symm⟩⟩
          · rename_i s3 hp
            exact ⟨_, hp, Or.inr ⟨rfl, (Option.some.inj h).symm⟩⟩
  · rintro (⟨he, rfl⟩ | ⟨he, L, hL, ⟨b2, s2⟩, hc, h⟩)
    · rw [if_pos he]
    · rw [if_neg he, hL]
      simp only
      rw [hc]
      rcases h with ⟨hb, rfl⟩ | ⟨hb, ⟨b3, s3⟩, hp, h⟩
      · simp only at hb
        subst hb
        rfl
      · simp only at hb hp
        subst hb
        simp only
        rw [hp]
        rcases h with ⟨hb, rfl⟩ | ⟨hb, rfl⟩
        · simp only at hb
          subst hb
          rfl
        · simp only at hb
          subst hb
          rfl

theorem findPathSubChildren_eq_some_iff (T : Body) (n : Nat) (c : Ptr) (link : Nat)
    (prev end_ : Ptr) (s : LinkPath) (r : Bool × LinkPath) :
    LinkPath.findPathSubChildren T (n + 1) c link prev end_ s = some r ↔
      (c = none ∧ r = (false, s)) ∨
      (∃ ch, c = some ch ∧ ∃ r1, childVisit T n ch link prev end_ s = some r1 ∧
        ((r1.1 = true ∧ r = r1) ∨
         (r1.1 = false ∧ ∃ C, T[ch]? = some C ∧
            LinkPath.findPathSubChildren T n C.sibling link prev end_ r1.2 = some r))) := by
  cases c with
  | none =>
    rw [LinkPath.findPathSubChildren]
    constructor
    · intro h
      exact Or.inl ⟨rfl, (Option.some.inj h).symm⟩
    · rintro (⟨-, rfl⟩ | ⟨ch, hch, -⟩)
      · rfl
      · exact absurd hch (by simp)
  | some ch =>
    rw [findPathSubChildren_succ]
    constructor
    · intro h
      right
      refine ⟨ch, rfl, ?_⟩
      split at h
      · exact absurd h (by simp)
      · rename_i s1 hv
        exact ⟨_, hv, Or.inl ⟨rfl, (Option.some.inj h).symm⟩⟩
      · rename_i s1 hv
        refine ⟨_, hv, Or.inr ⟨rfl, ?_⟩⟩
        split at h
        · exact absurd h (by simp)
        · rename_i C hC
          exact ⟨C, hC, h⟩
    · rintro (⟨hc, -⟩ | ⟨ch2, hch, ⟨b1, s1⟩, hv, h⟩)
      · exact absurd hc (by simp)
      · obtain rfl : ch = ch2 := Option.some.inj hch
        rw [hv]
        rcases h with ⟨hb, rfl⟩ | ⟨hb, C, hC, h⟩
        · simp only at hb
          subst hb
          rfl
        · simp only at hb h
          subst hb
          simp only
          rw [hC]
          exact h

theorem findPathSub_zero (T : Body) (link : Nat) (prev end_ : Ptr) (isUp : Bool)
    (s : LinkPath) : LinkPath.findPathSub T 0 link prev end_ isUp s = none := by
  rfl

theorem findPathSubChildren_zero (T : Body) (c : Ptr) (link : Nat) (prev end_ : Ptr)
    (s : LinkPath) : LinkPath.findPathSubChildren T 0 c link prev end_ s = none := by
  cases c <;> rfl

theorem findPathSub_mono_succ (T : Body) : ∀ fuel,
    (∀ link prev end_ isUp s r, LinkPath.findPathSub T fuel link prev end_ isUp s = some r →
      LinkPath.findPathSub T (fuel + 1) link prev end_ isUp s = some r) ∧
    (∀ c link prev end_ s r, LinkPath.findPathSubChildren T fuel c link prev end_ s = some r →
      LinkPath.findPathSubChildren T (fuel + 1) c link prev end_ s = some r) := by
  intro fuel
  induction fuel with
  | zero =>
    constructor
    · intro link prev end_ isUp s r h
      rw [findPathSub_zero] at h
      exact absurd h (by simp)
    · intro c link prev end_ s r h
      rw [findPathSubChildren_zero] at h
      exact absurd h (by simp)
  | succ n ih =>
    obtain ⟨ih1, ih2⟩ := ih
    constructor
    · intro link prev end_ isUp s r h
      rw [findPathSub_eq_some_iff] at h ⊢
      rcases h with h | ⟨he, L, hL, r2, hc, h⟩
      · exact Or.inl h
      · refine Or.inr ⟨he, L, hL, r2, ih2 _ _ _ _ _ _ hc, ?_⟩
        rcases h with h | ⟨hb, r3, hp, h⟩
        · exact Or.inl h
        · refine Or.inr ⟨hb, r3, ?_, h⟩
          unfold parentStep at hp ⊢
          cases hpar : L.parent with
          | none => rw [hpar] at hp; exact hp
          | some p =>
            rw [hpar] at hp
            simp only at hp ⊢
            split at hp
            · rename_i hne
              rw [if_pos hne]
              exact ih1 _ _ _ _ _ _ hp
            · rename_i hne
              rw [if_neg hne]
              exact hp
    · intro c link prev end_ s r h
      rw [findPathSubChildren_eq_some_iff] at h ⊢
      rcases h with h | ⟨ch, hch, r1, hv, h⟩
      · exact Or.inl h
      · refine Or.inr ⟨ch, hch, r1, ?_, ?_⟩
        · unfold childVisit at hv ⊢
          split at hv
          · rename_i hne
            rw [if_pos hne]
            exact ih1 _ _ _ _ _ _ hv
          · rename_i hne
            rw [if_neg hne]
            exact hv
        · rcases h with h | ⟨hb, C, hC, h⟩
          · exact Or.inl h
          · exact Or.inr ⟨hb, C, hC, ih2 _ _ _ _ _ _ h⟩

theorem findPathSub_mono (T : Body) {n m : Nat} (hnm : n ≤ m) {link : Nat} {prev end_ : Ptr}
    {isUp : Bool} {s : LinkPath} {r : Bool × LinkPath}
    (h : LinkPath.findPathSub T n link prev end_ isUp s = some r) :
    LinkPath.findPathSub T m link prev end_ isUp s = some r := by
  induction hnm with
  | refl => exact h
  | step _ ih => exact (findPathSub_mono_succ T _).1 _ _ _ _ _ _ ih

theorem findPathSubChildren_mono (T : Body) {n m : Nat} (hnm : n ≤ m) {c : Ptr} {link : Nat}
    {prev end_ : Ptr} {s : LinkPath} {r : Bool × LinkPath}
    (h : LinkPath.findPathSubChildren T n c link prev end_ s = some r) :
    LinkPath.findPathSubChildren T m c link prev end_ s = some r := by
  induction hnm with
  | refl => exact h
  | step _ ih => exact (findPathSub_mono_succ T _).2 _ _ _ _ _ _ ih
theorem popLink_pushLink (s : LinkPath) (link : Nat) (isUp : Bool) :
    popLink (pushLink s link isUp) isUp = s := by
  cases isUp <;> simp [popLink, pushLink]

theorem par_eq_some_iff (T : Body) (i p : Nat) :
    par T i = some p ↔ ∃ L, T[i]? = some L ∧ L.parent = some p := by
  unfold par
  cases h : T[i]? with
  | none => simp
  | some L => simp

theorem parentStep_eq_some_iff (T : Body) (n : Nat) (parent : Ptr) (link : Nat)
    (prev end_ : Ptr) (s : LinkPath) (r : Bool × LinkPath) :
    parentStep T n parent link prev end_ s = some r ↔
      ((parent = none ∨ parent = prev) ∧ r = (false, s)) ∨
      (∃ p, parent = some p ∧ some p ≠ prev ∧
        LinkPath.findPathSub T n p (some link) end_ true s = some r) := by
  unfold parentStep
  cases parent with
  | none =>
    constructor
    · intro h
      exact Or.inl ⟨Or.inl rfl, (Option.some.inj h).symm⟩
    · rintro (⟨-, rfl⟩ | ⟨p, hp, -⟩)
      · rfl
      · exact absurd hp (by simp)
  | some p =>
    simp only
    by_cases hp : some p = prev
    · rw [if_neg (not_not.mpr hp)]
      constructor
      · intro h
        exact Or.inl ⟨Or.inr hp, (Option.some.inj h).symm⟩
      · rintro (⟨-, rfl⟩ | ⟨q, hq, hne, -⟩)
        · rfl
        · exact absurd (hq.symm.trans hp) hne
    · rw [if_pos hp]
      constructor
      · intro h
        exact Or.inr ⟨p, rfl, hp, h⟩
      · rintro (⟨h | h, -⟩ | ⟨q, hq, -, h⟩)
        · exact absurd h (by simp)
        · exact absurd h hp
        · obtain rfl : p = q := Option.some.inj hq
          exact h

theorem childVisit_eq_some_iff (T : Body) (n : Nat) (ch : Nat) (link : Nat)
    (prev end_ : Ptr) (s : LinkPath) (r : Bool × LinkPath) :
    childVisit T n ch link prev end_ s = some r ↔
      (some ch = prev ∧ r = (false, s)) ∨
      (some ch ≠ prev ∧ LinkPath.findPathSub T n ch (some link) end_ false s = some r) := by
  unfold childVisit
  by_cases hp : some ch = prev
  · rw [if_neg (not_not.mpr hp)]
    constructor
    · intro h
      exact Or.inl ⟨hp, (Option.some.inj h).symm⟩
    · rintro (⟨-, rfl⟩ | ⟨hne, -⟩)
      · rfl
      · exact absurd hp hne
  · rw [if_pos hp]
    constructor
    · intro h
      exact Or.inr ⟨hp, h⟩
    · rintro (⟨h, -⟩ | ⟨-, h⟩)
      · exact absurd h hp
      · exact h

/-- A failing call leaves the object state as it was on entry (any arena, any fuel). -/
theorem findPathSub_fail_state (T : Body) : ∀ fuel,
    (∀ link prev end_ isUp s s',
      LinkPath.findPathSub T fuel link prev end_ isUp s = some (false, s') → s' = s) ∧
    (∀ c link prev end_ s s',
      LinkPath.findPathSubChildren T fuel c link prev end_ s = some (false, s') → s' = s) := by
  intro fuel
  induction fuel with
  | zero =>
    constructor
    · intro link prev end_ isUp s s' h
      rw [findPathSub_zero] at h
      exact absurd h (by simp)
    · intro c link prev end_ s s' h
      rw [findPathSubChildren_zero] at h
      exact absurd h (by simp)
  | succ n ih =>
    obtain ⟨ih1, ih2⟩ := ih
    constructor
    · intro link prev end_ isUp s s' h
      rw [findPathSub_eq_some_iff] at h
      rcases h with ⟨-, h⟩ | ⟨he, L, hL, ⟨b2, s2⟩, hc, h⟩
      · exact absurd (congrArg Prod.fst h) (by simp)
      · rcases h with ⟨hb, h⟩ | ⟨hb, ⟨b3, s3⟩, hp, h⟩
        · simp only at hb
          subst hb
          exact absurd (congrArg Prod.fst h) (by simp)
        · simp only at hb hp
          subst hb
          have h2 : s2 = pushLink s link isUp := ih2 _ _ _ _ _ _ hc
          rcases h with ⟨hb3, h⟩ | ⟨hb3, h⟩
          · simp only at hb3
            subst hb3
            exact absurd (congrArg Prod.fst h) (by simp)
          · simp only at hb3 h
            subst hb3
            have h3 : s3 = s2 := by
              rw [parentStep_eq_some_iff] at hp
              rcases hp with ⟨-, hp⟩ | ⟨p, -, -, hp⟩
              · exact congrArg Prod.snd hp
              · exact ih1 _ _ _ _ _ _ hp
            have hs : s' = popLink s3 isUp := congrArg Prod.snd h
            rw [hs, h3, h2, popLink_pushLink]
    · intro c link prev end_ s s' h
      rw [findPathSubChildren_eq_some_iff] at h
      rcases h with ⟨-, h⟩ | ⟨ch, -, ⟨b1, s1⟩, hv, h⟩
      · exact congrArg Prod.snd h
      · rcases h with ⟨hb, h⟩ | ⟨hb, C, hC, h⟩
        · simp only at hb
          subst hb
          exact absurd (congrArg Prod.fst h) (by simp)
        · simp only at hb h
          subst hb
          have h1 : s1 = s := by
            rw [childVisit_eq_some_iff] at hv
            rcases hv with ⟨-, hv⟩ | ⟨-, hv⟩
            · exact congrArg Prod.snd hv
            · exact ih1 _ _ _ _ _ _ hv
          rw [ih2 _ _ _ _ _ _ h, h1]
/-- A succeeding call appends a walk from `link` to `end` and adds its upward steps. -/
theorem findPathSub_sound (T : Body) (hT : ChildrenOK T) : ∀ fuel,
    (∀ link prev end_ isUp s s',
      LinkPath.findPathSub T fuel link prev end_ isUp s = some (true, s') →
        ∃ e P k, end_ = some e ∧ Walk T link prev e P k ∧
          s' = ⟨s.links ++ P, s.numUpwardConnections + (if isUp then 1 else 0) + k⟩) ∧
    (∀ c cs link prev end_ s s', SibChain T c cs → (∀ j ∈ cs, par T j = some link) →
      LinkPath.findPathSubChildren T fuel c link prev end_ s = some (true, s') →
        ∃ j e P k, j ∈ cs ∧ some j ≠ prev ∧ end_ = some e ∧ Walk T j (some link) e P k ∧
          s' = ⟨s.links ++ P, s.numUpwardConnections + k⟩) := by
  intro fuel
  induction fuel with
  | zero =>
    constructor
    · intro link prev end_ isUp s s' h
      rw [findPathSub_zero] at h
      exact absurd h (by simp)
    · intro c cs link prev end_ s s' _ _ h
      rw [findPathSubChildren_zero] at h
      exact absurd h (by simp)
  | succ n ih =>
    obtain ⟨ih1, ih2⟩ := ih
    constructor
    · intro link prev end_ isUp s s' h
      rw [findPathSub_eq_some_iff] at h
      rcases h with ⟨he, h⟩ | ⟨he, L, hL, ⟨b2, s2⟩, hc, h⟩
      · refine ⟨link, [link], 0, he.symm, Walk.stop, ?_⟩
        have hs : s' = pushLink s link isUp := congrArg Prod.snd h
        rw [hs]
        cases isUp <;> simp [pushLink]
      · obtain ⟨cs, hcs, hmem⟩ := hT link L hL
        rcases h with ⟨hb, h⟩ | ⟨hb, ⟨b3, s3⟩, hp, h⟩
        · simp only at hb
          subst hb
          obtain rfl : s' = s2 := congrArg Prod.snd h
          obtain ⟨j, e, P, k, hj, hjp, hee, hw, hs⟩ :=
            ih2 _ cs _ _ _ _ _ hcs (fun j hj => (hmem j).1 hj) hc
          refine ⟨e, link :: P, k, hee, Walk.down ((hmem j).1 hj) hjp hw, ?_⟩
          rw [hs]
          cases isUp <;> simp [pushLink]
        · simp only at hb hp
          subst hb
          have h2 : s2 = pushLink s link isUp := (findPathSub_fail_state T n).2 _ _ _ _ _ _ hc
          rcases h with ⟨hb3, h⟩ | ⟨-, h⟩
          · simp only at hb3
            subst hb3
            obtain rfl : s' = s3 := congrArg Prod.snd h
            rw [parentStep_eq_some_iff] at hp
            rcases hp with ⟨-, hp⟩ | ⟨p, hpar, hne, hp⟩
            · exact absurd (congrArg Prod.fst hp) (by simp)
            · obtain ⟨e, P, k, hee, hw, hs⟩ := ih1 _ _ _ _ _ _ hp
              have hpl : par T link = some p := (par_eq_some_iff T link p).2 ⟨L, hL, hpar⟩
              refine ⟨e, link :: P, k + 1, hee, Walk.up hpl hne hw, ?_⟩
              rw [hs, h2]
              cases isUp <;> simp [pushLink] <;> ring
          · exact absurd (congrArg Prod.fst h) (by simp)
    · intro c cs link prev end_ s s' hcs hpar h
      rw [findPathSubChildren_eq_some_iff] at h
      rcases h with ⟨-, h⟩ | ⟨ch, hch, ⟨b1, s1⟩, hv, h⟩
      · exact absurd (congrArg Prod.fst h) (by simp)
      · subst hch
        cases hcs with
        | cons hC hrest =>
          rename_i C cs'
          rw [childVisit_eq_some_iff] at hv
          rcases h with ⟨hb, h⟩ | ⟨hb, C2, hC2, h⟩
          · simp only at hb
            subst hb
            obtain rfl : s' = s1 := congrArg Prod.snd h
            rcases hv with ⟨-, hv⟩ | ⟨hne, hv⟩
            · exact absurd (congrArg Prod.fst hv) (by simp)
            · obtain ⟨e, P, k, hee, hw, hs⟩ := ih1 _ _ _ _ _ _ hv
              refine ⟨ch, e, P, k, List.mem_cons_self _ _, hne, hee, hw, ?_⟩
              rw [hs]
              simp
          · simp only at hb h
            subst hb
            have h1 : s1 = s := by
              rcases hv with ⟨-, hv⟩ | ⟨-, hv⟩
              · exact congrArg Prod.snd hv
              · exact (findPathSub_fail_state T n).1 _ _ _ _ _ _ hv
            subst h1
            obtain rfl : C = C2 := Option.some.inj (hC.symm.trans hC2)
            obtain ⟨j, e, P, k, hj, hjp, hee, hw, hs⟩ :=
              ih2 _ cs' _ _ _ _ _ hrest (fun j hj => hpar j (List.mem_cons_of_mem _ hj)) h
            exact ⟨j, e, P, k, List.mem_cons_of_mem _ hj, hjp, hee, hw, hs⟩

/-- A failing call means no walk from `link` reaches `end`. -/
theorem findPathSub_complete (T : Body) (hT : ChildrenOK T) : ∀ fuel,
    (∀ link prev end_ isUp s s',
      LinkPath.findPathSub T fuel link prev end_ isUp s = some (false, s') →
        ∀ e P k, end_ = some e → ¬ Walk T link prev e P k) ∧
    (∀ c cs link prev end_ s s', SibChain T c cs →
      LinkPath.findPathSubChildren T fuel c link prev end_ s = some (false, s') →
        ∀ j ∈ cs, some j ≠ prev → ∀ e P k, end_ = some e → ¬ Walk T j (some link) e P k) := by
  intro fuel
  induction fuel with
  | zero =>
    constructor
    · intro link prev end_ isUp s s' h
      rw [findPathSub_zero] at h
      exact absurd h (by simp)
    · intro c cs link prev end_ s s' _ h
      rw [findPathSubChildren_zero] at h
      exact absurd h (by simp)
  | succ n ih =>
    obtain ⟨ih1, ih2⟩ := ih
    constructor
    · intro link prev end_ isUp s s' h e P k hee hw
      rw [findPathSub_eq_some_iff] at h
      rcases h with ⟨-, h⟩ | ⟨he, L, hL, ⟨b2, s2⟩, hc, h⟩
      · exact absurd (congrArg Prod.fst h) (by simp)
      · obtain ⟨cs, hcs, hmem⟩ := hT link L hL
        rcases h with ⟨hb, h⟩ | ⟨hb, ⟨b3, s3⟩, hp, h⟩
        · simp only at hb
          subst hb
          exact absurd (congrArg Prod.fst h) (by simp)
        · simp only at hb hp
          subst hb
          rcases h with ⟨hb3, h⟩ | ⟨hb3, -⟩
          · simp only at hb3
            subst hb3
            exact absurd (congrArg Prod.fst h) (by simp)
          · simp only at hb3
            subst hb3
            cases hw with
            | stop => exact he (by rw [hee])
            | down hpc hne hw' =>
              rename_i c P'
              exact ih2 _ cs _ _ _ _ _ hcs hc c ((hmem c).2 hpc) hne e _ _ hee hw'
            | up hpl hne hw' =>
              rename_i p P' k'
              rw [parentStep_eq_some_iff] at hp
              obtain ⟨L', hL', hpar'⟩ := (par_eq_some_iff T link p).1 hpl
              obtain rfl : L = L' := Option.some.inj (hL.symm.trans hL')
              rcases hp with ⟨hp | hp, -⟩ | ⟨q, hq, -, hp⟩
              · rw [hpar'] at hp
                exact absurd hp (by simp)
              · rw [hpar'] at hp
                exact hne hp
              · obtain rfl : p = q := Option.some.inj (hpar'.symm.trans hq)
                exact ih1 _ _ _ _ _ _ hp e _ _ hee hw'
    · intro c cs link prev end_ s s' hcs h j hj hjp e P k hee hw
      rw [findPathSubChildren_eq_some_iff] at h
      rcases h with ⟨hc, -⟩ | ⟨ch, hch, ⟨b1, s1⟩, hv, h⟩
      · subst hc
        cases hcs
        exact absurd hj (by simp)
      · subst hch
        cases hcs with
        | cons hC hrest =>
          rename_i C cs'
          rcases h with ⟨hb, h⟩ | ⟨hb, C2, hC2, h⟩
          · simp only at hb
            subst hb
            exact absurd (congrArg Prod.fst h) (by simp)
          · simp only at hb h
            subst hb
            obtain rfl : C = C2 := Option.some.inj (hC.symm.trans hC2)
            rw [childVisit_eq_some_iff] at hv
            rcases List.mem_cons.1 hj with rfl | hj'
            · rcases hv with ⟨hv, -⟩ | ⟨-, hv⟩
              · exact hjp hv
              · exact ih1 _ _ _ _ _ _ hv e _ _ hee hw
            · exact ih2 _ cs' _ _ _ _ _ hrest h j hj' hjp e _ _ hee hw

theorem par_lt_length {T : Body} {i p : Nat} (h : par T i = some p) : i < T.length := by
  obtain ⟨L, hL, -⟩ := (par_eq_some_iff T i p).1 h
  by_contra hlt
  rw [List.getElem?_eq_none (Nat.le_of_not_lt hlt)] at hL
  exact absurd hL (by simp)

theorem wf_up {T : Body} (hT : WellFormed T) : WellFounded (IsParent T) := by
  let r' : Fin T.length → Fin T.length → Prop := fun a b => Relation.TransGen (IsParent T) a.1 b.1
  haveI : IsTrans (Fin T.length) r' := ⟨fun _ _ _ h1 h2 => Relation.TransGen.trans h1 h2⟩
  haveI : IsIrrefl (Fin T.length) r' := ⟨fun a h => hT.acyclic a.1 h⟩
  have wf' : WellFounded r' := Finite.wellFounded_of_trans_of_irrefl r'
  refine ⟨fun b => ?_⟩
  by_cases hb : b < T.length
  · exact wf'.induction (C := fun b => Acc (IsParent T) b.1) ⟨b, hb⟩
      (fun x ih => Acc.intro _ (fun a ha =>
        ih ⟨a, hT.parentValid _ _ ha⟩ (Relation.TransGen.single ha)))
  · exact Acc.intro _ (fun a ha => absurd (par_lt_length ha) hb)

theorem wf_down {T : Body} (hT : WellFormed T) :
    WellFounded (fun c p => IsParent T p c) := by
  let r' : Fin T.length → Fin T.length → Prop := fun a b => Relation.TransGen (IsParent T) b.1 a.1
  haveI : IsTrans (Fin T.length) r' := ⟨fun _ _ _ h1 h2 => Relation.TransGen.trans h2 h1⟩
  haveI : IsIrrefl (Fin T.length) r' := ⟨fun a h => hT.acyclic a.1 h⟩
  have wf' : WellFounded r' := Finite.wellFounded_of_trans_of_irrefl r'
  refine ⟨fun b => ?_⟩
  by_cases hb : b < T.length
  · exact wf'.induction (C := fun b => Acc (fun c p => IsParent T p c) b.1) ⟨b, hb⟩
      (fun x ih => Acc.intro _ (fun a ha =>
        ih ⟨a, par_lt_length ha⟩ (Relation.TransGen.single ha)))
  · exact Acc.intro _ (fun a ha => absurd (hT.parentValid _ _ ha) hb)

/-- The child loop terminates when every call it makes terminates. -/
theorem children_terminate (T : Body) (link : Nat) {c : Ptr} {cs : List Nat}
    (hcs : SibChain T c cs)
    (hrec : ∀ j ∈ cs, ∃ N, ∀ end_ isUp s,
      ∃ r, LinkPath.findPathSub T N j (some link) end_ isUp s = some r) :
    ∃ N, ∀ prev end_ s, ∃ r, LinkPath.findPathSubChildren T N c link prev end_ s = some r := by
  induction hcs with
  | nil => exact ⟨1, fun prev end_ s => ⟨(false, s), rfl⟩⟩
  | @cons ch C cs' hC _ ih =>
    obtain ⟨N1, h1⟩ := hrec ch (List.mem_cons_self _ _)
    obtain ⟨N2, h2⟩ := ih (fun j hj => hrec j (List.mem_cons_of_mem _ hj))
    refine ⟨max N1 N2 + 1, fun prev end_ s => ?_⟩
    have hv : ∃ r1, childVisit T (max N1 N2) ch link prev end_ s = some r1 := by
      by_cases hp : some ch = prev
      · exact ⟨(false, s), (childVisit_eq_some_iff _ _ _ _ _ _ _ _).2 (Or.inl ⟨hp, rfl⟩)⟩
      · obtain ⟨r1, hr1⟩ := h1 end_ false s
        exact ⟨r1, (childVisit_eq_some_iff _ _ _ _ _ _ _ _).2
          (Or.inr ⟨hp, findPathSub_mono T (le_max_left _ _) hr1⟩)⟩
    obtain ⟨⟨b1, s1⟩, hr1⟩ := hv
    cases b1 with
    | true =>
      exact ⟨(true, s1), (findPathSubChildren_eq_some_iff _ _ _ _ _ _ _ _).2
        (Or.inr ⟨ch, rfl, _, hr1, Or.inl ⟨rfl, rfl⟩⟩)⟩
    | false =>
      obtain ⟨r, hr⟩ := h2 prev end_ s1
      exact ⟨r, (findPathSubChildren_eq_some_iff _ _ _ _ _ _ _ _).2
        (Or.inr ⟨ch, rfl, _, hr1, Or.inr ⟨rfl, C, hC,
          findPathSubChildren_mono T (le_max_right _ _) hr⟩⟩)⟩

/-- A call terminates when its child loop and its parent step do. -/
theorem findPathSub_terminates_of (T : Body) (n link : Nat) (L : Link) (hL : T[link]? = some L)
    (prev end_ : Ptr) (isUp : Bool) (s : LinkPath)
    (hc : ∀ s1, ∃ r, LinkPath.findPathSubChildren T n L.child link prev end_ s1 = some r)
    (hp : ∀ s2, ∃ r, parentStep T n L.parent link prev end_ s2 = some r) :
    ∃ r, LinkPath.findPathSub T (n + 1) link prev end_ isUp s = some r := by
  by_cases he : some link = end_
  · exact ⟨_, (findPathSub_eq_some_iff _ _ _ _ _ _ _ _).2 (Or.inl ⟨he, rfl⟩)⟩
  · obtain ⟨⟨b2, s2⟩, hr2⟩ := hc (pushLink s link isUp)
    cases b2 with
    | true =>
      exact ⟨_, (findPathSub_eq_some_iff _ _ _ _ _ _ _ _).2
        (Or.inr ⟨he, L, hL, _, hr2, Or.inl ⟨rfl, rfl⟩⟩)⟩
    | false =>
      obtain ⟨⟨b3, s3⟩, hr3⟩ := hp s2
      cases b3 with
      | true =>
        exact ⟨_, (findPathSub_eq_some_iff _ _ _ _ _ _ _ _).2
          (Or.inr ⟨he, L, hL, _, hr2, Or.inr ⟨rfl, _, hr3, Or.inl ⟨rfl, rfl⟩⟩⟩)⟩
      | false =>
        exact ⟨_, (findPathSub_eq_some_iff _ _ _ _ _ _ _ _).2
          (Or.inr ⟨he, L, hL, _, hr2, Or.inr ⟨rfl, _, hr3, Or.inr ⟨rfl, rfl⟩⟩⟩)⟩

/-- Downward calls (entered from the parent) terminate. -/
theorem findPathSub_terminates_down {T : Body} (hT : WellFormed T) (link : Nat) :
    ∀ p, par T link = some p → ∃ N, ∀ end_ isUp s,
      ∃ r, LinkPath.findPathSub T N link (some p) end_ isUp s = some r := by
  induction link using (wf_down hT).induction with
  | _ link ih =>
    intro p hp
    obtain ⟨L, hL, hLp⟩ := (par_eq_some_iff T link p).1 hp
    obtain ⟨cs, hcs, hmem⟩ := hT.children link L hL
    obtain ⟨N, hN⟩ := children_terminate T link hcs
      (fun j hj => ih j ((hmem j).1 hj) link ((hmem j).1 hj))
    refine ⟨N + 1, fun end_ isUp s => ?_⟩
    refine findPathSub_terminates_of T N link L hL _ _ _ _ (fun s1 => hN _ _ s1) (fun s2 => ?_)
    exact ⟨(false, s2), (parentStep_eq_some_iff _ _ _ _ _ _ _ _).2 (Or.inl ⟨Or.inr hLp, rfl⟩)⟩

/-- Every call on a link of a well-formed forest terminates. -/
theorem findPathSub_terminates {T : Body} (hT : WellFormed T) (link : Nat) :
    link < T.length → ∃ N, ∀ prev end_ isUp s,
      ∃ r, LinkPath.findPathSub T N link prev end_ isUp s = some r := by
  induction link using (wf_up hT).induction with
  | _ link ih =>
    intro hlt
    obtain ⟨L, hL⟩ : ∃ L, T[link]? = some L := ⟨T[link], List.getElem?_eq_getElem hlt⟩
    obtain ⟨cs, hcs, hmem⟩ := hT.children link L hL
    obtain ⟨N, hN⟩ := children_terminate T link hcs
      (fun j hj => findPathSub_terminates_down hT j link ((hmem j).1 hj))
    cases hpar : L.parent with
    | none =>
      refine ⟨N + 1, fun prev end_ isUp s => ?_⟩
      refine findPathSub_terminates_of T N link L hL _ _ _ _ (fun s1 => hN _ _ s1) (fun s2 => ?_)
      exact ⟨(false, s2), (parentStep_eq_some_iff _ _ _ _ _ _ _ _).2 (Or.inl ⟨Or.inl hpar, rfl⟩)⟩
    | some p =>
      have hp : par T link = some p := (par_eq_some_iff T link p).2 ⟨L, hL, hpar⟩
      obtain ⟨M, hM⟩ := ih p hp (hT.parentValid _ _ hp)
      refine ⟨max N M + 1, fun prev end_ isUp s => ?_⟩
      refine findPathSub_terminates_of T _ link L hL _ _ _ _ (fun s1 => ?_) (fun s2 => ?_)
      · obtain ⟨r, hr⟩ := hN prev end_ s1
        exact ⟨r, findPathSubChildren_mono T (le_max_left _ _) hr⟩
      · by_cases hpp : some p = prev
        · exact ⟨(false, s2), (parentStep_eq_some_iff _ _ _ _ _ _ _ _).2
            (Or.inl ⟨Or.inr (hpar.trans hpp), rfl⟩)⟩
        · obtain ⟨r, hr⟩ := hM (some link) end_ true s2
          exact ⟨r, (parentStep_eq_some_iff _ _ _ _ _ _ _ _).2
            (Or.inr ⟨p, hpar, hpp, findPathSub_mono T (le_max_right _ _) hr⟩)⟩

theorem no_two_cycle {T : Body} (hT : WellFormed T) {a b : Nat} (h1 : par T a = some b)
    (h2 : par T b = some a) : False :=
  hT.acyclic a (Relation.TransGen.head h2 (Relation.TransGen.single h1))

theorem anc_not_child {T : Body} (hT : WellFormed T) {x y : Nat} (h : par T y = some x) :
    ¬ Anc T y x := fun ha =>
  hT.acyclic x (Relation.TransGen.head' h ha)

theorem anc_cases {T : Body} {a x : Nat} (h : Anc T a x) :
    a = x ∨ ∃ p, par T x = some p ∧ Anc T a p := by
  rcases Relation.ReflTransGen.cases_tail h with h | ⟨p, hp, hpx⟩
  · exact Or.inl h.symm
  · exact Or.inr ⟨p, hpx, hp⟩

theorem anc_child {T : Body} {a p x : Nat} (h : Anc T a p) (hp : par T x = some p) :
    Anc T a x :=
  Relation.ReflTransGen.tail h hp

theorem anc_trans {T : Body} {a b c : Nat} (h1 : Anc T a b) (h2 : Anc T b c) : Anc T a c :=
  Relation.ReflTransGen.trans h1 h2

theorem anc_linear {T : Body} {a b x : Nat} (ha : Anc T a x) (hb : Anc T b x) :
    Anc T a b ∨ Anc T b a := by
  induction ha with
  | refl => exact Or.inr hb
  | tail hap hpx ih =>
    rename_i p x
    rcases anc_cases hb with rfl | ⟨q, hq, hbq⟩
    · exact Or.inl (anc_child hap hpx)
    · obtain rfl : p = q := Option.some.inj ((show par T x = some p from hpx).symm.trans hq)
      exact ih hbq

theorem siblings_disjoint {T : Body} (hT : WellFormed T) {x c y z : Nat}
    (hc : par T c = some x) (hy : par T y = some x) (hne : c ≠ y)
    (hcz : Anc T c z) (hyz : Anc T y z) : False := by
  rcases anc_linear hcz hyz with h | h
  · rcases anc_cases h with h' | ⟨p, hp, hcp⟩
    · exact hne h'
    · obtain rfl : x = p := Option.some.inj (hy.symm.trans hp)
      exact anc_not_child hT hc hcp
  · rcases anc_cases h with h' | ⟨p, hp, hyp⟩
    · exact hne h'.symm
    · obtain rfl : x = p := Option.some.inj (hc.symm.trans hp)
      exact anc_not_child hT hy hyp

theorem walk_head {T : Body} {x e k : Nat} {prev : Ptr} {P : List Nat}
    (h : Walk T x prev e P k) : ∃ P', P = x :: P' := by
  cases h with
  | stop => exact ⟨[], rfl⟩
  | down _ _ _ => exact ⟨_, rfl⟩
  | up _ _ _ => exact ⟨_, rfl⟩

theorem walk_getLast {T : Body} {x e k : Nat} {prev : Ptr} {P : List Nat}
    (h : Walk T x prev e P k) : P.getLast? = some e := by
  induction h with
  | stop => rfl
  | down _ _ hw ih =>
    obtain ⟨P', rfl⟩ := walk_head hw
    rw [List.getLast?_cons_cons]
    exact ih
  | up _ _ hw ih =>
    obtain ⟨P', rfl⟩ := walk_head hw
    rw [List.getLast?_cons_cons]
    exact ih

/-- A walk entered from the parent only descends. -/
theorem walk_down {T : Body} (hT : WellFormed T) {x e k : Nat} {prev : Ptr} {P : List Nat}
    (h : Walk T x prev e P k) (hprev : par T x = none ∨ prev = par T x) :
    k = 0 ∧ (∀ z ∈ P, Anc T x z) ∧ P.Nodup ∧ Directed T 0 P := by
  induction h with
  | @stop e prev =>
    exact ⟨rfl, fun z hz => by
      rw [List.mem_singleton.1 hz]
      exact Relation.ReflTransGen.refl, List.nodup_singleton _, trivial⟩
  | @down link c e prev P k hc hne hw ih =>
    obtain ⟨hk, hanc, hnd, hdir⟩ := ih (Or.inr hc.symm)
    obtain ⟨P', rfl⟩ := walk_head hw
    refine ⟨hk, ?_, ?_, ⟨hc, hdir⟩⟩
    · intro z hz
      rcases List.mem_cons.1 hz with rfl | hz
      · exact Relation.ReflTransGen.refl
      · exact Relation.ReflTransGen.head hc (hanc z hz)
    · refine List.nodup_cons.2 ⟨fun hmem => ?_, hnd⟩
      exact anc_not_child hT hc (hanc link hmem)
  | @up link p e prev P k hp hne hw ih =>
    rcases hprev with h | h
    · rw [hp] at h
      exact absurd h (by simp)
    · rw [hp] at h
      exact absurd h.symm hne

/-- A walk entered from a child (or started afresh) is a simple path that first climbs `k`
segments and then descends, and it never enters the subtree it came from. -/
theorem walk_simple {T : Body} (hT : WellFormed T) {x e k : Nat} {prev : Ptr} {P : List Nat}
    (h : Walk T x prev e P k) (hprev : ∀ y, prev = some y → par T y = some x) :
    P.Nodup ∧ Directed T k P ∧ ∀ z ∈ P, ∀ y, prev = some y → ¬ Anc T y z := by
  induction h with
  | @stop e prev =>
    refine ⟨List.nodup_singleton _, trivial, fun z hz y hy => ?_⟩
    rw [List.mem_singleton.1 hz]
    exact anc_not_child hT (hprev y hy)
  | @down link c e prev P k hc hne hw _ =>
    obtain ⟨hk, hanc, hnd, hdir⟩ := walk_down hT hw (Or.inr hc.symm)
    obtain ⟨P', rfl⟩ := walk_head hw
    subst hk
    refine ⟨?_, ⟨hc, hdir⟩, ?_⟩
    · refine List.nodup_cons.2 ⟨fun hmem => ?_, hnd⟩
      exact anc_not_child hT hc (hanc link hmem)
    · intro z hz y hy hyz
      rcases List.mem_cons.1 hz with rfl | hz
      · exact anc_not_child hT (hprev y hy) hyz
      · have hcy : c ≠ y := fun hcy => hne (by rw [hcy, hy])
        exact siblings_disjoint hT hc (hprev y hy) hcy (hanc z hz) hyz
  | @up link p e prev P k hp hne hw ih =>
    obtain ⟨hnd, hdir, hout⟩ := ih (fun y hy => by
      obtain rfl : link = y := Option.some.inj hy
      exact hp)
    obtain ⟨P', rfl⟩ := walk_head hw
    refine ⟨?_, ⟨hp, hdir⟩, ?_⟩
    · refine List.nodup_cons.2 ⟨fun hmem => ?_, hnd⟩
      exact hout link hmem link rfl Relation.ReflTransGen.refl
    · intro z hz y hy hyz
      rcases List.mem_cons.1 hz with rfl | hz
      · exact anc_not_child hT (hprev y hy) hyz
      · exact hout z hz link rfl
          (Relation.ReflTransGen.head (show IsParent T link y from hprev y hy) hyz)

theorem directed_adjacent {T : Body} : ∀ (k : Nat) (P : List Nat),
    Directed T k P → List.Chain' (Adjacent T) P
  | 0, [], _ => List.chain'_nil
  | 0, [_], _ => List.chain'_singleton _
  | 0, _ :: b :: l, h =>
    List.chain'_cons.2 ⟨Or.inr h.1, directed_adjacent 0 (b :: l) h.2⟩
  | _ + 1, [], h => h.elim
  | _ + 1, [_], h => h.elim
  | k + 1, _ :: b :: l, h =>
    List.chain'_cons.2 ⟨Or.inl h.1, directed_adjacent k (b :: l) h.2⟩

theorem directed_countUp {T : Body} (hT : WellFormed T) : ∀ (k : Nat) (P : List Nat),
    Directed T k P → countUp T P = k
  | 0, [], _ => rfl
  | 0, [_], _ => rfl
  | 0, a :: b :: l, h => by
    have hab : ¬ par T a = some b := fun hab => no_two_cycle hT hab h.1
    rw [countUp, if_neg hab, directed_countUp hT 0 (b :: l) h.2]
  | _ + 1, [], h => h.elim
  | _ + 1, [_], h => h.elim
  | k + 1, a :: b :: l, h => by
    rw [countUp, if_pos h.1, directed_countUp hT k (b :: l) h.2]
    omega

/-- Segment `i` of a directed path climbs when `i < k` and descends when `k ≤ i`. -/
theorem directed_index {T : Body} : ∀ (k : Nat) (P : List Nat), Directed T k P →
    ∀ (i : Nat) (hi : i + 1 < P.length),
      (i < k → par T (P.get ⟨i, Nat.lt_of_succ_lt hi⟩) = some (P.get ⟨i + 1, hi⟩)) ∧
      (k ≤ i → par T (P.get ⟨i + 1, hi⟩) = some (P.get ⟨i, Nat.lt_of_succ_lt hi⟩))
  | 0, [], _, i, hi => absurd hi (by simp)
  | 0, [_], _, i, hi => absurd hi (by simp)
  | 0, a :: b :: l, h, i, hi => by
    cases i with
    | zero => exact ⟨fun h0 => absurd h0 (by simp), fun _ => h.1⟩
    | succ j =>
      have hj : j + 1 < (b :: l).length := by simpa using hi
      obtain ⟨-, h2⟩ := directed_index 0 (b :: l) h.2 j hj
      exact ⟨fun h0 => absurd h0 (by simp), fun _ => h2 (Nat.zero_le _)⟩
  | _ + 1, [], h, _, _ => h.elim
  | _ + 1, [_], h, _, _ => h.elim
  | k + 1, a :: b :: l, h, i, hi => by
    cases i with
    | zero => exact ⟨fun _ => h.1, fun h0 => absurd h0 (by simp)⟩
    | succ j =>
      have hj : j + 1 < (b :: l).length := by simpa using hi
      obtain ⟨h1, h2⟩ := directed_index k (b :: l) h.2 j hj
      exact ⟨fun hlt => h1 (by omega), fun hle => h2 (by omega)⟩

theorem directed_le_length {T : Body} : ∀ (k : Nat) (P : List Nat),
    Directed T k P → k + 1 ≤ P.length ∨ (k = 0 ∧ P = [])
  | 0, [], _ => Or.inr ⟨rfl, rfl⟩
  | 0, [_], _ => Or.inl (by simp)
  | 0, a :: b :: l, _ => Or.inl (by simp)
  | _ + 1, [], h => h.elim
  | _ + 1, [_], h => h.elim
  | k + 1, a :: b :: l, h => by
    rcases directed_le_length k (b :: l) h.2 with h' | ⟨-, h'⟩
    · left
      simp only [List.length_cons] at h' ⊢
      omega
    · exact absurd h' (by simp)

/-- A descending walk exists from every link to each of its descendants. -/
theorem walk_down_exists {T : Body} (hT : WellFormed T) {x e : Nat} (h : Anc T x e) :
    ∀ prev : Ptr, (∀ c, par T c = some x → Anc T c e → some c ≠ prev) →
      ∃ P, Walk T x prev e P 0 := by
  induction h using Relation.ReflTransGen.head_induction_on with
  | refl => exact fun prev _ => ⟨[e], Walk.stop⟩
  | head hxc hce ih =>
    rename_i x c
    intro prev hprev
    obtain ⟨P, hP⟩ := ih (some x) (fun c' hc' _ hcx => by
      obtain rfl : c' = x := Option.some.inj hcx
      exact no_two_cycle hT hc' hxc)
    exact ⟨x :: P, Walk.down hxc (hprev c hxc hce) hP⟩

/-- A walk exists between any two links below a common ancestor. -/
theorem walk_exists {T : Body} (hT : WellFormed T) {r x e : Nat} (hx : Anc T r x)
    (he : Anc T r e) : ∀ prev : Ptr,
      (∀ y, prev = some y → par T y = some x ∧ ¬ Anc T y e) → ∃ P k, Walk T x prev e P k := by
  induction hx with
  | refl =>
    intro prev hprev
    obtain ⟨P, hP⟩ := walk_down_exists hT he prev (fun c _ hce hcp => (hprev c hcp.symm).2 hce)
    exact ⟨P, 0, hP⟩
  | @tail p x _ hpx ih =>
    intro prev hprev
    by_cases hxe : Anc T x e
    · obtain ⟨P, hP⟩ := walk_down_exists hT hxe prev
        (fun c _ hce hcp => (hprev c hcp.symm).2 hce)
      exact ⟨P, 0, hP⟩
    · obtain ⟨P, k, hP⟩ := ih (some x) (fun y hy => by
        obtain rfl : x = y := Option.some.inj hy
        exact ⟨hpx, hxe⟩)
      refine ⟨x :: P, k + 1, Walk.up hpx (fun hpp => ?_) hP⟩
      exact no_two_cycle hT (hprev p hpp.symm).1 hpx

/-- A walk stays below every parentless ancestor of its start. -/
theorem walk_same_root {T : Body} {x e k : Nat} {prev : Ptr} {P : List Nat}
    (h : Walk T x prev e P k) : ∀ r, par T r = none → Anc T r x → Anc T r e := by
  induction h with
  | stop => exact fun r _ h => h
  | down hc _ _ ih => exact fun r hr hx => ih r hr (anc_child hx hc)
  | up hp _ _ ih =>
    intro r hr hx
    rcases anc_cases hx with rfl | ⟨q, hq, hrq⟩
    · rw [hp] at hr
      exact absurd hr (by simp)
    · obtain rfl := Option.some.inj (hp.symm.trans hq)
      exact ih _ hr hrq

/-- Every link of the arena has a parentless ancestor. -/
theorem exists_root {T : Body} (hT : WellFormed T) (x : Nat) :
    x < T.length → ∃ r, r < T.length ∧ par T r = none ∧ Anc T r x := by
  induction x using (wf_up hT).induction with
  | _ x ih =>
    intro hx
    cases hp : par T x with
    | none => exact ⟨x, hx, hp, Relation.ReflTransGen.refl⟩
    | some p =>
      obtain ⟨r, hr, hrn, hrp⟩ := ih p hp (hT.parentValid _ _ hp)
      exact ⟨r, hr, hrn, anc_child hrp hp⟩

theorem find_of_sub_true {T : Body} {fuel root : Nat} {end_ : Ptr} {s : LinkPath}
    (h : LinkPath.findPathSub T fuel root none end_ false ⟨[], 0⟩ = some (true, s))
    (self : LinkPath) : LinkPath.find T fuel root end_ self = some (true, s) := by
  unfold LinkPath.find
  simp only [h]
  rfl

theorem find_of_sub_false {T : Body} {fuel root : Nat} {end_ : Ptr} {s : LinkPath}
    (h : LinkPath.findPathSub T fuel root none end_ false ⟨[], 0⟩ = some (false, s))
    (self : LinkPath) :
    LinkPath.find T fuel root end_ self = some (false, ⟨[], s.numUpwardConnections⟩) := by
  unfold LinkPath.find
  simp only [h]
  rfl

theorem sub_of_find_true {T : Body} {fuel root : Nat} {end_ : Ptr} {self lp : LinkPath}
    (h : LinkPath.find T fuel root end_ self = some (true, lp)) :
    LinkPath.findPathSub T fuel root none end_ false ⟨[], 0⟩ = some (true, lp) := by
  cases hs : LinkPath.findPathSub T fuel root none end_ false ⟨[], 0⟩ with
  | none =>
    unfold LinkPath.find at h
    simp only [hs] at h
    exact absurd h (by simp)
  | some r =>
    obtain ⟨b, s⟩ := r
    cases b with
    | true =>
      rw [find_of_sub_true hs] at h
      exact h
    | false =>
      rw [find_of_sub_false hs] at h
      exact absurd (congrArg Prod.fst (Option.some.inj h)) (by simp)

theorem anc_valid {T : Body} {r x : Nat} (h : Anc T r x) (hr : r < T.length) :
    x < T.length := by
  rcases anc_cases h with rfl | ⟨p, hp, -⟩
  · exact hr
  · exact par_lt_length hp

/-- What a successful `find` leaves behind: a walk from `root` to `end` and its upward
count. -/
theorem find_true_walk {T : Body} (hT : WellFormed T) {fuel root : Nat} {end_ : Ptr}
    {self lp : LinkPath} (h : LinkPath.find T fuel root end_ self = some (true, lp)) :
    ∃ e k, end_ = some e ∧ Walk T root none e lp.links k ∧
      lp.numUpwardConnections = (k : Int) := by
  obtain ⟨e, P, k, he, hw, hs⟩ := (findPathSub_sound T hT.children fuel).1 _ _ _ _ _ _
    (sub_of_find_true h)
  refine ⟨e, k, he, ?_, ?_⟩
  · rw [hs]
    simpa using hw
  · rw [hs]
    simp

/-- A rank that decreases towards the parent rules out cycles. -/
theorem acyclic_of_rank {T : Body} (d : Nat → Nat)
    (hd : ∀ i p, par T i = some p → d p < d i) (i : Nat) :
    ¬ Relation.TransGen (IsParent T) i i := by
  have key : ∀ a b, Relation.TransGen (IsParent T) a b → d a < d b := by
    intro a b h
    induction h with
    | single h => exact hd _ _ h
    | tail _ h ih => exact lt_trans ih (hd _ _ h)
  exact fun h => lt_irrefl _ (key i i h)

theorem sampleBody_par : ∀ i p, par sampleBody i = some p →
    (i = 1 ∧ p = 0) ∨ (i = 2 ∧ p = 1) ∨ (i = 3 ∧ p = 1) ∨ (i = 4 ∧ p = 0) ∨ (i = 6 ∧ p = 5) := by
  intro i p h
  have hi : i < 7 := par_lt_length h
  interval_cases i <;> simp [par, sampleBody, sampleLink] at h <;> omega

theorem sampleBody_wf : WellFormed sampleBody := by
  refine ⟨?_, ?_, acyclic_of_rank (fun i => i) ?_⟩
  · intro i L hL
    have hi : i < 7 := by
      by_contra hlt
      rw [List.getElem?_eq_none (Nat.le_of_not_lt hlt)] at hL
      exact absurd hL (by simp)
    have hch : ∀ (c : Nat) (C : Link), sampleBody[c]? = some C → C.sibling = none →
        SibChain sampleBody (some c) [c] := fun c C h1 h2 =>
      SibChain.cons h1 (h2 ▸ SibChain.nil)
    interval_cases i
    · obtain rfl : sampleLink "WAIST" none (some 1) none JointType.FIXED_JOINT = L :=
        Option.some.inj hL
      refine ⟨[1, 4], SibChain.cons (C := sampleBody[1]) rfl (hch 4 _ rfl rfl), fun j => ?_⟩
      constructor
      · intro hj
        simp only [List.mem_cons, List.mem_singleton, List.not_mem_nil, or_false] at hj
        rcases hj with rfl | rfl <;> rfl
      · intro hj
        rcases sampleBody_par j 0 hj with h | h | h | h | h <;> simp [h.1] <;> omega
    · obtain rfl : sampleLink "HIP" (some 0) (some 2) (some 4) JointType.ROTATIONAL_JOINT = L :=
        Option.some.inj hL
      refine ⟨[2, 3], SibChain.cons (C := sampleBody[2]) rfl (hch 3 _ rfl rfl), fun j => ?_⟩
      constructor
      · intro hj
        simp only [List.mem_cons, List.mem_singleton, List.not_mem_nil, or_false] at hj
        rcases hj with rfl | rfl <;> rfl
      · intro hj
        rcases sampleBody_par j 1 hj with h | h | h | h | h <;> simp [h.1] <;> omega
    · obtain rfl : sampleLink "KNEE" (some 1) none (some 3) JointType.ROTATIONAL_JOINT = L :=
        Option.some.inj hL
      refine ⟨[], SibChain.nil, fun j => ?_⟩
      constructor
      · intro hj
        exact absurd hj (by simp)
      · intro hj
        rcases sampleBody_par j 2 hj with h | h | h | h | h <;> omega
    · obtain rfl : sampleLink "SLIDER" (some 1) none none JointType.SLIDE_JOINT = L :=
        Option.some.inj hL
      refine ⟨[], SibChain.nil, fun j => ?_⟩
      constructor
      · intro hj
        exact absurd hj (by simp)
      · intro hj
        rcases sampleBody_par j 3 hj with h | h | h | h | h <;> omega
    · obtain rfl : sampleLink "ARM" (some 0) none none JointType.ROTATIONAL_JOINT = L :=
        Option.some.inj hL
      refine ⟨[], SibChain.nil, fun j => ?_⟩
      constructor
      · intro hj
        exact absurd hj (by simp)
      · intro hj
        rcases sampleBody_par j 4 hj with h | h | h | h | h <;> omega
    · obtain rfl : sampleLink "TABLE" none (some 6) none JointType.FIXED_JOINT = L :=
        Option.some.inj hL
      refine ⟨[6], hch 6 _ rfl rfl, fun j => ?_⟩
      constructor
      · intro hj
        simp only [List.mem_cons, List.mem_singleton, List.not_mem_nil, or_false] at hj
        rcases hj with rfl
        rfl
      · intro hj
        rcases sampleBody_par j 5 hj with h | h | h | h | h <;> simp [h.1] <;> omega
    · obtain rfl : sampleLink "LID" (some 5) none none JointType.ROTATIONAL_JOINT = L :=
        Option.some.inj hL
      refine ⟨[], SibChain.nil, fun j => ?_⟩
      constructor
      · intro hj
        exact absurd hj (by simp)
      · intro hj
        rcases sampleBody_par j 6 hj with h | h | h | h | h <;> omega
  · intro i p h
    rcases sampleBody_par i p h with h | h | h | h | h <;> simp [sampleBody, h.2]
  · intro i p h
    show p < i
    rcases sampleBody_par i p h with h | h | h | h | h <;> omega

theorem downPath_unique {T : Body} {r x : Nat} {D D' : List Nat} (hrn : par T r = none)
    (h : DownPath T r x D) (h' : DownPath T r x D') : D = D' := by
  induction h generalizing D' with
  | single =>
    cases h' with
    | single => rfl
    | snoc _ hp =>
      rw [hrn] at hp
      exact absurd hp (by simp)
  | @snoc p x D _ hp ih =>
    cases h' with
    | single =>
      rw [hrn] at hp
      exact absurd hp (by simp)
    | @snoc p' _ D'' h'' hp' =>
      obtain rfl : p = p' := Option.some.inj (hp.symm.trans hp')
      rw [ih h'']

/-- A descending walk extends a descending path. -/
theorem walk_downPath {T : Body} {x e k : Nat} {prev : Ptr} {P : List Nat}
    (h : Walk T x prev e P k) (hprev : par T x = none ∨ prev = par T x) :
    ∀ r D, DownPath T r x D → DownPath T r e (D ++ P.tail) := by
  induction h with
  | stop =>
    intro r D hD
    simpa using hD
  | @down link c e prev P k hc _ hw ih =>
    intro r D hD
    obtain ⟨P', rfl⟩ := walk_head hw
    have := ih (Or.inr hc.symm) r (D ++ [c]) (DownPath.snoc hD hc)
    simpa using this
  | @up link p e prev P k hp hne _ _ =>
    rcases hprev with h | h
    · rw [hp] at h
      exact absurd h (by simp)
    · rw [hp] at h
      exact absurd h.symm hne

theorem findPathFromRootSub_succ (T : Body) (n link : Nat) (s : LinkPath) :
    LinkPath.findPathFromRootSub T (n + 1) link s =
      match T[link]? with
      | none => none
      | some L =>
        match L.parent with
        | none => some ⟨s.links ++ [link], s.numUpwardConnections⟩
        | some parent =>
          LinkPath.findPathFromRootSub T n parent ⟨s.links ++ [link], s.numUpwardConnections⟩ := by
  rfl

/-- Climbing from `x` to its parentless ancestor `r` terminates and collects the reversed
descending path. -/
theorem findPathFromRootSub_spec {T : Body} {r x : Nat} (hr : r < T.length)
    (hrn : par T r = none) (h : Anc T r x) :
    ∃ l N, DownPath T r x l.reverse ∧ ∀ fuel, N ≤ fuel → ∀ s : LinkPath,
      LinkPath.findPathFromRootSub T fuel x s
        = some ⟨s.links ++ l, s.numUpwardConnections⟩ := by
  induction h with
  | refl =>
    refine ⟨[r], 1, DownPath.single, fun fuel hf s => ?_⟩
    obtain ⟨n, rfl⟩ : ∃ n, fuel = n + 1 := ⟨fuel - 1, by omega⟩
    rw [findPathFromRootSub_succ]
    have hL : T[r]? = some T[r] := List.getElem?_eq_getElem hr
    have hp : (T[r]).parent = none := by
      unfold par at hrn
      rw [hL] at hrn
      exact hrn
    rw [hL]
    simp only [hp]
  | @tail p x _ hpx ih =>
    obtain ⟨l, N, hD, hN⟩ := ih
    refine ⟨x :: l, N + 1, ?_, fun fuel hf s => ?_⟩
    · rw [List.reverse_cons]
      exact DownPath.snoc hD hpx
    · obtain ⟨n, rfl⟩ : ∃ n, fuel = n + 1 := ⟨fuel - 1, by omega⟩
      obtain ⟨L, hL, hLp⟩ := (par_eq_some_iff T x p).1 hpx
      rw [findPathFromRootSub_succ, hL]
      simp only [hLp]
      rw [hN n (by omega)]
      simp

/-- In a well-formed forest `find` succeeds between two links of the same tree, with a result
that does not depend on the recursion budget or on the previous object state. -/
theorem find_reaches {T : Body} (hT : WellFormed T) {root e : Nat} (h : SameTree T root e) :
    ∃ (lp : LinkPath) (N : Nat), ∀ fuel, N ≤ fuel → ∀ self : LinkPath,
      LinkPath.find T fuel root (some e) self = some (true, lp) := by
  obtain ⟨r, hr, -, hrroot, hre⟩ := h
  obtain ⟨N, hN⟩ := findPathSub_terminates hT root (anc_valid hrroot hr)
  obtain ⟨⟨b, s⟩, hs⟩ := hN none (some e) false ⟨[], 0⟩
  obtain ⟨P0, k0, hw0⟩ := walk_exists hT hrroot hre none (fun y hy => absurd hy (by simp))
  cases b with
  | false =>
    exact absurd hw0 ((findPathSub_complete T hT.children N).1 _ _ _ _ _ _ hs e P0 k0 rfl)
  | true =>
    exact ⟨s, N, fun fuel hf self => find_of_sub_true (findPathSub_mono T hf hs) self⟩

theorem extractLoop_succ (T : Body) (path : LinkPath) (m fuel i : Nat) (joints : List Nat)
    (nUp : Int) :
    JointPath.extractLoop T path m (fuel + 1) i joints nUp =
      if i < m then
        match path.links[i]? with
        | none => none
        | some link =>
          match T[link]? with
          | none => none
          | some L =>
            if L.isActuated then
              JointPath.extractLoop T path m fuel (i + 1) (joints ++ [link]) nUp
            else if !path.isDownward i then
              JointPath.extractLoop T path m fuel (i + 1) joints (nUp - 1)
            else
              JointPath.extractLoop T path m fuel (i + 1) joints nUp
      else
        some (joints, nUp) := by
  rfl

/-- The joints collected by the loop are the actuated links among `links[i], ..., links[m-1]`,
in order, appended to those already collected. -/
theorem extractLoop_joints (T : Body) (path : LinkPath) (m : Nat) (hm : m ≤ path.links.length) :
    ∀ (fuel i : Nat) (joints : List Nat) (nUp : Int) (r : List Nat × Int),
      JointPath.extractLoop T path m fuel i joints nUp = some r →
        r.1 = joints ++ (((path.links.take m).drop i).filter (isJointAt T)) := by
  intro fuel
  induction fuel with
  | zero =>
    intro i joints nUp r h
    exact absurd h (by simp [JointPath.extractLoop])
  | succ n ih =>
    intro i joints nUp r h
    rw [extractLoop_succ] at h
    by_cases him : i < m
    · rw [if_pos him] at h
      have hil : i < path.links.length := lt_of_lt_of_le him hm
      have hit : i < (path.links.take m).length := by
        rw [List.length_take]
        exact lt_min him hil
      have hget : path.links[i]? = some path.links[i] := List.getElem?_eq_getElem hil
      have hdrop : (path.links.take m).drop i
          = path.links[i] :: (path.links.take m).drop (i + 1) := by
        rw [List.drop_eq_getElem_cons hit, List.getElem_take]
      rw [hget] at h
      simp only at h
      cases hL : T[path.links[i]]? with
      | none =>
        rw [hL] at h
        exact absurd h (by simp)
      | some L =>
        rw [hL] at h
        simp only at h
        have hj : isJointAt T path.links[i] = L.isActuated := by
          unfold isJointAt
          rw [hL]
        rw [hdrop, List.filter_cons, hj]
        by_cases hact : L.isActuated = true
        · rw [if_pos hact] at h
          rw [ih _ _ _ _ h, if_pos hact]
          simp
        · rw [if_neg hact] at h
          rw [if_neg hact]
          split at h
          · exact ih _ _ _ _ h
          · exact ih _ _ _ _ h
    · rw [if_neg him] at h
      obtain rfl : (joints, nUp) = r := Option.some.inj h
      have : (path.links.take m).drop i = [] := by
        apply List.drop_eq_nil_of_le
        rw [List.length_take]
        exact le_trans (min_le_left _ _) (Nat.le_of_not_lt him)
      rw [this]
      simp

/-- The loop ends within `m - i + 1` rounds when the links it reads are in the arena. -/
theorem extractLoop_terminates (T : Body) (path : LinkPath) (m : Nat)
    (hm : m ≤ path.links.length) (hvalid : ∀ l ∈ path.links, l < T.length) :
    ∀ (fuel i : Nat) (joints : List Nat) (nUp : Int), m - i < fuel →
      ∃ r, JointPath.extractLoop T path m fuel i joints nUp = some r := by
  intro fuel
  induction fuel with
  | zero =>
    intro i joints nUp h
    exact absurd h (by omega)
  | succ n ih =>
    intro i joints nUp h
    rw [extractLoop_succ]
    by_cases him : i < m
    · rw [if_pos him]
      have hil : i < path.links.length := lt_of_lt_of_le him hm
      have hget : path.links[i]? = some path.links[i] := List.getElem?_eq_getElem hil
      have hv : path.links[i] < T.length := hvalid _ (List.getElem_mem _)
      have hL : T[path.links[i]]? = some T[path.links[i]] := List.getElem?_eq_getElem hv
      rw [hget]
      simp only
      rw [hL]
      simp only
      split
      · exact ih _ _ _ (by omega)
      · split
        · exact ih _ _ _ (by omega)
        · exact ih _ _ _ (by omega)
    · rw [if_neg him]
      exact ⟨_, rfl⟩

theorem isJointAt_iff (T : Body) (j : Nat) :
    isJointAt T j = true ↔ ∃ L, T[j]? = some L ∧
      (L.jointType = JointType.ROTATIONAL_JOINT ∨ L.jointType = JointType.SLIDE_JOINT) := by
  unfold isJointAt
  cases h : T[j]? with
  | none => simp
  | some L => simp [Link.isActuated]

/-- With every link of the path in the arena, `extractJoints` returns, keeps the link path and
the solver settings, and produces `jointsOf`. -/
theorem extractJoints_spec (T : Body) (self : JointPath)
    (hvalid : ∀ l ∈ self.links, l < T.length) :
    ∃ jp, JointPath.extractJoints T self = some jp ∧ jp.toLinkPath = self.toLinkPath ∧
      jp.maxIKErrorSqr = self.maxIKErrorSqr ∧ jp.isBestEffortIKMode = self.isBestEffortIKMode ∧
      jp.joints = jointsOf T self.toLinkPath := by
  unfold JointPath.extractJoints jointsOf
  by_cases hn : self.links.length ≤ 1
  · simp only [hn, if_true]
    exact ⟨_, rfl, rfl, rfl, rfl, rfl⟩
  · simp only [hn, if_false]
    have hm : self.links.length - 1 ≤ self.links.length := Nat.sub_le _ _
    have hml : self.links.length - 1 < self.links.length := by omega
    obtain ⟨⟨joints, nUp⟩, hr⟩ := extractLoop_terminates T self.toLinkPath
      (self.links.length - 1) hm hvalid self.links.length
      (if self.isDownward 0 then 1 else 0) [] self.numUpwardConnections (by omega)
    have hj := extractLoop_joints T self.toLinkPath _ hm _ _ _ _ _ hr
    simp only [List.nil_append] at hj
    rw [hr]
    simp only
    have hget : self.links[self.links.length - 1]? = some self.links[self.links.length - 1] :=
      List.getElem?_eq_getElem hml
    have hv : self.links[self.links.length - 1] < T.length := hvalid _ (List.getElem_mem _)
    have hL : T[self.links[self.links.length - 1]]? = some T[self.links[self.links.length - 1]] :=
      List.getElem?_eq_getElem hv
    have hdrop : self.links.drop (self.links.length - 1) = [self.links[self.links.length - 1]] := by
      rw [List.drop_eq_getElem_cons hml, List.drop_eq_nil_of_le (by omega)]
    have hja : isJointAt T self.links[self.links.length - 1]
        = (T[self.links[self.links.length - 1]]).isActuated := by
      unfold isJointAt
      rw [hL]
    rw [hdrop, hget]
    simp only
    rw [hL]
    simp only [List.filter_cons, List.filter_nil, hja]
    by_cases hd : self.isDownward (((self.links.length - 1 - 1 : Nat) : Int)) = true
    · by_cases ha : (T[self.links[self.links.length - 1]]).isActuated = true
      · simp only [hd, ha, if_true, Bool.and_self]
        exact ⟨_, rfl, rfl, rfl, rfl, by rw [hj]⟩
      · simp only [hd, ha, if_true, Bool.and_false]
        exact ⟨_, rfl, rfl, rfl, rfl, by simp [hj]⟩
    · simp only [hd, Bool.false_and]
      exact ⟨_, rfl, rfl, rfl, rfl, by simp [hj]⟩

theorem jointsOf_sublist (T : Body) (path : LinkPath) :
    (jointsOf T path).Sublist path.links := by
  unfold jointsOf
  split
  · exact List.nil_sublist _
  · have h1 : (((path.links.take (path.links.length - 1)).drop
        (if path.isDownward 0 then 1 else 0)).filter (isJointAt T)).Sublist
        (path.links.take (path.links.length - 1)) :=
      (List.filter_sublist _).trans (List.drop_sublist _ _)
    have h2 : ((path.links.drop (path.links.length - 1)).filter
        (fun l => path.isDownward (((path.links.length - 1 - 1 : Nat) : Int)) && isJointAt T l)).Sublist
        (path.links.drop (path.links.length - 1)) := List.filter_sublist _
    have := List.Sublist.append h1 h2
    rwa [List.take_append_drop] at this

theorem jointsOf_actuated (T : Body) (path : LinkPath) :
    ∀ j ∈ jointsOf T path, isJointAt T j = true := by
  intro j hj
  unfold jointsOf at hj
  split at hj
  · exact absurd hj (by simp)
  · rcases List.mem_append.1 hj with h | h
    · exact (List.mem_filter.1 h).2
    · have := (List.mem_filter.1 h).2
      simp only [Bool.and_eq_true] at this
      exact this.2

theorem ilog2_spec : ∀ (fuel n : Nat), 1 ≤ n → n ≤ fuel →
    2 ^ ilog2 fuel n ≤ n ∧ n < 2 ^ (ilog2 fuel n + 1) := by
  intro fuel
  induction fuel with
  | zero => intro n h1 h2; omega
  | succ f ih =>
    intro n h1 h2
    rw [ilog2]
    by_cases hn : n < 2
    · rw [if_pos hn]
      have : n = 1 := by omega
      subst this
      decide
    · rw [if_neg hn]
      obtain ⟨a, b⟩ := ih (n / 2) (by omega) (by omega)
      constructor
      · calc 2 ^ (ilog2 f (n / 2) + 1) = 2 ^ ilog2 f (n / 2) * 2 := pow_succ _ _
          _ ≤ (n / 2) * 2 := Nat.mul_le_mul_right _ a
          _ ≤ n := Nat.div_mul_le_self n 2
      · have : n / 2 + 1 ≤ 2 ^ (ilog2 f (n / 2) + 1) := b
        calc n < (n / 2 + 1) * 2 := by omega
          _ ≤ 2 ^ (ilog2 f (n / 2) + 1) * 2 := Nat.mul_le_mul_right _ this
          _ = 2 ^ (ilog2 f (n / 2) + 1 + 1) := (pow_succ _ _).symm

theorem scale2_pos (n d : Nat) (s : Int) (hd : 0 < d) : 0 < (scale2 n d s).2 := by
  unfold scale2
  split
  · exact hd
  · exact Nat.mul_pos hd (pow_pos (by decide) _)

theorem scale2_val (n d : Nat) (s : Int) (hd : 0 < d) :
    ((scale2 n d s).1 : ℚ) / ((scale2 n d s).2 : ℚ) = (n : ℚ) / (d : ℚ) * (2 : ℚ) ^ s := by
  have hd' : (d : ℚ) ≠ 0 := Nat.cast_ne_zero.2 (by omega)
  unfold scale2
  split
  · rename_i h
    obtain ⟨k, rfl⟩ := Int.eq_ofNat_of_zero_le h
    simp only [Int.toNat_ofNat, Nat.cast_mul, Nat.cast_pow, Nat.cast_ofNat, zpow_natCast]
    field_simp
  · rename_i h
    obtain ⟨k, hk⟩ := Int.eq_ofNat_of_zero_le (show 0 ≤ -s by omega)
    have hs : s = -(k : Int) := by omega
    subst hs
    simp only [neg_neg, Int.toNat_ofNat, Nat.cast_mul, Nat.cast_pow, Nat.cast_ofNat, zpow_neg,
      zpow_natCast]
    field_simp

theorem binaryExponent_spec (n d : Nat) (hn : 0 < n) (hd : 0 < d) :
    (2 : ℚ) ^ binaryExponent n d ≤ (n : ℚ) / (d : ℚ) ∧
      (n : ℚ) / (d : ℚ) < (2 : ℚ) ^ (binaryExponent n d + 1) := by
  obtain ⟨na, nb⟩ := ilog2_spec n n hn le_rfl
  obtain ⟨da, db⟩ := ilog2_spec d d hd le_rfl
  have hdq : (0 : ℚ) < (d : ℚ) := Nat.cast_pos.2 hd
  have h2 : (2 : ℚ) ≠ 0 := two_ne_zero
  have hna : (2 : ℚ) ^ (ilog2 n n : ℤ) ≤ (n : ℚ) := by
    rw [zpow_natCast]
    exact_mod_cast na
  have hnb : (n : ℚ) < (2 : ℚ) ^ ((ilog2 n n : ℤ) + 1) := by
    rw [show ((ilog2 n n : ℤ) + 1) = ((ilog2 n n + 1 : ℕ) : ℤ) by push_cast; ring, zpow_natCast]
    exact_mod_cast nb
  have hda : (2 : ℚ) ^ (ilog2 d d : ℤ) ≤ (d : ℚ) := by
    rw [zpow_natCast]
    exact_mod_cast da
  have hdb : (d : ℚ) < (2 : ℚ) ^ ((ilog2 d d : ℤ) + 1) := by
    rw [show ((ilog2 d d : ℤ) + 1) = ((ilog2 d d + 1 : ℕ) : ℤ) by push_cast; ring, zpow_natCast]
    exact_mod_cast db
  have hpos : ∀ k : ℤ, (0 : ℚ) < (2 : ℚ) ^ k := fun k => zpow_pos (by norm_num) k
  have hval := scale2_val n d (-((ilog2 n n : ℤ) - (ilog2 d d : ℤ))) hd
  have hp2 := scale2_pos n d (-((ilog2 n n : ℤ) - (ilog2 d d : ℤ))) hd
  have hp2q : (0 : ℚ) < ((scale2 n d (-((ilog2 n n : ℤ) - (ilog2 d d : ℤ)))).2 : ℚ) :=
    Nat.cast_pos.2 hp2
  -- the test of the definition compares n / d with 2^e1
  have htest : (scale2 n d (-((ilog2 n n : ℤ) - (ilog2 d d : ℤ)))).2 ≤
        (scale2 n d (-((ilog2 n n : ℤ) - (ilog2 d d : ℤ)))).1 ↔
      (2 : ℚ) ^ ((ilog2 n n : ℤ) - (ilog2 d d : ℤ)) ≤ (n : ℚ) / (d : ℚ) := by
    rw [← Nat.cast_le (α := ℚ), ← one_le_div hp2q, hval, zpow_neg, ← div_eq_mul_inv,
      one_le_div (hpos _)]
  unfold binaryExponent
  simp only
  split
  · rename_i h
    refine ⟨htest.1 h, ?_⟩
    rw [div_lt_iff₀ hdq]
    calc (n : ℚ) < (2 : ℚ) ^ ((ilog2 n n : ℤ) + 1) := hnb
      _ = (2 : ℚ) ^ ((ilog2 n n : ℤ) - (ilog2 d d : ℤ) + 1) * (2 : ℚ) ^ (ilog2 d d : ℤ) := by
        rw [← zpow_add₀ h2]
        congr 1
        ring
      _ ≤ (2 : ℚ) ^ ((ilog2 n n : ℤ) - (ilog2 d d : ℤ) + 1) * (d : ℚ) :=
        mul_le_mul_of_nonneg_left hda (le_of_lt (hpos _))
  · rename_i h
    have hlt : (n : ℚ) / (d : ℚ) < (2 : ℚ) ^ ((ilog2 n n : ℤ) - (ilog2 d d : ℤ)) :=
      lt_of_not_le (fun hle => h (htest.2 hle))
    refine ⟨?_, by rw [sub_add_cancel]; exact hlt⟩
    rw [le_div_iff₀ hdq]
    calc (2 : ℚ) ^ ((ilog2 n n : ℤ) - (ilog2 d d : ℤ) - 1) * (d : ℚ)
        ≤ (2 : ℚ) ^ ((ilog2 n n : ℤ) - (ilog2 d d : ℤ) - 1) * (2 : ℚ) ^ ((ilog2 d d : ℤ) + 1) :=
          mul_le_mul_of_nonneg_left (le_of_lt hdb) (le_of_lt (hpos _))
      _ = (2 : ℚ) ^ (ilog2 n n : ℤ) := by
        rw [← zpow_add₀ h2]
        congr 1
        ring
      _ ≤ (n : ℚ) := hna

theorem roundHalfEven_exact (M den : Nat) (hden : 0 < den) :
    roundHalfEven (M * den) den = M := by
  unfold roundHalfEven
  simp only [Nat.mul_mod_left, Nat.mul_zero]
  rw [if_pos hden, Nat.mul_div_cancel _ hden]

theorem roundHalfEven_le (num den K : Nat) (hden : 0 < den) (h : num < K * den) :
    roundHalfEven num den ≤ K := by
  have hq : num / den < K := (Nat.div_lt_iff_lt_mul hden).2 h
  have hm : (num / den) % 2 ≤ 1 := by omega
  unfold roundHalfEven
  simp only
  split
  · omega
  · split <;> omega

theorem unscale2_val (m : Nat) (s : Int) : unscale2 m s = (m : ℚ) * (2 : ℚ) ^ (-s) := by
  unfold unscale2
  split
  · rename_i h
    obtain ⟨k, rfl⟩ := Int.eq_ofNat_of_zero_le h
    rw [Rat.mkRat_eq_div]
    simp only [Int.toNat_ofNat, Nat.cast_pow, Nat.cast_ofNat, zpow_neg, zpow_natCast,
      Int.cast_natCast]
    rw [div_eq_mul_inv]
  · rename_i h
    obtain ⟨k, hk⟩ := Int.eq_ofNat_of_zero_le (show 0 ≤ -s by omega)
    rw [hk]
    simp only [Int.toNat_ofNat, Nat.cast_mul, Nat.cast_pow, Nat.cast_ofNat, zpow_natCast]

/-- The nonnegative `double` values: `m * 2^(e - 52)` with `m < 2^53` and `e >= -1022`. -/
theorem roundPositive_isDouble (n d : Nat) (hn : 0 < n) (hd : 0 < d) :
    ∃ (m : Nat) (e : Int), m < 2 ^ 53 ∧ -1022 ≤ e ∧
      roundPositive n d = (m : ℚ) * (2 : ℚ) ^ (e - 52) := by
  obtain ⟨-, hub⟩ := binaryExponent_spec n d hn hd
  have h2 : (2 : ℚ) ≠ 0 := two_ne_zero
  have hpos : ∀ k : ℤ, (0 : ℚ) < (2 : ℚ) ^ k := fun k => zpow_pos (by norm_num) k
  unfold roundPositive
  simp only
  generalize hE : binaryExponent n d = e0 at hub ⊢
  generalize he : (if e0 < -1022 then (-1022 : ℤ) else e0) = e
  have he1 : -1022 ≤ e := by rw [← he]; split <;> omega
  have he2 : e0 ≤ e := by rw [← he]; split <;> omega
  have hp2 := scale2_pos n d (52 - e) hd
  have hval := scale2_val n d (52 - e) hd
  have hp2q : (0 : ℚ) < ((scale2 n d (52 - e)).2 : ℚ) := Nat.cast_pos.2 hp2
  -- n / d * 2^(52 - e) < 2^53
  have hlt : (scale2 n d (52 - e)).1 < 2 ^ 53 * (scale2 n d (52 - e)).2 := by
    have : ((scale2 n d (52 - e)).1 : ℚ) / ((scale2 n d (52 - e)).2 : ℚ) < (2 : ℚ) ^ (53 : ℕ) := by
      rw [hval]
      calc (n : ℚ) / (d : ℚ) * (2 : ℚ) ^ (52 - e)
          < (2 : ℚ) ^ (e0 + 1) * (2 : ℚ) ^ (52 - e) := mul_lt_mul_of_pos_right hub (hpos _)
        _ = (2 : ℚ) ^ (e0 + 1 + (52 - e)) := (zpow_add₀ h2 _ _).symm
        _ ≤ (2 : ℚ) ^ ((53 : ℕ) : ℤ) := zpow_le_zpow_right₀ (by norm_num) (by push_cast; omega)
        _ = (2 : ℚ) ^ (53 : ℕ) := zpow_natCast _ _
    rw [div_lt_iff₀ hp2q] at this
    exact_mod_cast this
  have hle := roundHalfEven_le _ _ (2 ^ 53) hp2 hlt
  rw [unscale2_val]
  rcases Nat.lt_or_eq_of_le hle with hm | hm
  · refine ⟨_, e, hm, he1, ?_⟩
    congr 2
    ring
  · refine ⟨2 ^ 52, e + 1, by norm_num, by omega, ?_⟩
    rw [hm, show e + 1 - 52 = -(52 - e) + 1 by ring, zpow_add_one₀ h2]
    push_cast
    ring

theorem roundPositive_fix (v : ℚ) (hv : 0 < v) (m : Nat) (e : Int) (hm : m < 2 ^ 53)
    (he : -1022 ≤ e) (hval : v = (m : ℚ) * (2 : ℚ) ^ (e - 52)) :
    roundPositive v.num.natAbs v.den = v := by
  have h2 : (2 : ℚ) ≠ 0 := two_ne_zero
  have h12 : (1 : ℚ) < 2 := by norm_num
  have hpos : ∀ k : ℤ, (0 : ℚ) < (2 : ℚ) ^ k := fun k => zpow_pos (by norm_num) k
  have hnum : 0 < v.num := Rat.num_pos.2 hv
  have hn : 0 < v.num.natAbs := Int.natAbs_pos.2 (ne_of_gt hnum)
  have hd : 0 < v.den := v.den_pos
  have hnd : ((v.num.natAbs : ℕ) : ℚ) / ((v.den : ℕ) : ℚ) = v := by
    have : ((v.num.natAbs : ℕ) : ℚ) = ((v.num : ℤ) : ℚ) := by
      rw [← Int.cast_natCast, Int.natAbs_of_nonneg (le_of_lt hnum)]
    rw [this]
    exact Rat.num_div_den v
  obtain ⟨hlb, -⟩ := binaryExponent_spec _ _ hn hd
  rw [hnd] at hlb
  unfold roundPositive
  simp only
  generalize binaryExponent v.num.natAbs v.den = e0 at hlb ⊢
  -- v < 2^(e + 1), so the exponent found is at most e
  have hvlt : v < (2 : ℚ) ^ (e + 1) := by
    rw [hval]
    calc (m : ℚ) * (2 : ℚ) ^ (e - 52) < (2 : ℚ) ^ (53 : ℕ) * (2 : ℚ) ^ (e - 52) :=
          mul_lt_mul_of_pos_right (by exact_mod_cast hm) (hpos _)
      _ = (2 : ℚ) ^ (e + 1) := by
        rw [← zpow_natCast, ← zpow_add₀ h2]
        congr 1
        push_cast
        ring
  have he0 : e0 ≤ e := by
    have : (2 : ℚ) ^ e0 < (2 : ℚ) ^ (e + 1) := lt_of_le_of_lt hlb hvlt
    have := (zpow_lt_zpow_iff_right₀ h12).1 this
    omega
  generalize hec : (if e0 < -1022 then (-1022 : ℤ) else e0) = ec
  have hec1 : ec ≤ e := by rw [← hec]; split <;> omega
  obtain ⟨k, hk⟩ := Int.eq_ofNat_of_zero_le (show 0 ≤ e - ec by omega)
  have hp2 := scale2_pos v.num.natAbs v.den (52 - ec) hd
  have hsv := scale2_val v.num.natAbs v.den (52 - ec) hd
  have hp2q : (0 : ℚ) < ((scale2 v.num.natAbs v.den (52 - ec)).2 : ℚ) := Nat.cast_pos.2 hp2
  -- v * 2^(52 - ec) is the integer m * 2^k
  have hint : (scale2 v.num.natAbs v.den (52 - ec)).1 =
      (m * 2 ^ k) * (scale2 v.num.natAbs v.den (52 - ec)).2 := by
    have h1 : ((scale2 v.num.natAbs v.den (52 - ec)).1 : ℚ) /
        ((scale2 v.num.natAbs v.den (52 - ec)).2 : ℚ) = ((m * 2 ^ k : ℕ) : ℚ) := by
      rw [hsv, hnd, hval, mul_assoc, ← zpow_add₀ h2,
        show e - 52 + (52 - ec) = ((k : ℕ) : ℤ) by omega, zpow_natCast]
      push_cast
      ring
    rw [div_eq_iff (ne_of_gt hp2q)] at h1
    exact_mod_cast h1
  rw [hint, roundHalfEven_exact _ _ hp2, unscale2_val, hval]
  push_cast
  rw [mul_assoc, ← zpow_natCast, ← zpow_add₀ h2]
  congr 2
  omega

theorem roundDouble_zero : roundDouble 0 = 0 := by
  unfold roundDouble
  simp

theorem roundPositive_nonneg (n d : Nat) : 0 ≤ roundPositive n d := by
  unfold roundPositive
  simp only
  rw [unscale2_val]
  exact mul_nonneg (Nat.cast_nonneg _) (le_of_lt (zpow_pos (by norm_num) _))

/-- Rounding is sign-symmetric. -/
theorem roundDouble_neg (x : ℚ) : roundDouble (-x) = -roundDouble x := by
  unfold roundDouble
  rw [Rat.neg_num, Rat.neg_den, Int.natAbs_neg]
  rcases lt_trichotomy x.num 0 with h | h | h
  · rw [if_neg (by omega), if_neg (by omega), if_neg (by omega), if_pos h, neg_neg]
  · simp [h]
  · rw [if_neg (by omega), if_pos (by omega), if_neg (by omega), if_neg (by omega)]

theorem roundDouble_of_pos {x : ℚ} (h : 0 < x.num) :
    roundDouble x = roundPositive x.num.natAbs x.den := by
  unfold roundDouble
  rw [if_neg (by omega), if_neg (by omega)]

theorem roundDouble_of_neg {x : ℚ} (h : x.num < 0) :
    roundDouble x = -roundPositive x.num.natAbs x.den := by
  unfold roundDouble
  rw [if_neg (by omega), if_pos h]

/-- Rounding leaves a `double` value as it is. -/
theorem roundDouble_idem (x : ℚ) : roundDouble (roundDouble x) = roundDouble x := by
  have key : ∀ n d : Nat, 0 < n → 0 < d →
      roundDouble (roundPositive n d) = roundPositive n d := by
    intro n d hn hd
    obtain ⟨m, e, hm, he, hv⟩ := roundPositive_isDouble n d hn hd
    rcases (roundPositive_nonneg n d).lt_or_eq with hpos | hzero
    · rw [roundDouble_of_pos (Rat.num_pos.2 hpos)]
      exact roundPositive_fix _ hpos m e hm he hv
    · rw [← hzero]
      exact roundDouble_zero
  have hd : 0 < x.den := x.den_pos
  rcases lt_trichotomy x.num 0 with h | h | h
  · rw [roundDouble_of_neg h, roundDouble_neg,
      key _ _ (Int.natAbs_pos.2 (ne_of_lt h)) hd]
  · have : roundDouble x = 0 := by
      unfold roundDouble
      rw [if_pos h]
    rw [this, roundDouble_zero]
  · rw [roundDouble_of_pos h, key _ _ (Int.natAbs_pos.2 (ne_of_gt h)) hd]

/-- The `double` nearest to 1/10 and to 9/10. -/
theorem roundDouble_tenths :
    roundDouble (1 / 10) = 3602879701896397 / 36028797018963968 ∧
      roundDouble (9 / 10) = 8106479329266893 / 9007199254740992 := by
  constructor <;> decide!

theorem scale_neg_one (v : Vector3) : v.scale id (-1) = v.neg := by
  simp [Vector3.scale, Vector3.neg]

/-- Over exact arithmetic the column written by the loop body is the column of the spec. -/
theorem columnEntry_id (link : Link) (p_end : Vector3) (downward : Bool) (row : Nat) :
    columnEntry id link p_end downward row = specColumn link p_end downward row := by
  unfold columnEntry specColumn
  simp only [scale_neg_one]

theorem set_data (M : dmatrix) (r c : Nat) (v : ℚ) (a b : Nat) :
    (M.set r c v).data a b = if a = r ∧ b = c then v else M.data a b := rfl

theorem setVector3_data (v : Vector3) (M : dmatrix) (top col a b : Nat) :
    (setVector3 v M top col).data a b =
      if b = col ∧ a = top then v.x
      else if b = col ∧ a = top + 1 then v.y
      else if b = col ∧ a = top + 2 then v.z
      else M.data a b := by
  simp only [setVector3, set_data]
  by_cases hb : b = col
  · by_cases h0 : a = top
    · simp [hb, h0]
    · by_cases h1 : a = top + 1
      · simp [hb, h1]
      · by_cases h2 : a = top + 2
        · simp [hb, h2]
        · simp [hb, h0, h1, h2]
  · simp [hb]

theorem setVector3_size (v : Vector3) (M : dmatrix) (top col : Nat) :
    (setVector3 v M top col).size1 = M.size1 ∧ (setVector3 v M top col).size2 = M.size2 :=
  ⟨rfl, rfl⟩

/-- One loop body writes the prescribed column `i`, leaves the other columns and the sizes. -/
theorem jacobianColumn_spec (fl : ℚ → ℚ) (self : JointPath) (targetLink link : Link)
    (i : Nat) (J : dmatrix) :
    (self.jacobianColumn fl targetLink link i J).size1 = J.size1 ∧
    (self.jacobianColumn fl targetLink link i J).size2 = J.size2 ∧
    (∀ r c, c ≠ i → (self.jacobianColumn fl targetLink link i J).data r c = J.data r c) ∧
    (∀ r, r < 6 → (self.jacobianColumn fl targetLink link i J).data r i
      = columnEntry fl link targetLink.p (self.isJointDownward i) r) := by
  unfold JointPath.jacobianColumn columnEntry
  cases hjt : link.jointType with
  | ROTATIONAL_JOINT =>
    refine ⟨rfl, rfl, fun r c hc => ?_, fun r hr => ?_⟩
    · simp [setVector3_data, hc]
    · cases hd : self.isJointDownward i <;>
        interval_cases r <;> simp [setVector3_data]
  | SLIDE_JOINT =>
    refine ⟨rfl, rfl, fun r c hc => ?_, fun r hr => ?_⟩
    · simp [setVector3_data, set_data, hc]
    · cases hd : self.isJointDownward i <;>
        interval_cases r <;> simp [setVector3_data, set_data]
  | FREE_JOINT =>
    refine ⟨rfl, rfl, fun r c hc => ?_, fun r hr => ?_⟩
    · simp [set_data, hc]
    · interval_cases r <;> simp [set_data]
  | FIXED_JOINT =>
    refine ⟨rfl, rfl, fun r c hc => ?_, fun r hr => ?_⟩
    · simp [set_data, hc]
    · interval_cases r <;> simp [set_data]

theorem jacobianLoop_succ (fl : ℚ → ℚ) (T : Body) (self : JointPath) (targetLink : Link)
    (n fuel i : Nat) (J : dmatrix) :
    JointPath.jacobianLoop fl T self targetLink n (fuel + 1) i J =
      if i < n then
        match self.joints[i]? with
        | none => none
        | some j =>
          match T[j]? with
          | none => none
          | some link =>
            JointPath.jacobianLoop fl T self targetLink n fuel (i + 1)
              (self.jacobianColumn fl targetLink link i J)
      else
        some J := by
  rfl

/-- The column loop terminates, keeps the sizes and the columns before `i`, and writes the
prescribed column for every joint from `i` on. -/
theorem jacobianLoop_spec (fl : ℚ → ℚ) (T : Body) (self : JointPath) (targetLink : Link)
    (n : Nat) (hn : n ≤ self.joints.length) (hvalid : ∀ j ∈ self.joints, j < T.length) :
    ∀ (fuel i : Nat) (J : dmatrix), n - i < fuel →
      ∃ J', JointPath.jacobianLoop fl T self targetLink n fuel i J = some J' ∧
        J'.size1 = J.size1 ∧ J'.size2 = J.size2 ∧
        (∀ r c, c < i → J'.data r c = J.data r c) ∧
        (∀ (c : Nat) (hc : c < self.joints.length), i ≤ c → c < n →
          ∀ link, T[self.joints[c]]? = some link → ∀ r, r < 6 →
            J'.data r c = columnEntry fl link targetLink.p (self.isJointDownward c) r) := by
  intro fuel
  induction fuel with
  | zero =>
    intro i J h
    exact absurd h (by omega)
  | succ m ih =>
    intro i J h
    rw [jacobianLoop_succ]
    by_cases hin : i < n
    · rw [if_pos hin]
      have hil : i < self.joints.length := lt_of_lt_of_le hin hn
      have hget : self.joints[i]? = some self.joints[i] := List.getElem?_eq_getElem hil
      have hv : self.joints[i] < T.length := hvalid _ (List.getElem_mem _)
      have hL : T[self.joints[i]]? = some T[self.joints[i]] := List.getElem?_eq_getElem hv
      rw [hget]
      simp only
      rw [hL]
      simp only
      obtain ⟨J', hJ', hs1, hs2, hbefore, hafter⟩ :=
        ih (i + 1) (self.jacobianColumn fl targetLink T[self.joints[i]] i J) (by omega)
      obtain ⟨hc1, hc2, hcother, hcol⟩ :=
        jacobianColumn_spec fl self targetLink T[self.joints[i]] i J
      refine ⟨J', hJ', hs1.trans hc1, hs2.trans hc2, fun r c hc => ?_, ?_⟩
      · rw [hbefore r c (by omega), hcother r c (by omega)]
      · intro c hc hic hcn link hlink r hr
        by_cases hci : c = i
        · subst hci
          obtain rfl : T[self.joints[c]] = link := Option.some.inj (hL.symm.trans hlink)
          rw [hbefore r c (by omega), hcol r hr]
        · exact hafter c hc (by omega) hcn link hlink r hr
    · rw [if_neg hin]
      exact ⟨J, rfl, rfl, rfl, fun _ _ _ => rfl,
        fun c _ hic hcn => absurd (lt_of_le_of_lt hic hcn) hin⟩

theorem setQ_spec {T T1 : Body} {link : Nat} {v : ℚ} (h : setQ T link v = some T1) :
    (T1[link]?).map Link.q = some v ∧ ∀ l, l ≠ link → T1[l]? = T[l]? := by
  unfold setQ at h
  cases hL : T[link]? with
  | none =>
    rw [hL] at h
    exact absurd h (by simp)
  | some L =>
    rw [hL] at h
    obtain rfl := Option.some.inj h
    have hlt : link < T.length := by
      by_contra hlt
      rw [List.getElem?_eq_none (Nat.le_of_not_lt hlt)] at hL
      exact absurd hL (by simp)
    constructor
    · rw [List.getElem?_set_self hlt]
      rfl
    · intro l hl
      exact List.getElem?_set_ne (Ne.symm hl)

/-- Writing back the values `q0` leaves exactly these values on the listed links and touches
no other link. -/
theorem restoreQ_spec (q0 : Nat → ℚ) : ∀ (links : List Nat) (T T' : Body),
    restoreQ links (links.map q0) T = some T' →
      (∀ l ∈ links, (T'[l]?).map Link.q = some (q0 l)) ∧ (∀ l, l ∉ links → T'[l]? = T[l]?) := by
  intro links
  induction links with
  | nil =>
    intro T T' h
    obtain rfl : T = T' := Option.some.inj h
    exact ⟨fun l hl => absurd hl (by simp), fun _ _ => rfl⟩
  | cons l rest ih =>
    intro T T' h
    simp only [List.map_cons, restoreQ] at h
    cases h1 : setQ T l (q0 l) with
    | none =>
      rw [h1] at h
      exact absurd h (by simp)
    | some T1 =>
      rw [h1] at h
      obtain ⟨hin, hout⟩ := ih T1 T' h
      obtain ⟨hset, hother⟩ := setQ_spec h1
      constructor
      · intro l' hl'
        by_cases hr : l' ∈ rest
        · exact hin l' hr
        · rcases List.mem_cons.1 hl' with rfl | hl''
          · rw [hout l' hr, hset]
          · exact absurd hl'' hr
      · intro l' hl'
        have hne : l' ≠ l := fun h => hl' (by rw [h]; exact List.mem_cons_self _ _)
        have hr : l' ∉ rest := fun h => hl' (List.mem_cons_of_mem _ h)
        rw [hout l' hr, hother l' hne]

/-- The snapshot holds the joint value of every listed link, which must be in the arena. -/
theorem saveQ_spec (T : Body) : ∀ (links : List Nat) (qs : List ℚ), saveQ T links = some qs →
    qs = links.map (fun l => ((T[l]?).map Link.q).getD 0) ∧
      ∀ l ∈ links, (T[l]?).map Link.q = some (((T[l]?).map Link.q).getD 0) := by
  intro links
  induction links with
  | nil =>
    intro qs h
    obtain rfl := Option.some.inj h
    exact ⟨rfl, fun l hl => absurd hl (by simp)⟩
  | cons l rest ih =>
    intro qs h
    simp only [saveQ] at h
    cases hL : T[l]? with
    | none =>
      rw [hL] at h
      exact absurd h (by simp)
    | some L =>
      rw [hL] at h
      simp only at h
      cases hr : saveQ T rest with
      | none =>
        rw [hr] at h
        exact absurd h (by simp)
      | some qs' =>
        rw [hr] at h
        obtain rfl := Option.some.inj h
        obtain ⟨hq, hv⟩ := ih qs' hr
        constructor
        · rw [List.map_cons, hL, ← hq]
          rfl
        · intro l' hl'
          rcases List.mem_cons.1 hl' with rfl | hl''
          · rw [hL]
            rfl
          · exact hv l' hl''

/-- Restoring a snapshot taken on `T` gives every listed link the joint value it has in `T`. -/
theorem restoreQ_saveQ {T B T1 : Body} {links : List Nat} {qorg : List ℚ}
    (hs : saveQ T links = some qorg) (hr : restoreQ links qorg B = some T1) :
    ∀ j ∈ links, (T1[j]?).map Link.q = (T[j]?).map Link.q := by
  obtain ⟨hq, hv⟩ := saveQ_spec T links qorg hs
  rw [hq] at hr
  intro j hj
  rw [(restoreQ_spec _ links B T1 hr).1 j hj]
  exact (hv j hj).symm

/-- How a run on a non-empty joint path can return `false`: the loop ended without
convergence, the snapshot was written back and forward kinematics ran last. -/
theorem calcInverseKinematics_false {env : IKEnv} {T : Body} {self : JointPath}
    {end_p : Vector3} {end_R0 : Matrix33} {T' : Body} {tr : List IKEvent}
    (hne : self.joints ≠ [])
    (h : self.calcInverseKinematics env T end_p end_R0 = some (false, T', tr)) :
    ∃ (target : Nat) (targetLink : Link) (qorg : List ℚ) (st : IKState) (T1 : Body),
      self.links.getLast? = some target ∧ T[target]? = some targetLink ∧
      saveQ T self.joints = some qorg ∧
      self.ikLoop env target end_p (end_R0.mul env.fl (trans targetLink.Rs)) MAX_IK_ITERATION
        ⟨T, ⟨6, self.joints.length, env.freshJ⟩, env.freshDq, env.fl (self.maxIKErrorSqr * 100), []⟩
        = some (false, st) ∧
      restoreQ self.joints qorg st.body = some T1 ∧
      T' = env.calcForwardKinematics self T1 ∧
      tr = st.trace ++ [IKEvent.forwardKinematics] := by
  unfold JointPath.calcInverseKinematics at h
  have he : self.joints.isEmpty = false := by
    cases hj : self.joints with
    | nil => exact absurd hj hne
    | cons _ _ => rfl
  have hn : ¬ self.joints.length < 1 := by
    intro hlt
    exact hne (List.length_eq_zero.1 (by omega))
  simp only [he, hn, if_false, Bool.false_eq_true] at h
  split at h
  · exact absurd h (by simp)
  · rename_i target htarget
    split at h
    · exact absurd h (by simp)
    · rename_i targetLink hlink
      split at h
      · exact absurd h (by simp)
      · rename_i qorg hq
        split at h
        · exact absurd h (by simp)
        · rename_i converged st hloop
          cases converged with
          | true =>
            simp only [Bool.not_true, Bool.false_eq_true, if_false] at h
            exact absurd (congrArg Prod.fst (Option.some.inj h)) (by simp)
          | false =>
            simp only [Bool.not_false, if_true] at h
            split at h
            · exact absurd h (by simp)
            · rename_i T1 hrest
              have h' := Option.some.inj h
              exact ⟨target, targetLink, qorg, st, T1, htarget, hlink, hq, hloop, hrest,
                (congrArg (fun r => r.2.1) h').symm, (congrArg (fun r => r.2.2) h').symm⟩

theorem ikLoop_strict_succ (env : IKEnv) (self : JointPath) (target : Nat) (end_p : Vector3)
    (end_R : Matrix33) (hmode : self.isBestEffortIKMode = false) (left : Nat) (st : IKState) :
    self.ikLoop env target end_p end_R (left + 1) st =
      match self.ikError env target end_p end_R st with
      | none => none
      | some (dp, omega, st1) =>
        if env.fl (dot env.fl dp dp + dot env.fl omega omega) < self.maxIKErrorSqr then some (true, st1)
        else
          match self.ikUpdate env dp omega st1 with
          | none => none
          | some st3 => self.ikLoop env target end_p end_R left st3 := by
  rw [JointPath.ikLoop]
  cases self.ikError env target end_p end_R st with
  | none => rfl
  | some r => simp only [hmode, Bool.false_eq_true, if_false]

/-- In strict mode the loop reports convergence exactly when, within the rounds it has left,
some state has squared error below the threshold; it stops at the first such state. -/
theorem ikLoop_strict_true (env : IKEnv) (self : JointPath) (target : Nat) (end_p : Vector3)
    (end_R : Matrix33) (hmode : self.isBestEffortIKMode = false) :
    ∀ (left : Nat) (st st' : IKState),
      self.ikLoop env target end_p end_R left st = some (true, st') ↔
        ∃ k, k < left ∧ StrictHit env self target end_p end_R st k st' := by
  intro left
  induction left with
  | zero =>
    intro st st'
    constructor
    · intro h
      exact absurd (congrArg Prod.fst (Option.some.inj h)) (by simp)
    · rintro ⟨k, hk, -⟩
      exact absurd hk (by omega)
  | succ left ih =>
    intro st st'
    rw [ikLoop_strict_succ env self target end_p end_R hmode]
    cases herr : self.ikError env target end_p end_R st with
    | none =>
      simp only
      constructor
      · intro h
        exact absurd h (by simp)
      · rintro ⟨k, -, stk, dp, omega, hk, hek, -, -⟩
        cases k with
        | zero =>
          obtain rfl : st = stk := Option.some.inj hk
          rw [herr] at hek
          exact absurd hek (by simp)
        | succ k =>
          rw [JointPath.ikStateAfter, JointPath.ikRound, herr] at hk
          exact absurd hk (by simp)
    | some r =>
      obtain ⟨dp, omega, st1⟩ := r
      simp only
      by_cases hlt : env.fl (dot env.fl dp dp + dot env.fl omega omega) < self.maxIKErrorSqr
      · rw [if_pos hlt]
        constructor
        · intro h
          obtain rfl : st1 = st' := congrArg Prod.snd (Option.some.inj h)
          exact ⟨0, Nat.succ_pos _, st, dp, omega, rfl, herr, hlt,
            fun j hj => absurd hj (by omega)⟩
        · rintro ⟨k, -, stk, dp', omega', hk, hek, -, hmin⟩
          cases k with
          | zero =>
            obtain rfl : st = stk := Option.some.inj hk
            rw [herr] at hek
            obtain ⟨-, -, rfl⟩ : dp = dp' ∧ omega = omega' ∧ st1 = st' := by
              simpa using hek
            rfl
          | succ k =>
            exfalso
            refine hmin 0 (Nat.succ_pos _) st _ rfl ?_ hlt
            rw [JointPath.ikErrSqr, herr]
      · rw [if_neg hlt]
        have hround : self.ikRound env target end_p end_R st = self.ikUpdate env dp omega st1 := by
          rw [JointPath.ikRound, herr]
        cases hupd : self.ikUpdate env dp omega st1 with
        | none =>
          simp only
          constructor
          · intro h
            exact absurd h (by simp)
          · rintro ⟨k, -, stk, dp', omega', hk, hek, hlt', -⟩
            cases k with
            | zero =>
              obtain rfl : st = stk := Option.some.inj hk
              rw [herr] at hek
              obtain ⟨rfl, rfl, -⟩ : dp = dp' ∧ omega = omega' ∧ st1 = st' := by
                simpa using hek
              exact absurd hlt' hlt
            | succ k =>
              rw [JointPath.ikStateAfter, hround, hupd] at hk
              exact absurd hk (by simp)
        | some st3 =>
          simp only
          rw [ih st3 st']
          constructor
          · rintro ⟨k, hk, stk, dp', omega', hstk, hek, hlt', hmin⟩
            refine ⟨k + 1, by omega, stk, dp', omega', ?_, hek, hlt', ?_⟩
            · rw [JointPath.ikStateAfter, hround, hupd]
              exact hstk
            · intro j hj stj e hstj hej
              cases j with
              | zero =>
                obtain rfl : st = stj := Option.some.inj hstj
                rw [JointPath.ikErrSqr, herr] at hej
                obtain rfl := Option.some.inj hej
                exact hlt
              | succ j =>
                rw [JointPath.ikStateAfter, hround, hupd] at hstj
                exact hmin j (by omega) stj e hstj hej
          · rintro ⟨k, hk, stk, dp', omega', hstk, hek, hlt', hmin⟩
            cases k with
            | zero =>
              exfalso
              obtain rfl : st = stk := Option.some.inj hstk
              rw [herr] at hek
              obtain ⟨rfl, rfl, -⟩ : dp = dp' ∧ omega = omega' ∧ st1 = st' := by
                simpa using hek
              exact hlt hlt'
            | succ k =>
              rw [JointPath.ikStateAfter, hround, hupd] at hstk
              refine ⟨k, by omega, stk, dp', omega', hstk, hek, hlt', ?_⟩
              intro j hj stj e hstj hej
              refine hmin (j + 1) (by omega) stj e ?_ hej
              rw [JointPath.ikStateAfter, hround, hupd]
              exact hstj

theorem ikError_body_trace {env : IKEnv} {self : JointPath} {target : Nat} {end_p : Vector3}
    {end_R : Matrix33} {st st1 : IKState} {dp omega : Vector3}
    (h : self.ikError env target end_p end_R st = some (dp, omega, st1)) :
    st1.body = st.body ∧ st1.trace = st.trace ++ [IKEvent.jacobian] := by
  unfold JointPath.ikError at h
  split at h
  · exact absurd h (by simp)
  · split at h
    · exact absurd h (by simp)
    · have h' := Option.some.inj h
      have h3 : _ = st1 := congrArg (fun r => r.2.2) h'
      rw [← h3]
      exact ⟨rfl, rfl⟩

/-- How a run on a non-empty joint path returns `true`: the loop converged. -/
theorem calcInverseKinematics_true_iff {env : IKEnv} {T : Body} {self : JointPath}
    {end_p : Vector3} {end_R0 : Matrix33} {target : Nat} {targetLink : Link} {qorg : List ℚ}
    (hne : self.joints ≠ []) (htarget : self.links.getLast? = some target)
    (hlink : T[target]? = some targetLink) (hq : saveQ T self.joints = some qorg)
    (T' : Body) (tr : List IKEvent) :
    self.calcInverseKinematics env T end_p end_R0 = some (true, T', tr) ↔
      ∃ st', self.ikLoop env target end_p (end_R0.mul env.fl (trans targetLink.Rs)) MAX_IK_ITERATION
          ⟨T, ⟨6, self.joints.length, env.freshJ⟩, env.freshDq, env.fl (self.maxIKErrorSqr * 100), []⟩
          = some (true, st') ∧ T' = st'.body ∧ tr = st'.trace := by
  unfold JointPath.calcInverseKinematics
  have he : self.joints.isEmpty = false := by
    cases hj : self.joints with
    | nil => exact absurd hj hne
    | cons _ _ => rfl
  have hn : ¬ self.joints.length < 1 := by
    intro hlt
    exact hne (List.length_eq_zero.1 (by omega))
  simp only [he, hn, if_false, Bool.false_eq_true, htarget, hlink, hq]
  cases hloop : self.ikLoop env target end_p (end_R0.mul env.fl (trans targetLink.Rs)) MAX_IK_ITERATION
      ⟨T, ⟨6, self.joints.length, env.freshJ⟩, env.freshDq, env.fl (self.maxIKErrorSqr * 100), []⟩ with
  | none => simp
  | some r =>
    obtain ⟨converged, st⟩ := r
    cases converged with
    | true =>
      simp only [Bool.not_true, Bool.false_eq_true, if_false, Option.some.injEq, Prod.mk.injEq,
        true_and]
      constructor
      · rintro ⟨rfl, rfl⟩
        exact ⟨st, rfl, rfl, rfl⟩
      · rintro ⟨st', rfl, rfl, rfl⟩
        exact ⟨rfl, rfl⟩
    | false =>
      simp only [Bool.not_false, if_true]
      constructor
      · intro h
        split at h
        · exact absurd h (by simp)
        · exact absurd (congrArg Prod.fst (Option.some.inj h)) (by simp)
      · rintro ⟨st', h, -⟩
        exact absurd (congrArg Prod.fst (Option.some.inj h)) (by simp)

/-- If some state within reach has squared error below the threshold, there is a first one. -/
theorem strictHit_of_exists {env : IKEnv} {self : JointPath} {target : Nat} {end_p : Vector3}
    {end_R : Matrix33} {st0 stk : IKState} {k : Nat} {e : ℚ}
    (hstk : self.ikStateAfter env target end_p end_R k st0 = some stk)
    (he : self.ikErrSqr env target end_p end_R stk = some e) (hlt : e < self.maxIKErrorSqr) :
    ∃ k', k' ≤ k ∧ ∃ st', StrictHit env self target end_p end_R st0 k' st' := by
  classical
  have hex : ∃ j, ∃ stj ej, self.ikStateAfter env target end_p end_R j st0 = some stj ∧
      self.ikErrSqr env target end_p end_R stj = some ej ∧ ej < self.maxIKErrorSqr :=
    ⟨k, stk, e, hstk, he, hlt⟩
  obtain ⟨stj, ej, hstj, hej, hltj⟩ := Nat.find_spec hex
  have hmin : ∀ j, j < Nat.find hex → ∀ st' e',
      self.ikStateAfter env target end_p end_R j st0 = some st' →
      self.ikErrSqr env target end_p end_R st' = some e' → ¬ e' < self.maxIKErrorSqr :=
    fun j hj st' e' h1 h2 h3 => Nat.find_min hex hj ⟨st', e', h1, h2, h3⟩
  refine ⟨Nat.find hex, Nat.find_min' hex ⟨stk, e, hstk, he, hlt⟩, ?_⟩
  unfold JointPath.ikErrSqr at hej
  split at hej
  · exact absurd hej (by simp)
  · rename_i dp omega st1 herr
    obtain rfl := Option.some.inj hej
    exact ⟨st1, stj, dp, omega, hstj, herr, hltj, hmin⟩

theorem sampleEnv_fk_keeps_q (P : JointPath) (B : Body) (l : Nat) :
    ((sampleEnv.calcForwardKinematics P B)[l]?).map Link.q = (B[l]?).map Link.q := by
  show ((B.map _)[l]?).map Link.q = (B[l]?).map Link.q
  rw [List.getElem?_map]
  cases B[l]? <;> rfl

/-- The counter kept by the loop: one decrement for each link among
`links[i], ..., links[m-1]` that is not actuated and sits at an upward index. -/
theorem extractLoop_count (T : Body) (path : LinkPath) (m : Nat) (hm : m ≤ path.links.length) :
    ∀ (fuel i : Nat) (joints : List Nat) (nUp : Int) (r : List Nat × Int),
      JointPath.extractLoop T path m fuel i joints nUp = some r →
        r.2 = nUp - (skipCount T path i ((path.links.take m).drop i) : Int) := by
  intro fuel
  induction fuel with
  | zero =>
    intro i joints nUp r h
    exact absurd h (by simp [JointPath.extractLoop])
  | succ n ih =>
    intro i joints nUp r h
    rw [extractLoop_succ] at h
    by_cases him : i < m
    · rw [if_pos him] at h
      have hil : i < path.links.length := lt_of_lt_of_le him hm
      have hit : i < (path.links.take m).length := by
        rw [List.length_take]
        exact lt_min him hil
      have hget : path.links[i]? = some path.links[i] := List.getElem?_eq_getElem hil
      have hdrop : (path.links.take m).drop i
          = path.links[i] :: (path.links.take m).drop (i + 1) := by
        rw [List.drop_eq_getElem_cons hit, List.getElem_take]
      rw [hget] at h
      simp only at h
      cases hL : T[path.links[i]]? with
      | none =>
        rw [hL] at h
        exact absurd h (by simp)
      | some L =>
        rw [hL] at h
        simp only at h
        have hj : isJointAt T path.links[i] = L.isActuated := by
          unfold isJointAt
          rw [hL]
        rw [hdrop, skipCount, hj]
        by_cases hact : L.isActuated = true
        · rw [if_pos hact] at h
          rw [ih _ _ _ _ h]
          simp [hact]
        · rw [if_neg hact] at h
          have hact' : L.isActuated = false := by simpa using hact
          by_cases hd : path.isDownward (i : Int) = true
          · simp only [hd, Bool.not_true, Bool.false_eq_true, if_false] at h
            rw [ih _ _ _ _ h]
            simp [hact', hd]
          · have hd' : path.isDownward (i : Int) = false := by simpa using hd
            simp only [hd', Bool.not_false, if_true] at h
            rw [ih _ _ _ _ h]
            simp [hact', hd']
            ring
    · rw [if_neg him] at h
      obtain rfl : (joints, nUp) = r := Option.some.inj h
      have : (path.links.take m).drop i = [] := by
        apply List.drop_eq_nil_of_le
        rw [List.length_take]
        exact le_trans (min_le_left _ _) (Nat.le_of_not_lt him)
      rw [this]
      simp [skipCount]

theorem isDownward_natCast (path : LinkPath) (k i : Nat)
    (hk : path.numUpwardConnections = (k : Int)) :
    path.isDownward (i : Int) = decide (k ≤ i) := by
  unfold LinkPath.isDownward
  rw [hk]
  simp

/-- With `k` upward segments, the decrements over `ls` (starting at Path index `i`) count the
links that are not actuated among those with index below `k`. -/
theorem skipCount_eq (T : Body) (path : LinkPath) (k : Nat)
    (hk : path.numUpwardConnections = (k : Int)) :
    ∀ (ls : List Nat) (i : Nat),
      skipCount T path i ls = (ls.take (k - i)).countP (fun l => !isJointAt T l) := by
  intro ls
  induction ls with
  | nil =>
    intro i
    simp [skipCount]
  | cons l rest ih =>
    intro i
    rw [skipCount, ih (i + 1), isDownward_natCast path k i hk]
    by_cases hik : k ≤ i
    · have h0 : k - i = 0 := by omega
      have h1 : k - (i + 1) = 0 := by omega
      simp [hik, h0, h1]
    · have h1 : k - i = (k - (i + 1)) + 1 := by omega
      rw [h1, List.take_succ_cons, List.countP_cons]
      simp only [hik, decide_False, Bool.not_false, Bool.and_true]
      by_cases ha : isJointAt T l = true
      · simp [ha]
      · simp [ha]
        omega

/-- A link sequence with at most one link yields no joints. -/
theorem extractJoints_short (T : Body) (self : JointPath) (hn : self.links.length ≤ 1) :
    JointPath.extractJoints T self = some ⟨self.toLinkPath, [], self.numUpwardConnections,
      self.maxIKErrorSqr, self.isBestEffortIKMode⟩ := by
  unfold JointPath.extractJoints
  simp only [hn, if_true]

/-- With at least two links, all of them in the arena, `extractJoints` returns, keeps the link
path and the solver settings, produces `jointsOf`, and leaves in
`numUpwardJointConnections` the upward count less the decrements of its loop. -/
theorem extractJoints_full (T : Body) (self : JointPath) (hn : 2 ≤ self.links.length)
    (hvalid : ∀ l ∈ self.links, l < T.length) :
    ∃ jp, JointPath.extractJoints T self = some jp ∧ jp.toLinkPath = self.toLinkPath ∧
      jp.maxIKErrorSqr = self.maxIKErrorSqr ∧ jp.isBestEffortIKMode = self.isBestEffortIKMode ∧
      jp.joints = jointsOf T self.toLinkPath ∧
      jp.numUpwardJointConnections = self.numUpwardConnections -
        (skipCount T self.toLinkPath (if self.isDownward 0 then 1 else 0)
          ((self.links.take (self.links.length - 1)).drop
            (if self.isDownward 0 then 1 else 0)) : Int) := by
  obtain ⟨jp, hjp, h1, h2, h3, h4⟩ := extractJoints_spec T self hvalid
  refine ⟨jp, hjp, h1, h2, h3, h4, ?_⟩
  have hn' : ¬ self.links.length ≤ 1 := by omega
  have hm : self.links.length - 1 ≤ self.links.length := Nat.sub_le _ _
  unfold JointPath.extractJoints at hjp
  simp only [hn', if_false] at hjp
  split at hjp
  · exact absurd hjp (by simp)
  · rename_i joints nUp hloop
    have hc := extractLoop_count T self.toLinkPath _ hm _ _ _ _ _ hloop
    simp only at hc
    have hnu : jp.numUpwardJointConnections = nUp := by
      split at hjp
      · split at hjp
        · exact absurd hjp (by simp)
        · split at hjp
          · exact absurd hjp (by simp)
          · split at hjp
            · rw [← Option.some.inj hjp]
            · rw [← Option.some.inj hjp]
      · rw [← Option.some.inj hjp]
    rw [hnu, hc]

theorem walk_valid {T : Body} (hT : WellFormed T) {x e k : Nat} {prev : Ptr} {P : List Nat}
    (h : Walk T x prev e P k) (hx : 2 ≤ P.length ∨ x < T.length) :
    ∀ l ∈ P, l < T.length := by
  induction h with
  | stop =>
    intro l hl
    rw [List.mem_singleton.1 hl]
    rcases hx with h | h
    · exact absurd h (by simp)
    · exact h
  | down hc _ _ ih =>
    intro l hl
    rcases List.mem_cons.1 hl with rfl | hl
    · exact hT.parentValid _ _ hc
    · exact ih (Or.inr (par_lt_length hc)) l hl
  | up hp _ _ ih =>
    intro l hl
    rcases List.mem_cons.1 hl with rfl | hl
    · exact par_lt_length hp
    · exact ih (Or.inr (hT.parentValid _ _ hp)) l hl

/-- What a successful `find` in a well-formed forest leaves behind: a duplicate-free path from
`root` to `end` that climbs for its first `k` segments and descends afterwards, with
`numUpwardConnections = k`, all of whose links are in the arena when there are at least two. -/
theorem found_path {T : Body} (hT : WellFormed T) {fuel root : Nat} {end_ : Ptr}
    {self lp : LinkPath} (h : LinkPath.find T fuel root end_ self = some (true, lp)) :
    ∃ (e k : Nat), end_ = some e ∧ lp.numUpwardConnections = (k : Int) ∧ Directed T k lp.links ∧
      lp.links.Nodup ∧ k + 1 ≤ lp.links.length ∧ lp.links.head? = some root ∧
      lp.links.getLast? = some e ∧ (2 ≤ lp.links.length → ∀ l ∈ lp.links, l < T.length) := by
  obtain ⟨e, k, he, hw, hk⟩ := find_true_walk hT h
  obtain ⟨hnd, hdir, -⟩ := walk_simple hT hw (fun y hy => absurd hy (by simp))
  obtain ⟨P', hP'⟩ := walk_head hw
  refine ⟨e, k, he, hk, hdir, hnd, ?_, ?_, walk_getLast hw, fun h2 => walk_valid hT hw (Or.inl h2)⟩
  · rcases directed_le_length k lp.links hdir with h1 | ⟨-, h1⟩
    · exact h1
    · rw [hP'] at h1
      exact absurd h1 (by simp)
  · rw [hP']
    rfl

/-- Direction of a segment given by two consecutive entries of a directed path. -/
theorem directed_seg {T : Body} : ∀ (k : Nat) (P : List Nat), Directed T k P →
    ∀ (i x y : Nat), P[i]? = some x → P[i + 1]? = some y →
      (i < k → par T x = some y) ∧ (k ≤ i → par T y = some x)
  | 0, [], _, i, x, y, hx, _ => absurd hx (by simp)
  | 0, [_], _, i, x, y, _, hy => absurd hy (by simp)
  | 0, a :: b :: l, h, i, x, y, hx, hy => by
    cases i with
    | zero =>
      simp only [List.getElem?_cons_zero, List.getElem?_cons_succ, Option.some.injEq] at hx hy
      subst hx hy
      exact ⟨fun h0 => absurd h0 (by simp), fun _ => h.1⟩
    | succ j =>
      simp only [List.getElem?_cons_succ] at hx hy
      obtain ⟨-, h2⟩ := directed_seg 0 (b :: l) h.2 j x y hx (by simpa using hy)
      exact ⟨fun h0 => absurd h0 (by simp), fun _ => h2 (Nat.zero_le _)⟩
  | _ + 1, [], h, _, _, _, _, _ => h.elim
  | _ + 1, [_], h, _, _, _, _, _ => h.elim
  | k + 1, a :: b :: l, h, i, x, y, hx, hy => by
    cases i with
    | zero =>
      simp only [List.getElem?_cons_zero, List.getElem?_cons_succ, Option.some.injEq] at hx hy
      subst hx hy
      exact ⟨fun _ => h.1, fun h0 => absurd h0 (by simp)⟩
    | succ j =>
      simp only [List.getElem?_cons_succ] at hx hy
      obtain ⟨h1, h2⟩ := directed_seg k (b :: l) h.2 j x y hx (by simpa using hy)
      exact ⟨fun hlt => h1 (by omega), fun hle => h2 (by omega)⟩

/-- The joints of a found path with at least two links: the actuated links before the turning
point (Path index below `k`), followed by the actuated links after it, and, when the path both
climbs and descends, also the link at the turning point itself when it is actuated;
`numUpwardJointConnections` is the number of the former. -/
theorem found_joints {T : Body} (hT : WellFormed T) {fuel root : Nat} {end_ : Ptr}
    {self lp : LinkPath} (h : LinkPath.find T fuel root end_ self = some (true, lp))
    (hn : 2 ≤ lp.links.length) (js : List Nat) (nj : Int) (err : ℚ) (mode : Bool) :
    ∃ (jp : JointPath) (k : Nat), lp.numUpwardConnections = (k : Int) ∧
      k + 1 ≤ lp.links.length ∧
      JointPath.extractJoints T ⟨lp, js, nj, err, mode⟩ = some jp ∧ jp.toLinkPath = lp ∧
      jp.joints = (lp.links.take k).filter (isJointAt T) ++
        (if 1 ≤ k ∧ k + 1 < lp.links.length then (lp.links.drop k).filter (isJointAt T)
          else (lp.links.drop (k + 1)).filter (isJointAt T)) ∧
      jp.numUpwardJointConnections = (((lp.links.take k).filter (isJointAt T)).length : Int) := by
  obtain ⟨e, k, -, hk, -, -, hkn, -, -, hvalid⟩ := found_path hT h
  obtain ⟨jp, hjp, hlp, -, -, hj, hc⟩ :=
    extractJoints_full T ⟨lp, js, nj, err, mode⟩ hn (hvalid hn)
  refine ⟨jp, k, hk, hkn, hjp, hlp, ?_, ?_⟩
  · rw [hj]
    unfold jointsOf
    have hn' : ¬ lp.links.length ≤ 1 := by omega
    simp only [hn', if_false]
    have hd0 : lp.isDownward 0 = decide (k ≤ 0) := isDownward_natCast lp k 0 hk
    have hdm : lp.isDownward (((lp.links.length - 1 - 1 : Nat) : Int))
        = decide (k ≤ lp.links.length - 1 - 1) := isDownward_natCast lp k _ hk
    rw [hd0, hdm]
    by_cases hk0 : k = 0
    · subst hk0
      have h1 : 1 ≤ (lp.links.take (lp.links.length - 1)).length := by
        rw [List.length_take]
        omega
      have hsplit : lp.links.drop 1
          = (lp.links.take (lp.links.length - 1)).drop 1
            ++ lp.links.drop (lp.links.length - 1) := by
        rw [← List.drop_append_of_le_length h1, List.take_append_drop]
      have hcond : ¬ (1 ≤ 0 ∧ 0 + 1 < lp.links.length) := fun hh => absurd hh.1 (by omega)
      simp only [hcond, if_false, Nat.le_refl, decide_True, if_true, Nat.zero_le,
        Bool.true_and, List.take_zero, List.filter_nil, List.nil_append, Nat.zero_add]
      rw [hsplit, List.filter_append]
    · have hk1 : ¬ k ≤ 0 := by omega
      simp only [hk1, decide_False, Bool.false_eq_true, if_false, List.drop_zero]
      by_cases hkm : k + 1 < lp.links.length
      · have hle : k ≤ lp.links.length - 1 - 1 := by omega
        have h1k : 1 ≤ k := by omega
        have hcond : 1 ≤ k ∧ k + 1 < lp.links.length := ⟨h1k, hkm⟩
        simp only [hcond, and_self, if_true, hle, decide_True, Bool.true_and]
        rw [← List.filter_append, List.take_append_drop, ← List.filter_append,
          List.take_append_drop]
      · have hle : ¬ k ≤ lp.links.length - 1 - 1 := by omega
        have hkeq : lp.links.length - 1 = k := by omega
        have hdrop : lp.links.drop (k + 1) = [] := List.drop_eq_nil_of_le (by omega)
        have hcond : ¬ (1 ≤ k ∧ k + 1 < lp.links.length) := fun hh => hkm hh.2
        simp only [hcond, if_false, hle, decide_False, Bool.false_and, hdrop, List.filter_nil]
        rw [hkeq]
        simp
  · rw [hc]
    have hskip := skipCount_eq T lp k hk
    simp only at hskip ⊢
    rw [hk, hskip]
    have hd0 : lp.isDownward 0 = decide (k ≤ 0) := isDownward_natCast lp k 0 hk
    rw [hd0]
    by_cases hk0 : k = 0
    · subst hk0
      simp
    · have hk1 : ¬ k ≤ 0 := by omega
      simp only [hk1, decide_False, Bool.false_eq_true, if_false, List.drop_zero, Nat.sub_zero]
      have htt : (lp.links.take (lp.links.length - 1)).take k = lp.links.take k := by
        rw [List.take_take]
        congr 1
        omega
      rw [htt]
      have hlen : (lp.links.take k).length = k := by
        rw [List.length_take]
        omega
      have hsum := List.length_eq_countP_add_countP (isJointAt T) (lp.links.take k)
      rw [hlen] at hsum
      rw [← List.countP_eq_length_filter]
      have hnot : (lp.links.take k).countP (fun l => !isJointAt T l)
          = (lp.links.take k).countP (fun a => ¬ isJointAt T a = true) := by
        apply List.countP_congr
        intro a _
        simp
      rw [hnot]
      omega

/-- The joints of a found path are a duplicate-free list of actuated links. -/
theorem found_joints_props {T : Body} {P : List Nat} (hnd : P.Nodup) (k : Nat) (c : Prop)
    [Decidable c] :
    ((P.take k).filter (isJointAt T) ++
        (if c then (P.drop k).filter (isJointAt T)
          else (P.drop (k + 1)).filter (isJointAt T))).Nodup ∧
    (∀ l ∈ (P.take k).filter (isJointAt T) ++
        (if c then (P.drop k).filter (isJointAt T)
          else (P.drop (k + 1)).filter (isJointAt T)), isJointAt T l = true) ∧
    (∀ l ∈ (if c then (P.drop k).filter (isJointAt T)
          else (P.drop (k + 1)).filter (isJointAt T)), l ∈ P.drop k) := by
  have hX : (if c then (P.drop k).filter (isJointAt T)
      else (P.drop (k + 1)).filter (isJointAt T)).Sublist (P.drop k) := by
    split
    · exact List.filter_sublist _
    · refine (List.filter_sublist _).trans ?_
      rw [← List.drop_drop]
      exact List.drop_sublist _ _
  have hXa : ∀ l ∈ (if c then (P.drop k).filter (isJointAt T)
      else (P.drop (k + 1)).filter (isJointAt T)), isJointAt T l = true := by
    intro l hl
    split at hl
    · exact (List.mem_filter.1 hl).2
    · exact (List.mem_filter.1 hl).2
  refine ⟨?_, ?_, fun l hl => hX.subset hl⟩
  · have hs := List.Sublist.append (List.filter_sublist (p := isJointAt T) (P.take k)) hX
    rw [List.take_append_drop] at hs
    exact hs.nodup hnd
  · intro l hl
    rcases List.mem_append.1 hl with h | h
    · exact (List.mem_filter.1 h).2
    · exact hXa l h

theorem take_drop_disjoint {P : List Nat} (hnd : P.Nodup) (k : Nat) {l : Nat}
    (h1 : l ∈ P.take k) (h2 : l ∈ P.drop k) : False := by
  have h := hnd
  rw [← List.take_append_drop k P] at h
  exact (List.nodup_append.1 h).2.2 h1 h2

/-- The facts about a found path and the facts about its joints, for one and the same `k`. -/
theorem found_extract {T : Body} (hT : WellFormed T) {fuel root : Nat} {end_ : Ptr}
    {self lp : LinkPath} (h : LinkPath.find T fuel root end_ self = some (true, lp))
    (hn : 2 ≤ lp.links.length) (js : List Nat) (nj : Int) (err : ℚ) (mode : Bool) :
    ∃ (jp : JointPath) (k : Nat), lp.numUpwardConnections = (k : Int) ∧
      k + 1 ≤ lp.links.length ∧ Directed T k lp.links ∧ lp.links.Nodup ∧
      JointPath.extractJoints T ⟨lp, js, nj, err, mode⟩ = some jp ∧ jp.toLinkPath = lp ∧
      jp.joints = (lp.links.take k).filter (isJointAt T) ++
        (if 1 ≤ k ∧ k + 1 < lp.links.length then (lp.links.drop k).filter (isJointAt T)
          else (lp.links.drop (k + 1)).filter (isJointAt T)) ∧
      jp.numUpwardJointConnections = (((lp.links.take k).filter (isJointAt T)).length : Int) := by
  obtain ⟨e, k', -, hk', hdir, hnd, -, -, -, -⟩ := found_path hT h
  obtain ⟨jp, k, hk, hkn, hjp, hlp, hj, hc⟩ := found_joints hT h hn js nj err mode
  have hkk : k' = k := by
    have := hk'.symm.trans hk
    exact_mod_cast this
  rw [hkk] at hdir
  exact ⟨jp, k, hk, hkn, hdir, hnd, hjp, hlp, hj, hc⟩

theorem getLast?_filter_append_last {p : Nat → Bool} (A l : List Nat) (z : Nat)
    (hz : p z = true) : (A ++ (l ++ [z]).filter p).getLast? = some z := by
  rw [List.filter_append, ← List.append_assoc]
  simp [hz]

theorem drop_append_pair (pre : List Nat) (y z : Nat) (j : Nat) (hj : j ≤ pre.length + 1) :
    (pre ++ [y, z]).drop j = (pre ++ [y]).drop j ++ [z] := by
  have : pre ++ [y, z] = (pre ++ [y]) ++ [z] := by simp
  rw [this, List.drop_append_of_le_length (by simpa using hj)]

theorem ikRounds_succ (n k : Nat) :
    ikRounds n (k + 1) = [IKEvent.jacobian, if n = 6 then IKEvent.solveLU else IKEvent.solveSVD,
      IKEvent.forwardKinematics] ++ ikRounds n k := by
  simp [ikRounds, List.replicate_succ]

theorem ikRounds_count (n k : Nat) :
    (ikRounds n k).count IKEvent.jacobian = k ∧
    (ikRounds n k).count IKEvent.forwardKinematics = k ∧
    (ikRounds n k).count IKEvent.solveLU = (if n = 6 then k else 0) ∧
    (ikRounds n k).count IKEvent.solveSVD = (if n = 6 then 0 else k) := by
  induction k with
  | zero => simp [ikRounds]
  | succ k ih =>
    obtain ⟨h1, h2, h3, h4⟩ := ih
    rw [ikRounds_succ]
    by_cases hn : n = 6
    · subst hn
      simp only [if_true] at h3 h4 ⊢
      simp [List.count_cons, h1, h2, h3, h4]
    · simp only [hn, if_false] at h3 h4 ⊢
      simp [List.count_cons, h1, h2, h3, h4]

theorem ikUpdate_trace {env : IKEnv} {self : JointPath} {dp omega : Vector3} {st st3 : IKState}
    (h : self.ikUpdate env dp omega st = some st3) :
    st3.trace = st.trace ++ [if self.joints.length = 6 then IKEvent.solveLU
      else IKEvent.solveSVD, IKEvent.forwardKinematics] := by
  unfold JointPath.ikUpdate at h
  simp only at h
  split at h
  · exact absurd h (by simp)
  · rw [← Option.some.inj h]

theorem setQ_some {T : Body} {link : Nat} (v : ℚ) (h : link < T.length) :
    ∃ T1, setQ T link v = some T1 ∧ T1.length = T.length := by
  unfold setQ
  rw [List.getElem?_eq_getElem h]
  exact ⟨_, rfl, List.length_set _ _ _⟩

theorem applyDq_some (fl : ℚ → ℚ) (dq : dvector) : ∀ (joints : List Nat) (j : Nat) (T : Body),
    (∀ l ∈ joints, l < T.length) →
      ∃ T1, applyDq fl dq joints j T = some T1 ∧ T1.length = T.length := by
  intro joints
  induction joints with
  | nil => exact fun j T _ => ⟨T, rfl, rfl⟩
  | cons l rest ih =>
    intro j T hv
    have hl : l < T.length := hv l (List.mem_cons_self _ _)
    obtain ⟨T1, h1, hlen⟩ := setQ_some (fl (T[l].q + fl (LAMBDA fl * dq j))) hl
    obtain ⟨T2, h2, hlen2⟩ := ih (j + 1) T1 (fun l' hl' => by
      rw [hlen]
      exact hv l' (List.mem_cons_of_mem _ hl'))
    refine ⟨T2, ?_, hlen2.trans hlen⟩
    rw [applyDq, List.getElem?_eq_getElem hl]
    simp only
    rw [h1]
    exact h2

theorem restoreQ_some : ∀ (links : List Nat) (qs : List ℚ) (T : Body),
    (∀ l ∈ links, l < T.length) → ∃ T1, restoreQ links qs T = some T1 := by
  intro links
  induction links with
  | nil =>
    intro qs T _
    exact ⟨T, by cases qs <;> rfl⟩
  | cons l rest ih =>
    intro qs T hv
    cases qs with
    | nil => exact ⟨T, rfl⟩
    | cons q0 qs =>
      have hl : l < T.length := hv l (List.mem_cons_self _ _)
      obtain ⟨T1, h1, hlen⟩ := setQ_some q0 hl
      obtain ⟨T2, h2⟩ := ih qs T1 (fun l' hl' => by
        rw [hlen]
        exact hv l' (List.mem_cons_of_mem _ hl'))
      refine ⟨T2, ?_⟩
      rw [restoreQ, h1]
      exact h2

theorem saveQ_some (T : Body) : ∀ (links : List Nat), (∀ l ∈ links, l < T.length) →
    ∃ qs, saveQ T links = some qs := by
  intro links
  induction links with
  | nil => exact fun _ => ⟨[], rfl⟩
  | cons l rest ih =>
    intro hv
    have hl : l < T.length := hv l (List.mem_cons_self _ _)
    obtain ⟨qs, hqs⟩ := ih (fun l' hl' => hv l' (List.mem_cons_of_mem _ hl'))
    refine ⟨T[l].q :: qs, ?_⟩
    rw [saveQ, List.getElem?_eq_getElem hl]
    simp only
    rw [hqs]

/-- The Jacobian is built whenever the joints and the end link are links of the arena. -/
theorem calcJacobian_some (fl : ℚ → ℚ) (T : Body) (self : JointPath) (out_J : dmatrix)
    (hj : ∀ j ∈ self.joints, j < T.length) {t : Nat} (ht : self.links.getLast? = some t)
    (htv : t < T.length) : ∃ J, self.calcJacobian fl T out_J = some J := by
  unfold JointPath.calcJacobian
  by_cases hn : 0 < self.joints.length
  · simp only [hn, if_true, ht]
    rw [List.getElem?_eq_getElem htv]
    simp only
    obtain ⟨J', hJ', -⟩ := jacobianLoop_spec fl T self T[t] self.joints.length le_rfl hj
      (self.joints.length + 1) 0 (out_J.resize 6 self.joints.length) (by omega)
    exact ⟨J', hJ'⟩
  · simp only [hn, if_false]
    exact ⟨_, rfl⟩

/-- With the joints and the end link in the arena, and forward kinematics that keeps the size
of the arena, the loop returns and keeps the size of the arena. -/
theorem ikLoop_some (env : IKEnv) (self : JointPath) (target : Nat) (end_p : Vector3)
    (end_R : Matrix33) (N : Nat) (hj : ∀ j ∈ self.joints, j < N)
    (ht : self.links.getLast? = some target) (htv : target < N)
    (hfk : ∀ (P : JointPath) (B : Body), (env.calcForwardKinematics P B).length = B.length) :
    ∀ (left : Nat) (st : IKState), st.body.length = N →
      ∃ b st', self.ikLoop env target end_p end_R left st = some (b, st') ∧
        st'.body.length = N := by
  intro left
  induction left with
  | zero => exact fun st hst => ⟨false, st, rfl, hst⟩
  | succ left ih =>
    intro st hst
    obtain ⟨J, hJ⟩ := calcJacobian_some env.fl st.body self st.J (fun j hjm => hst ▸ hj j hjm) ht
      (hst ▸ htv)
    have htl : st.body[target]? = some st.body[target] :=
      List.getElem?_eq_getElem (hst ▸ htv)
    have herr : ∃ dp omega st1, self.ikError env target end_p end_R st = some (dp, omega, st1) ∧
        st1.body = st.body := by
      unfold JointPath.ikError
      rw [hJ]
      simp only
      rw [htl]
      exact ⟨_, _, _, rfl, rfl⟩
    obtain ⟨dp, omega, st1, herr, hb1⟩ := herr
    have hupd : ∀ st2 : IKState, st2.body = st1.body →
        ∃ st3, self.ikUpdate env dp omega st2 = some st3 ∧ st3.body.length = N := by
      intro st2 hb2
      obtain ⟨T1, hT1, hlen⟩ := applyDq_some env.fl
        (if self.joints.length = 6 then env.solveLinearEquationLU st2.J (packPose dp omega) st2.dq
          else env.solveLinearEquationSVD st2.J (packPose dp omega) st2.dq)
        self.joints 0 st2.body (fun l hl => by
          rw [hb2, hb1, hst]
          exact hj l hl)
      unfold JointPath.ikUpdate
      simp only
      rw [hT1]
      exact ⟨_, rfl, by simp only; rw [hfk, hlen, hb2, hb1, hst]⟩
    have go : ∀ st2 : IKState, st2.body = st1.body →
        ∃ b st', (match self.ikUpdate env dp omega st2 with
          | none => none
          | some st3 => self.ikLoop env target end_p end_R left st3) = some (b, st') ∧
          st'.body.length = N := by
      intro st2 hb2
      obtain ⟨st3, h3, hlen3⟩ := hupd st2 hb2
      rw [h3]
      exact ih st3 hlen3
    rw [JointPath.ikLoop, herr]
    simp only
    split
    · split
      · exact ⟨true, _, rfl, by simp only; rw [hb1, hst]⟩
      · exact go ⟨st1.body, st1.J, st1.dq, env.fl (dot env.fl dp dp + dot env.fl omega omega), st1.trace⟩ rfl
    · split
      · exact ⟨true, _, rfl, by rw [hb1, hst]⟩
      · exact go st1 rfl

theorem toolBody_par : ∀ i p, par toolBody i = some p →
    (i = 1 ∧ p = 0) ∨ (i = 2 ∧ p = 1) ∨ (i = 3 ∧ p = 0) ∨ (i = 4 ∧ p = 3) := by
  intro i p h
  have hi : i < 5 := par_lt_length h
  interval_cases i <;> simp [par, toolBody, toolLink] at h <;> omega

theorem toolBody_wf : WellFormed toolBody := by
  refine ⟨?_, ?_, acyclic_of_rank (fun i => i) ?_⟩
  · intro i L hL
    have hi : i < 5 := by
      by_contra hlt
      rw [List.getElem?_eq_none (Nat.le_of_not_lt hlt)] at hL
      exact absurd hL (by simp)
    have hch : ∀ (c : Nat) (C : Link), toolBody[c]? = some C → C.sibling = none →
        SibChain toolBody (some c) [c] := fun c C h1 h2 =>
      SibChain.cons h1 (h2 ▸ SibChain.nil)
    interval_cases i
    · obtain rfl : toolLink "BASE" none (some 1) none JointType.FIXED_JOINT ⟨0, 0, 0⟩ = L :=
        Option.some.inj hL
      refine ⟨[1, 3], SibChain.cons (C := toolBody[1]) rfl (hch 3 _ rfl rfl), fun j => ?_⟩
      constructor
      · intro hj
        simp only [List.mem_cons, List.mem_singleton, List.not_mem_nil, or_false] at hj
        rcases hj with rfl | rfl <;> rfl
      · intro hj
        rcases toolBody_par j 0 hj with h | h | h | h <;> simp [h.1] <;> omega
    · obtain rfl : toolLink "MOUNT" (some 0) (some 2) (some 3) JointType.FIXED_JOINT
          ⟨0, 0, 0⟩ = L := Option.some.inj hL
      refine ⟨[2], hch 2 _ rfl rfl, fun j => ?_⟩
      constructor
      · intro hj
        simp only [List.mem_cons, List.mem_singleton, List.not_mem_nil, or_false] at hj
        rcases hj with rfl
        rfl
      · intro hj
        rcases toolBody_par j 1 hj with h | h | h | h <;> simp [h.1] <;> omega
    · obtain rfl : toolLink "TOOL" (some 1) none none JointType.ROTATIONAL_JOINT
          ⟨0, 0, 0⟩ = L := Option.some.inj hL
      refine ⟨[], SibChain.nil, fun j => ?_⟩
      constructor
      · intro hj
        exact absurd hj (by simp)
      · intro hj
        rcases toolBody_par j 2 hj with h | h | h | h <;> omega
    · obtain rfl : toolLink "SHOULDER" (some 0) (some 4) none JointType.ROTATIONAL_JOINT
          ⟨1, 0, 0⟩ = L := Option.some.inj hL
      refine ⟨[4], hch 4 _ rfl rfl, fun j => ?_⟩
      constructor
      · intro hj
        simp only [List.mem_cons, List.mem_singleton, List.not_mem_nil, or_false] at hj
        rcases hj with rfl
        rfl
      · intro hj
        rcases toolBody_par j 3 hj with h | h | h | h <;> simp [h.1] <;> omega
    · obtain rfl : toolLink "ELBOW" (some 3) none none JointType.ROTATIONAL_JOINT
          ⟨2, 0, 0⟩ = L := Option.some.inj hL
      refine ⟨[], SibChain.nil, fun j => ?_⟩
      constructor
      · intro hj
        exact absurd hj (by simp)
      · intro hj
        rcases toolBody_par j 4 hj with h | h | h | h <;> omega
  · intro i p h
    rcases toolBody_par i p h with h | h | h | h <;> simp [h.2, toolBody]
  · intro i p h
    rcases toolBody_par i p h with h | h | h | h <;> simp [h.1, h.2]

theorem find_false_links {T : Body} {fuel root : Nat} {end_ : Ptr} {self lp : LinkPath}
    (h : LinkPath.find T fuel root end_ self = some (false, lp)) : lp.links = [] := by
  unfold LinkPath.find at h
  simp only at h
  cases hs : LinkPath.findPathSub T fuel root none end_ false ⟨[], 0⟩ with
  | none => rw [hs] at h; exact absurd h (by simp)
  | some r =>
    obtain ⟨found, s1⟩ := r
    rw [hs] at h
    cases found with
    | true =>
      simp only [Bool.not_true, Bool.false_eq_true, if_false, Option.some.injEq,
        Prod.mk.injEq] at h
      exact absurd h.1 (by simp)
    | false =>
      simp only [Bool.not_false, if_true, Option.some.injEq, Prod.mk.injEq] at h
      rw [← h.2]

theorem extractJoints_short_joints {T : Body} {self jp : JointPath}
    (hn : self.links.length ≤ 1) (h : JointPath.extractJoints T self = some jp) :
    jp.joints = [] := by
  unfold JointPath.extractJoints at h
  simp only [hn, if_true, Option.some.injEq] at h
  rw [← h]

theorem construct_props {T : Body} (hT : WellFormed T) {fuel a b : Nat} {P : JointPath}
    (h : JointPath.construct T fuel a (some b) = some P) (hne : P.joints ≠ []) :
    P.links.head? = some a ∧ P.links.getLast? = some b ∧ (∀ l ∈ P.links, l < T.length) ∧
      (∀ j ∈ P.joints, j < T.length) := by
  unfold JointPath.construct at h
  cases hf : LinkPath.find T fuel a (some b) ⟨[], 0⟩ with
  | none => rw [hf] at h; exact absurd h (by simp)
  | some r =>
    obtain ⟨found, lp⟩ := r
    rw [hf] at h
    simp only at h
    by_cases hlen : lp.links.length ≤ 1
    · exact absurd (extractJoints_short_joints hlen h) hne
    · have h2 : 2 ≤ lp.links.length := by omega
      cases found with
      | false =>
        have := find_false_links hf
        rw [this] at h2
        exact absurd h2 (by simp)
      | true =>
        obtain ⟨e, k, he, -, -, -, -, hhead, hlast, hval⟩ := found_path hT hf
        obtain rfl : b = e := Option.some.inj he
        have hv := hval h2
        obtain ⟨jp, hjp, hlp, -, -, hjs⟩ :=
          extractJoints_spec T ⟨lp, [], 0, initialMaxIKErrorSqr, false⟩ hv
        obtain rfl : jp = P := Option.some.inj (hjp.symm.trans h)
        have hl : jp.links = lp.links := by rw [hlp]
        refine ⟨by rw [hl]; exact hhead, by rw [hl]; exact hlast, by rw [hl]; exact hv, ?_⟩
        intro j hj
        rw [hjs] at hj
        exact hv j ((jointsOf_sublist T _).subset hj)

theorem construct_total {T : Body} (hT : WellFormed T) (a : Nat) (ha : a < T.length)
    (end_ : Ptr) :
    ∃ N, ∀ fuel, N ≤ fuel → ∃ P, JointPath.construct T fuel a end_ = some P := by
  obtain ⟨N, hN⟩ := findPathSub_terminates hT a ha
  refine ⟨N, fun fuel hfuel => ?_⟩
  obtain ⟨⟨found, s⟩, hs0⟩ := hN none end_ false ⟨[], 0⟩
  have hs := findPathSub_mono T hfuel hs0
  unfold JointPath.construct
  cases found with
  | false =>
    rw [find_of_sub_false hs]
    exact ⟨_, extractJoints_short T _ (by simp)⟩
  | true =>
    have hf := find_of_sub_true hs ⟨[], 0⟩
    rw [hf]
    simp only
    by_cases hlen : s.links.length ≤ 1
    · exact ⟨_, extractJoints_short T _ hlen⟩
    · obtain ⟨e, k, -, -, -, -, -, -, -, hval⟩ := found_path hT hf
      obtain ⟨jp, hjp, -⟩ :=
        extractJoints_spec T ⟨s, [], 0, initialMaxIKErrorSqr, false⟩
          (hval (by omega))
      exact ⟨jp, hjp⟩

theorem setQ_eq {T T1 : Body} {link : Nat} {v : ℚ} (h : setQ T link v = some T1) :
    ∃ L, T[link]? = some L ∧ link < T.length ∧
      T1 = T.set link ⟨L.name, L.parent, L.child, L.sibling, L.jointType, v, L.p, L.R, L.a,
        L.d, L.Rs⟩ := by
  unfold setQ at h
  cases hL : T[link]? with
  | none =>
    rw [hL] at h
    exact absurd h (by simp)
  | some L =>
    rw [hL] at h
    have hlt : link < T.length := by
      by_contra hlt
      rw [List.getElem?_eq_none (Nat.le_of_not_lt hlt)] at hL
      exact absurd hL (by simp)
    exact ⟨L, rfl, hlt, (Option.some.inj h).symm⟩

/-- The update loop advances the joint value of the link of each joint once, by 0.9 times its
own step, and changes nothing else, when the joints are pairwise distinct. -/
theorem applyDq_spec (fl : ℚ → ℚ) (dq : dvector) :
    ∀ (joints : List Nat) (j0 : Nat) (B U : Body), joints.Nodup →
      applyDq fl dq joints j0 B = some U →
        U.length = B.length ∧ (∀ l, l ∉ joints → U[l]? = B[l]?) ∧
        ∀ (j l : Nat) (L : Link), joints[j]? = some l → B[l]? = some L →
          U[l]? = some (dampedLink fl L (dq (j0 + j))) := by
  intro joints
  induction joints with
  | nil =>
    intro j0 B U _ h
    obtain rfl : B = U := by simpa [applyDq] using h
    exact ⟨rfl, fun _ _ => rfl, fun j l L hj => absurd hj (by simp)⟩
  | cons l0 rest ih =>
    intro j0 B U hnd h
    rw [applyDq] at h
    cases hL0 : B[l0]? with
    | none =>
      rw [hL0] at h
      exact absurd h (by simp)
    | some L0 =>
      rw [hL0] at h
      simp only at h
      cases hs : setQ B l0 (fl (L0.q + fl (LAMBDA fl * dq j0))) with
      | none =>
        rw [hs] at h
        exact absurd h (by simp)
      | some T1 =>
        rw [hs] at h
        simp only at h
        obtain ⟨L0', hL0', hlt, hT1⟩ := setQ_eq hs
        obtain rfl : L0 = L0' := Option.some.inj (hL0.symm.trans hL0')
        obtain ⟨hnot, hnd'⟩ := List.nodup_cons.1 hnd
        obtain ⟨hlen, hother, hjoint⟩ := ih (j0 + 1) T1 U hnd' h
        have hT1len : T1.length = B.length := by rw [hT1, List.length_set]
        have hT1other : ∀ l, l ≠ l0 → T1[l]? = B[l]? := by
          intro l hl
          rw [hT1]
          exact List.getElem?_set_ne (Ne.symm hl)
        have hT1self : T1[l0]? = some (dampedLink fl L0 (dq j0)) := by
          rw [hT1, List.getElem?_set_self hlt]
          rfl
        refine ⟨hlen.trans hT1len, fun l hl => ?_, fun j l L hj hL => ?_⟩
        · have h1 : l ≠ l0 := fun e => hl (e ▸ List.mem_cons_self _ _)
          have h2 : l ∉ rest := fun e => hl (List.mem_cons_of_mem _ e)
          rw [hother l h2, hT1other l h1]
        · cases j with
          | zero =>
            obtain rfl : l0 = l := by simpa using hj
            obtain rfl : L0 = L := Option.some.inj (hL0.symm.trans hL)
            rw [hother l0 hnot, hT1self]
            rfl
          | succ j =>
            have hj' : rest[j]? = some l := by simpa using hj
            have hmem : l ∈ rest := List.getElem?_mem hj'
            have hne : l ≠ l0 := fun e => hnot (e ▸ hmem)
            have := hjoint j l L hj' (by rw [hT1other l hne]; exact hL)
            rw [this]
            congr 3
            omega

/-- One round of the loop that does not stop is one full iteration as the spec describes it. -/
theorem ikRound_damped {env : IKEnv} {self : JointPath} {target : Nat} {end_p : Vector3}
    {end_R : Matrix33} (hnd : self.joints.Nodup) {st st1 st2 st3 : IKState}
    {dp omega : Vector3}
    (herr : self.ikError env target end_p end_R st = some (dp, omega, st1))
    (hb : st2.body = st1.body) (hJ : st2.J = st1.J) (hdq : st2.dq = st1.dq)
    (hupd : self.ikUpdate env dp omega st2 = some st3) :
    DampedRound env self target end_p end_R (st.body, st.J, st.dq)
      (st3.body, st3.J, st3.dq) := by
  unfold JointPath.ikError at herr
  cases hcj : self.calcJacobian env.fl st.body st.J with
  | none =>
    rw [hcj] at herr
    exact absurd herr (by simp)
  | some J =>
    rw [hcj] at herr
    simp only at herr
    cases htl : st.body[target]? with
    | none =>
      rw [htl] at herr
      exact absurd herr (by simp)
    | some targetLink =>
      rw [htl] at herr
      simp only at herr
      have h' := Option.some.inj herr
      have e1 : dp = end_p.sub env.fl targetLink.p := (congrArg (fun r => r.1) h').symm
      have e2 : omega = targetLink.R.mulVec env.fl
          (env.omegaFromRot ((trans targetLink.R).mul env.fl end_R)) :=
        (congrArg (fun r => r.2.1) h').symm
      have e3 : st1 = ⟨st.body, J, st.dq, st.errsqr, st.trace ++ [IKEvent.jacobian]⟩ :=
        (congrArg (fun r => r.2.2) h').symm
      have hb1 : st2.body = st.body := by rw [hb, e3]
      have hJ1 : st2.J = J := by rw [hJ, e3]
      have hdq1 : st2.dq = st.dq := by rw [hdq, e3]
      unfold JointPath.ikUpdate at hupd
      simp only at hupd
      rw [hb1, hJ1, hdq1] at hupd
      have hv : packPose dp omega = poseError env targetLink end_p end_R := by
        rw [e1, e2]
        rfl
      rw [hv] at hupd
      split at hupd
      · exact absurd hupd (by simp)
      · rename_i U hU
        have h3 := Option.some.inj hupd
        obtain ⟨h1, h2, h4⟩ := applyDq_spec env.fl _ self.joints 0 st.body U hnd hU
        refine ⟨J, targetLink, U, hcj, htl, ⟨h1, h2, fun j l L hj hL => ?_⟩, ?_⟩
        · have := h4 j l L hj hL
          rw [Nat.zero_add] at this
          exact this
        · rw [← h3]

/-- The rounds of the loop: some number `k` of full iterations as the spec describes them,
then one more Jacobian when it stops converged; `k` is below the number of rounds left when it
converges and equal to it when it does not, and the arena at loop exit is the arena after
these `k` iterations. -/
theorem ikLoop_rounds (env : IKEnv) (self : JointPath) (target : Nat) (end_p : Vector3)
    (end_R : Matrix33) (hnd : self.joints.Nodup) :
    ∀ (left : Nat) (st st' : IKState) (b : Bool),
      self.ikLoop env target end_p end_R left st = some (b, st') →
        ∃ (k : Nat) (sk : Body × dmatrix × dvector), k ≤ left ∧
          st'.trace = st.trace ++ ikRounds self.joints.length k ++
            (if b then [IKEvent.jacobian] else []) ∧
          (b = true → k < left) ∧ (b = false → k = left) ∧
          DampedRounds env self target end_p end_R k (st.body, st.J, st.dq) sk ∧
          st'.body = sk.1 := by
  intro left
  induction left with
  | zero =>
    intro st st' b h
    obtain ⟨rfl, rfl⟩ : false = b ∧ st = st' := by
      simpa [JointPath.ikLoop] using h
    exact ⟨0, _, le_rfl, by simp [ikRounds], fun h => absurd h (by simp), fun _ => rfl,
      DampedRounds.zero _, rfl⟩
  | succ left ih =>
    intro st st' b h
    rw [JointPath.ikLoop] at h
    cases herr : self.ikError env target end_p end_R st with
    | none =>
      rw [herr] at h
      exact absurd h (by simp)
    | some r =>
      obtain ⟨dp, omega, st1⟩ := r
      rw [herr] at h
      simp only at h
      obtain ⟨hb1, ht1⟩ := ikError_body_trace herr
      have stop : ∀ st2 : IKState, st2.trace = st1.trace → st2.body = st1.body →
          some (true, st2) = some (b, st') →
          ∃ (k : Nat) (sk : Body × dmatrix × dvector), k ≤ left + 1 ∧
            st'.trace = st.trace ++ ikRounds self.joints.length k ++
              (if b then [IKEvent.jacobian] else []) ∧
            (b = true → k < left + 1) ∧ (b = false → k = left + 1) ∧
            DampedRounds env self target end_p end_R k (st.body, st.J, st.dq) sk ∧
            st'.body = sk.1 := by
        intro st2 ht2 hb2 hh
        obtain ⟨rfl, rfl⟩ : true = b ∧ st2 = st' := by simpa using hh
        exact ⟨0, _, Nat.zero_le _, by simp [ikRounds, ht2, ht1], fun _ => Nat.succ_pos _,
          fun h => absurd h (by simp), DampedRounds.zero _, by rw [hb2, hb1]⟩
      have go : ∀ st2 : IKState, st2.trace = st1.trace → st2.body = st1.body →
          st2.J = st1.J → st2.dq = st1.dq →
          (match self.ikUpdate env dp omega st2 with
            | none => none
            | some st3 => self.ikLoop env target end_p end_R left st3) = some (b, st') →
          ∃ (k : Nat) (sk : Body × dmatrix × dvector), k ≤ left + 1 ∧
            st'.trace = st.trace ++ ikRounds self.joints.length k ++
              (if b then [IKEvent.jacobian] else []) ∧
            (b = true → k < left + 1) ∧ (b = false → k = left + 1) ∧
            DampedRounds env self target end_p end_R k (st.body, st.J, st.dq) sk ∧
            st'.body = sk.1 := by
        intro st2 ht2 hb2 hJ2 hdq2 hh
        cases hupd : self.ikUpdate env dp omega st2 with
        | none =>
          rw [hupd] at hh
          exact absurd hh (by simp)
        | some st3 =>
          rw [hupd] at hh
          obtain ⟨k, sk, hk, htr, hbt, hbf, hrounds, hbody⟩ := ih st3 st' b hh
          refine ⟨k + 1, sk, by omega, ?_, fun hb => by have := hbt hb; omega,
            fun hb => by have := hbf hb; omega,
            DampedRounds.step (ikRound_damped hnd herr hb2 hJ2 hdq2 hupd) hrounds, hbody⟩
          rw [htr, ikUpdate_trace hupd, ht2, ht1, ikRounds_succ]
          simp
      split at h
      · split at h
        · exact stop ⟨st1.body, st1.J, st1.dq,
            env.fl (dot env.fl dp dp + dot env.fl omega omega), st1.trace⟩ rfl rfl h
        · exact go ⟨st1.body, st1.J, st1.dq,
            env.fl (dot env.fl dp dp + dot env.fl omega omega), st1.trace⟩ rfl rfl rfl rfl h
      · split at h
        · exact stop st1 rfl rfl h
        · exact go st1 rfl rfl rfl rfl h

/-- The state after `k` damped updates is reached by `k` full iterations as the spec
describes them. -/
theorem ikStateAfter_rounds (env : IKEnv) (self : JointPath) (target : Nat) (end_p : Vector3)
    (end_R : Matrix33) (hnd : self.joints.Nodup) :
    ∀ (k : Nat) (st stk : IKState),
      self.ikStateAfter env target end_p end_R k st = some stk →
        DampedRounds env self target end_p end_R k (st.body, st.J, st.dq)
          (stk.body, stk.J, stk.dq) := by
  intro k
  induction k with
  | zero =>
    intro st stk h
    obtain rfl : st = stk := by simpa [JointPath.ikStateAfter] using h
    exact DampedRounds.zero _
  | succ k ih =>
    intro st stk h
    rw [JointPath.ikStateAfter] at h
    cases hr : self.ikRound env target end_p end_R st with
    | none =>
      rw [hr] at h
      exact absurd h (by simp)
    | some st3 =>
      rw [hr] at h
      simp only at h
      unfold JointPath.ikRound at hr
      cases herr : self.ikError env target end_p end_R st with
      | none =>
        rw [herr] at hr
        exact absurd hr (by simp)
      | some r =>
        obtain ⟨dp, omega, st1⟩ := r
        rw [herr] at hr
        simp only at hr
        exact DampedRounds.step (ikRound_damped hnd herr rfl rfl rfl hr) (ih st3 stk h)

theorem calcJacobian_entry (fl : ℚ → ℚ) (T : Body) (self : JointPath) (out_J : dmatrix)
    (hj : ∀ j ∈ self.joints, j < T.length) {t : Nat} {targetLink : Link}
    (htl : self.links.getLast? = some t) (hT : T[t]? = some targetLink) :
    ∃ J, self.calcJacobian fl T out_J = some J ∧
      ∀ (i j : Nat) (link : Link), self.joints[i]? = some j → T[j]? = some link →
        ∀ r, r < 6 →
          J.data r i = columnEntry fl link targetLink.p (self.isJointDownward i) r := by
  unfold JointPath.calcJacobian
  by_cases hn : 0 < self.joints.length
  · simp only [hn, if_true]
    rw [htl]
    simp only
    rw [hT]
    simp only
    obtain ⟨J', hJ', -, -, -, hcols⟩ :=
      jacobianLoop_spec fl T self targetLink self.joints.length le_rfl hj
        (self.joints.length + 1) 0 (out_J.resize 6 self.joints.length) (by omega)
    refine ⟨J', hJ', fun i j link hij hlink r hr => ?_⟩
    obtain ⟨hi, hget⟩ := List.getElem?_eq_some_iff.1 hij
    exact hcols i hi (Nat.zero_le _) hi link (by rw [hget]; exact hlink) r hr
  · simp only [hn, if_false]
    refine ⟨_, rfl, fun i j link hij => ?_⟩
    obtain ⟨hi, -⟩ := List.getElem?_eq_some_iff.1 hij
    exact absurd (lt_of_le_of_lt (Nat.zero_le _) hi) hn

/-- With a sign-symmetric rounding that fixes `double` values, multiplying a computed vector
by `-1.0` negates it exactly. -/
theorem mulVec_scale_neg_one {fl : ℚ → ℚ} (hodd : ∀ x, fl (-x) = -fl x)
    (hfix : ∀ x, fl (fl x) = fl x) (M : Matrix33) (v : Vector3) :
    (M.mulVec fl v).scale fl (-1) = (M.mulVec fl v).neg := by
  simp only [Vector3.scale, Vector3.neg, Matrix33.mulVec, dot, mul_neg, mul_one, hodd, hfix]

/-- With a sign-symmetric rounding, the vector product with a negated first factor is the
negated vector product. -/
theorem cross_neg_left {fl : ℚ → ℚ} (hodd : ∀ x, fl (-x) = -fl x) (w v : Vector3) :
    cross fl w.neg v = (cross fl w v).neg := by
  have h : ∀ a b : ℚ, fl (-a - -b) = -fl (a - b) := by
    intro a b
    rw [← hodd]
    congr 1
    ring
  simp only [cross, Vector3.neg, neg_mul, hodd, h]

/-- The signed axis of a column: the axis when the joint is flagged downward, its negation
otherwise. -/
theorem columnEntry_rot {fl : ℚ → ℚ} (hodd : ∀ x, fl (-x) = -fl x)
    (hfix : ∀ x, fl (fl x) = fl x) (link : Link) (p : Vector3) (d : Bool)
    (hs : link.jointType = JointType.ROTATIONAL_JOINT) :
    columnEntry fl link p d 0 =
      (cross fl (if d then link.R.mulVec fl link.a else (link.R.mulVec fl link.a).neg)
        (p.sub fl link.p)).x ∧
    columnEntry fl link p d 1 =
      (cross fl (if d then link.R.mulVec fl link.a else (link.R.mulVec fl link.a).neg)
        (p.sub fl link.p)).y ∧
    columnEntry fl link p d 2 =
      (cross fl (if d then link.R.mulVec fl link.a else (link.R.mulVec fl link.a).neg)
        (p.sub fl link.p)).z := by
  unfold columnEntry
  rw [hs]
  cases d <;> simp [mulVec_scale_neg_one hodd hfix]

theorem columnEntry_rot_reversed {fl : ℚ → ℚ} (hodd : ∀ x, fl (-x) = -fl x)
    (hfix : ∀ x, fl (fl x) = fl x) (link : Link) (p : Vector3) (d : Bool)
    (hs : link.jointType = JointType.ROTATIONAL_JOINT) :
    columnEntry fl link p (!d) 0 =
      -(cross fl (if d then link.R.mulVec fl link.a else (link.R.mulVec fl link.a).neg)
        (p.sub fl link.p)).x ∧
    columnEntry fl link p (!d) 1 =
      -(cross fl (if d then link.R.mulVec fl link.a else (link.R.mulVec fl link.a).neg)
        (p.sub fl link.p)).y ∧
    columnEntry fl link p (!d) 2 =
      -(cross fl (if d then link.R.mulVec fl link.a else (link.R.mulVec fl link.a).neg)
        (p.sub fl link.p)).z := by
  obtain ⟨h0, h1, h2⟩ := columnEntry_rot hodd hfix link p (!d) hs
  rw [h0, h1, h2]
  cases d
  · simp only [Bool.not_false, if_true, Bool.false_eq_true, if_false]
    rw [cross_neg_left hodd]
    simp [Vector3.neg]
  · simp only [Bool.not_true, if_true, Bool.false_eq_true, if_false]
    rw [cross_neg_left hodd]
    simp [Vector3.neg]

theorem columnEntry_angular_reversed {fl : ℚ → ℚ} (hodd : ∀ x, fl (-x) = -fl x)
    (hfix : ∀ x, fl (fl x) = fl x) (link : Link) (pA pB : Vector3) (d : Bool) (r : Nat)
    (h3 : 3 ≤ r) : columnEntry fl link pA (!d) r = -columnEntry fl link pB d r := by
  unfold columnEntry
  cases link.jointType <;> cases d <;>
    rcases r with _ | _ | _ | _ | _ | _ | r <;>
    simp [mulVec_scale_neg_one hodd hfix, Vector3.neg] at h3 ⊢

theorem columnEntry_slide_reversed {fl : ℚ → ℚ} (hodd : ∀ x, fl (-x) = -fl x)
    (hfix : ∀ x, fl (fl x) = fl x) (link : Link) (pA pB : Vector3) (d : Bool) (r : Nat)
    (hs : link.jointType = JointType.SLIDE_JOINT) :
    columnEntry fl link pA (!d) r = -columnEntry fl link pB d r := by
  unfold columnEntry
  rw [hs]
  cases d <;> rcases r with _ | _ | _ | r <;>
    simp [mulVec_scale_neg_one hodd hfix, Vector3.neg]

theorem vector3_ext {u v : Vector3} (hx : u.x = v.x) (hy : u.y = v.y) (hz : u.z = v.z) :
    u = v := by
  cases u
  cases v
  simp only [Vector3.mk.injEq]
  exact ⟨hx, hy, hz⟩

/-- The columns of a joint that occurs in the joint paths from `a` to `b` and from `b` to `a`
with reversed direction flags. -/
theorem reversed_columns_of_construct {T : Body} (hT : WellFormed T) (fl : ℚ → ℚ)
    {fuel1 fuel2 a b : Nat}
    {P1 P2 : JointPath} (out1 out2 : dmatrix) {i1 i2 j : Nat} {link : Link}
    (h1 : JointPath.construct T fuel1 a (some b) = some P1)
    (h2 : JointPath.construct T fuel2 b (some a) = some P2)
    (hj1 : P1.joints[i1]? = some j) (hj2 : P2.joints[i2]? = some j)
    (hflag : P2.isJointDownward i2 = !P1.isJointDownward i1)
    (hl : T[j]? = some link) :
    ∃ (J1 J2 : dmatrix) (A B : Link), P1.calcJacobian fl T out1 = some J1 ∧
      P2.calcJacobian fl T out2 = some J2 ∧ T[a]? = some A ∧ T[b]? = some B ∧
      (∀ r, r < 6 → J1.data r i1 = columnEntry fl link B.p (P1.isJointDownward i1) r) ∧
      (∀ r, r < 6 → J2.data r i2 = columnEntry fl link A.p (!P1.isJointDownward i1) r) := by
  have hne1 : P1.joints ≠ [] := by
    intro h
    rw [h] at hj1
    exact absurd hj1 (by simp)
  have hne2 : P2.joints ≠ [] := by
    intro h
    rw [h] at hj2
    exact absurd hj2 (by simp)
  obtain ⟨-, hlast1, hv1, hjv1⟩ := construct_props hT h1 hne1
  obtain ⟨-, hlast2, hv2, hjv2⟩ := construct_props hT h2 hne2
  have hb : b < T.length := hv1 b (List.mem_of_mem_getLast? hlast1)
  have ha : a < T.length := hv2 a (List.mem_of_mem_getLast? hlast2)
  have hA : T[a]? = some T[a] := List.getElem?_eq_getElem ha
  have hB : T[b]? = some T[b] := List.getElem?_eq_getElem hb
  obtain ⟨J1, hJ1, hc1⟩ := calcJacobian_entry fl T P1 out1 hjv1 hlast1 hB
  obtain ⟨J2, hJ2, hc2⟩ := calcJacobian_entry fl T P2 out2 hjv2 hlast2 hA
  refine ⟨J1, J2, T[a], T[b], hJ1, hJ2, hA, hB, fun r hr => hc1 i1 j link hj1 hl r hr,
    fun r hr => ?_⟩
  rw [hc2 i2 j link hj2 hl r hr, hflag]

/-! ## Claims -/

/-- C1: in a well-formed forest, for links `root` and `e` of the same tree,
`LinkPath::find(root, e)` terminates (every sufficiently large recursion budget gives the
same result, whatever the object held before), returns `true`, and leaves a link sequence
that starts at `root`, ends at `e`, has no repeated link, has every consecutive pair
tree-adjacent, and whose `numUpwardConnections` is the number of consecutive pairs in which
the second link is the parent of the first. -/
theorem find_path_correct (T : Body) (hT : WellFormed T) (root e : Nat)
    (h : SameTree T root e) :
    ∃ lp : LinkPath, (∃ N, ∀ fuel, N ≤ fuel → ∀ self : LinkPath,
        LinkPath.find T fuel root (some e) self = some (true, lp)) ∧
      lp.links.head? = some root ∧ lp.links.getLast? = some e ∧ lp.links.Nodup ∧
      List.Chain' (Adjacent T) lp.links ∧
      lp.numUpwardConnections = (countUp T lp.links : Int) := by
  obtain ⟨lp, N, hfind⟩ := find_reaches hT h
  obtain ⟨e', k, he', hw, hk⟩ := find_true_walk hT (hfind N le_rfl ⟨[], 0⟩)
  obtain rfl : e = e' := Option.some.inj he'
  obtain ⟨hnd, hdir, -⟩ := walk_simple hT hw (fun y hy => absurd hy (by simp))
  obtain ⟨P', hP'⟩ := walk_head hw
  refine ⟨lp, ⟨N, hfind⟩, ?_, walk_getLast hw, hnd, directed_adjacent _ _ hdir, ?_⟩
  · rw [hP']
    rfl
  · rw [hk, directed_countUp hT _ _ hdir]

/-- Witness for C1 on the sample forest: the path from link 3 to link 4. -/
theorem find_path_correct_witness :
    ∃ lp : LinkPath, (∃ N, ∀ fuel, N ≤ fuel → ∀ self : LinkPath,
        LinkPath.find sampleBody fuel 3 (some 4) self = some (true, lp)) ∧
      lp.links.head? = some 3 ∧ lp.links.getLast? = some 4 ∧ lp.links.Nodup ∧
      List.Chain' (Adjacent sampleBody) lp.links ∧
      lp.numUpwardConnections = (countUp sampleBody lp.links : Int) :=
  find_path_correct sampleBody sampleBody_wf 3 4
    ⟨0, by decide, rfl,
      Relation.ReflTransGen.tail (Relation.ReflTransGen.tail Relation.ReflTransGen.refl
        (show IsParent sampleBody 0 1 from rfl)) (show IsParent sampleBody 1 3 from rfl),
      Relation.ReflTransGen.tail Relation.ReflTransGen.refl
        (show IsParent sampleBody 0 4 from rfl)⟩

/-- C2: in a well-formed forest, for a link `e` and its parentless ancestor `r`,
`LinkPath::findPathFromRoot(e)` and `LinkPath::find(r, e)` both terminate and leave the same
link sequence and the same upward count, and that count is 0. -/
theorem findPathFromRoot_eq_find (T : Body) (hT : WellFormed T) (r e : Nat)
    (hr : r < T.length) (hrn : par T r = none) (hre : Anc T r e) :
    ∃ lp : LinkPath, lp.numUpwardConnections = 0 ∧
      ∃ N, ∀ fuel, N ≤ fuel → ∀ self self' : LinkPath,
        LinkPath.findPathFromRoot T fuel e self = some lp ∧
        LinkPath.find T fuel r (some e) self' = some (true, lp) := by
  obtain ⟨lp, N1, hfind⟩ :=
    find_reaches hT (show SameTree T r e from ⟨r, hr, hrn, Relation.ReflTransGen.refl, hre⟩)
  obtain ⟨e', k, he', hw, hk⟩ := find_true_walk hT (hfind N1 le_rfl ⟨[], 0⟩)
  obtain rfl : e = e' := Option.some.inj he'
  obtain ⟨hk0, -, -, -⟩ := walk_down hT hw (Or.inl hrn)
  subst hk0
  have hD : DownPath T r e lp.links := by
    obtain ⟨P', hP'⟩ := walk_head hw
    have := walk_downPath hw (Or.inl hrn) r [r] DownPath.single
    rw [hP'] at this ⊢
    simpa using this
  obtain ⟨l, N2, hl, hsub⟩ := findPathFromRootSub_spec hr hrn hre
  have hlinks : l.reverse = lp.links := downPath_unique hrn hl hD
  refine ⟨lp, by simpa using hk, max N1 N2, fun fuel hf self self' => ⟨?_, ?_⟩⟩
  · unfold LinkPath.findPathFromRoot
    rw [hsub fuel (le_trans (le_max_right _ _) hf)]
    simp only [List.nil_append, hlinks]
    cases lp
    simp only at hk
    simp [hk]
  · exact hfind fuel (le_trans (le_max_left _ _) hf) self'

/-- Witness for C2 on the sample forest: link 3 and its tree root, link 0. -/
theorem findPathFromRoot_eq_find_witness :
    ∃ lp : LinkPath, lp.numUpwardConnections = 0 ∧
      ∃ N, ∀ fuel, N ≤ fuel → ∀ self self' : LinkPath,
        LinkPath.findPathFromRoot sampleBody fuel 3 self = some lp ∧
        LinkPath.find sampleBody fuel 0 (some 3) self' = some (true, lp) :=
  findPathFromRoot_eq_find sampleBody sampleBody_wf 0 3 (by decide) rfl
    (Relation.ReflTransGen.tail (Relation.ReflTransGen.tail Relation.ReflTransGen.refl
      (show IsParent sampleBody 0 1 from rfl)) (show IsParent sampleBody 1 3 from rfl))

/-- C3: in a well-formed forest, for a link `root` of the arena and an `end` that is null or
not in the tree of `root`, `LinkPath::find(root, end)` terminates, returns `false` and leaves
the link sequence empty and `numUpwardConnections = 0`, whatever the object held before; and
in any arena every failing call of `findPathSub` returns with the object state it was
entered with. -/
theorem find_unreachable (T : Body) (hT : WellFormed T) (root : Nat) (hroot : root < T.length)
    (end_ : Ptr) (hend : ∀ e, end_ = some e → ¬ SameTree T root e) :
    (∃ N, ∀ fuel, N ≤ fuel → ∀ self : LinkPath,
      LinkPath.find T fuel root end_ self = some (false, ⟨[], 0⟩)) ∧
    (∀ (B : Body) (fuel link : Nat) (prev end' : Ptr) (isUpward : Bool) (s s' : LinkPath),
      LinkPath.findPathSub B fuel link prev end' isUpward s = some (false, s') → s' = s) := by
  refine ⟨?_, fun B fuel link prev end' isUpward s s' hs =>
    (findPathSub_fail_state B fuel).1 _ _ _ _ _ _ hs⟩
  obtain ⟨N, hN⟩ := findPathSub_terminates hT root hroot
  obtain ⟨⟨b, s⟩, hs⟩ := hN none end_ false ⟨[], 0⟩
  cases b with
  | true =>
    exfalso
    obtain ⟨e, k, he, hw, -⟩ := find_true_walk hT (find_of_sub_true hs ⟨[], 0⟩)
    obtain ⟨r, hr, hrn, hrroot⟩ := exists_root hT root hroot
    exact hend e he ⟨r, hr, hrn, hrroot, walk_same_root hw r hrn hrroot⟩
  | false =>
    obtain rfl : s = ⟨[], 0⟩ := (findPathSub_fail_state T N).1 _ _ _ _ _ _ hs
    exact ⟨N, fun fuel hf self => find_of_sub_false (findPathSub_mono T hf hs) self⟩

theorem sampleBody_not_sameTree : ∀ e, some 6 = some e → ¬ SameTree sampleBody 3 e := by
  intro e he
  obtain rfl : 6 = e := Option.some.inj he
  rintro ⟨r, -, hrn, h3, h6⟩
  have hr : r = 5 := by
    rcases anc_cases h6 with rfl | ⟨p, hp, h5⟩
    · exact absurd hrn (by decide)
    · obtain rfl : 5 = p := Option.some.inj hp
      rcases anc_cases h5 with rfl | ⟨p, hp, -⟩
      · rfl
      · exact absurd (show (none : Ptr) = some p from hp) (by simp)
  subst hr
  rcases anc_cases h3 with h | ⟨p, hp, h1⟩
  · exact absurd h (by decide)
  · obtain rfl : 1 = p := Option.some.inj hp
    rcases anc_cases h1 with h | ⟨p, hp, h0⟩
    · exact absurd h (by decide)
    · obtain rfl : 0 = p := Option.some.inj hp
      rcases anc_cases h0 with h | ⟨p, hp, -⟩
      · exact absurd h (by decide)
      · exact absurd (show (none : Ptr) = some p from hp) (by simp)

/-- Witness for C3 on the sample forest: link 6 is not in the tree of link 3. -/
theorem find_unreachable_witness :
    (∃ N, ∀ fuel, N ≤ fuel → ∀ self : LinkPath,
      LinkPath.find sampleBody fuel 3 (some 6) self = some (false, ⟨[], 0⟩)) ∧
    (∀ (B : Body) (fuel link : Nat) (prev end' : Ptr) (isUpward : Bool) (s s' : LinkPath),
      LinkPath.findPathSub B fuel link prev end' isUpward s = some (false, s') → s' = s) :=
  find_unreachable sampleBody sampleBody_wf 3 (by decide) (some 6) sampleBody_not_sameTree

/-- C4: for a path found by `LinkPath::find` in a well-formed forest, segment `i` (the pair
`links[i]`, `links[i+1]`) steps from a link to its parent when `i < numUpwardConnections`
and from a link to its child when `i >= numUpwardConnections`; so `isDownward(i)` holds
exactly when `links[i]` is the parent of `links[i+1]`, and fails exactly when `links[i+1]`
is the parent of `links[i]`. -/
theorem find_direction (T : Body) (hT : WellFormed T) (fuel root : Nat) (end_ : Ptr)
    (self lp : LinkPath) (h : LinkPath.find T fuel root end_ self = some (true, lp))
    (i : Nat) (hi : i + 1 < lp.links.length) :
    ((i : Int) < lp.numUpwardConnections →
      par T (lp.links.get ⟨i, Nat.lt_of_succ_lt hi⟩) = some (lp.links.get ⟨i + 1, hi⟩)) ∧
    (lp.numUpwardConnections ≤ (i : Int) →
      par T (lp.links.get ⟨i + 1, hi⟩) = some (lp.links.get ⟨i, Nat.lt_of_succ_lt hi⟩)) ∧
    (lp.isDownward i = true ↔
      par T (lp.links.get ⟨i + 1, hi⟩) = some (lp.links.get ⟨i, Nat.lt_of_succ_lt hi⟩)) ∧
    (lp.isDownward i = false ↔
      par T (lp.links.get ⟨i, Nat.lt_of_succ_lt hi⟩) = some (lp.links.get ⟨i + 1, hi⟩)) := by
  obtain ⟨e, k, -, hw, hk⟩ := find_true_walk hT h
  obtain ⟨-, hdir, -⟩ := walk_simple hT hw (fun y hy => absurd hy (by simp))
  obtain ⟨hup, hdown⟩ := directed_index k lp.links hdir i hi
  have h1 : (i : Int) < lp.numUpwardConnections →
      par T (lp.links.get ⟨i, Nat.lt_of_succ_lt hi⟩) = some (lp.links.get ⟨i + 1, hi⟩) :=
    fun hlt => hup (by rw [hk] at hlt; exact_mod_cast hlt)
  have h2 : lp.numUpwardConnections ≤ (i : Int) →
      par T (lp.links.get ⟨i + 1, hi⟩) = some (lp.links.get ⟨i, Nat.lt_of_succ_lt hi⟩) :=
    fun hle => hdown (by rw [hk] at hle; exact_mod_cast hle)
  refine ⟨h1, h2, ?_, ?_⟩
  · unfold LinkPath.isDownward
    rw [decide_eq_true_iff]
    refine ⟨h2, fun hp => ?_⟩
    by_contra hlt
    exact no_two_cycle hT hp (h1 (lt_of_not_le hlt))
  · unfold LinkPath.isDownward
    rw [decide_eq_false_iff_not]
    refine ⟨fun hlt => h1 (lt_of_not_le hlt), fun hp hle => ?_⟩
    exact no_two_cycle hT hp (h2 hle)

/-- Witness for C4 on the sample forest: segment 1 of the path from link 3 to link 4. -/
theorem find_direction_witness :
    ((1 : Int) < 2 → par sampleBody 1 = some 0) ∧
    ((2 : Int) ≤ 1 → par sampleBody 0 = some 1) ∧
    (LinkPath.isDownward ⟨[3, 1, 0, 4], 2⟩ 1 = true ↔ par sampleBody 0 = some 1) ∧
    (LinkPath.isDownward ⟨[3, 1, 0, 4], 2⟩ 1 = false ↔ par sampleBody 1 = some 0) :=
  find_direction sampleBody sampleBody_wf 10 3 (some 4) ⟨[], 0⟩ ⟨[3, 1, 0, 4], 2⟩
    (by decide) 1 (by decide)

/-- C5: for a link sequence without repeated links (all of them links of the arena) and any
upward count, `JointPath::extractJoints` returns a joint sequence that is a subsequence of
the link sequence (same relative order, no link twice), every emitted link is
`ROTATIONAL_JOINT` or `SLIDE_JOINT`, the link path is kept, and the arena is returned
unchanged. -/
theorem extractJoints_subsequence (T : Body) (self : JointPath) (hnd : self.links.Nodup)
    (hvalid : ∀ l ∈ self.links, l < T.length) :
    ∃ jp, JointPath.extractJoints T self = some jp ∧
      JointPath.extractJointsOn T self = some (T, jp) ∧
      jp.links = self.links ∧ jp.numUpwardConnections = self.numUpwardConnections ∧
      jp.joints.Sublist self.links ∧ jp.joints.Nodup ∧
      ∀ j ∈ jp.joints, ∃ L, T[j]? = some L ∧
        (L.jointType = JointType.ROTATIONAL_JOINT ∨ L.jointType = JointType.SLIDE_JOINT) := by
  obtain ⟨jp, hjp, hlp, -, -, hj⟩ := extractJoints_spec T self hvalid
  have hsub : jp.joints.Sublist self.links := by
    rw [hj]
    exact jointsOf_sublist T self.toLinkPath
  refine ⟨jp, hjp, ?_, by rw [hlp], by rw [hlp], hsub, hsub.nodup hnd, fun j hjm => ?_⟩
  · unfold JointPath.extractJointsOn
    rw [hjp]
  · rw [hj] at hjm
    exact (isJointAt_iff T j).1 (jointsOf_actuated T _ j hjm)

/-- Witness for C5 on the sample forest: the path 3, 1, 0, 4 with two upward segments. -/
theorem extractJoints_subsequence_witness :
    ∃ jp, JointPath.extractJoints sampleBody ⟨⟨[3, 1, 0, 4], 2⟩, [], 0, 0, false⟩ = some jp ∧
      JointPath.extractJointsOn sampleBody ⟨⟨[3, 1, 0, 4], 2⟩, [], 0, 0, false⟩
        = some (sampleBody, jp) ∧
      jp.links = [3, 1, 0, 4] ∧ jp.numUpwardConnections = 2 ∧
      jp.joints.Sublist [3, 1, 0, 4] ∧ jp.joints.Nodup ∧
      ∀ j ∈ jp.joints, ∃ L, sampleBody[j]? = some L ∧
        (L.jointType = JointType.ROTATIONAL_JOINT ∨ L.jointType = JointType.SLIDE_JOINT) :=
  extractJoints_subsequence sampleBody ⟨⟨[3, 1, 0, 4], 2⟩, [], 0, 0, false⟩ (by decide)
    (by decide)

/-- C6 (the code departs from the claim): on the sample forest, a `JointPath` that found the
path from link 3 to link 4 (joints 3, 1, 4) and is then asked for the unreachable link 6
returns `true` and keeps the stale joints 3, 1, 4 next to an empty link sequence. -/
theorem JointPath_find_keeps_stale_joints :
    ∃ jp1 jp2 : JointPath,
      JointPath.find sampleBody 10 3 (some 4) JointPath.fresh = some (true, jp1) ∧
      jp1.links = [3, 1, 0, 4] ∧ jp1.joints = [3, 1, 4] ∧
      JointPath.find sampleBody 10 3 (some 6) jp1 = some (true, jp2) ∧
      jp2.links = [] ∧ jp2.joints = [3, 1, 4] :=
  ⟨⟨⟨[3, 1, 0, 4], 2⟩, [3, 1, 4], 2, JointPath.fresh.maxIKErrorSqr, false⟩,
    ⟨⟨[], 0⟩, [3, 1, 4], 2, JointPath.fresh.maxIKErrorSqr, false⟩,
    rfl, rfl, rfl, rfl, rfl, rfl⟩

/-- C7: for a joint path with `N` joints (all of them links of the arena, and the end link of
the link path in the arena when `N > 0`) and any previous content of `out_J`,
`JointPath::calcJacobian` returns a matrix with 6 rows and `N` columns whose column `i` is,
over exact arithmetic (the rounding is `id`), the column the spec prescribes for joint `i`:
for a rotational joint rows 3-5 hold `w` and rows 0-2 hold `w × (p_end - p_link)` with
`w = R a` when the joint is flagged downward and `-(R a)` otherwise; for a prismatic joint
rows 0-2 hold `R d` or `-(R d)` and rows 3-5 are zero; for any other joint kind the column is
zero. -/
theorem calcJacobian_columns (T : Body) (self : JointPath) (out_J : dmatrix)
    (hj : ∀ j ∈ self.joints, j < T.length)
    (ht : self.joints ≠ [] → ∃ t, self.links.getLast? = some t ∧ t < T.length) :
    ∃ J, self.calcJacobian id T out_J = some J ∧ J.size1 = 6 ∧ J.size2 = self.joints.length ∧
      ∀ (i : Nat) (hi : i < self.joints.length) (t : Nat) (link targetLink : Link),
        self.links.getLast? = some t → T[t]? = some targetLink →
        T[self.joints[i]]? = some link → ∀ r, r < 6 →
          J.data r i = specColumn link targetLink.p (self.isJointDownward i) r := by
  unfold JointPath.calcJacobian
  by_cases hn : 0 < self.joints.length
  · simp only [hn, if_true]
    obtain ⟨t, htl, htv⟩ := ht (List.ne_nil_of_length_pos hn)
    have hT : T[t]? = some T[t] := List.getElem?_eq_getElem htv
    rw [htl]
    simp only
    rw [hT]
    simp only
    obtain ⟨J', hJ', hs1, hs2, -, hcols⟩ :=
      jacobianLoop_spec id T self T[t] self.joints.length le_rfl hj
        (self.joints.length + 1) 0 (out_J.resize 6 self.joints.length) (by omega)
    refine ⟨J', hJ', hs1, hs2, fun i hi t' link targetLink ht' hT' hlink r hr => ?_⟩
    obtain rfl : t = t' := Option.some.inj ht'
    obtain rfl : T[t] = targetLink := Option.some.inj (hT.symm.trans hT')
    rw [← columnEntry_id]
    exact hcols i hi (Nat.zero_le _) hi link hlink r hr
  · simp only [hn, if_false]
    exact ⟨_, rfl, rfl, rfl, fun i hi => absurd (lt_of_le_of_lt (Nat.zero_le _) hi) hn⟩

/-- Witness for C7 on the sample forest: the joint path 3, 1, 4 of the link path
3, 1, 0, 4. -/
theorem calcJacobian_columns_witness :
    ∃ J, JointPath.calcJacobian id sampleBody ⟨⟨[3, 1, 0, 4], 2⟩, [3, 1, 4], 2, 0, false⟩
        ⟨0, 0, fun _ _ => 0⟩ = some J ∧ J.size1 = 6 ∧ J.size2 = 3 ∧
      ∀ (i : Nat) (hi : i < 3) (t : Nat) (link targetLink : Link),
        [3, 1, 0, 4].getLast? = some t → sampleBody[t]? = some targetLink →
        sampleBody[[3, 1, 4][i]]? = some link → ∀ r, r < 6 →
          J.data r i = specColumn link targetLink.p
            (JointPath.isJointDownward ⟨⟨[3, 1, 0, 4], 2⟩, [3, 1, 4], 2, 0, false⟩ i) r :=
  calcJacobian_columns sampleBody ⟨⟨[3, 1, 0, 4], 2⟩, [3, 1, 4], 2, 0, false⟩
    ⟨0, 0, fun _ _ => 0⟩ (by decide) (fun _ => ⟨4, rfl, by decide⟩)

/-- C8: for a non-empty joint path, any target pose, either convergence mode and any linear
solvers, with forward kinematics that writes no joint value: if
`JointPath::calcInverseKinematics(end_p, end_R)` returns `false` then every joint of the path
has the joint value `q` it had before the call, and the last thing the call did was to run
forward kinematics on the arena with the values restored. -/
theorem calcInverseKinematics_rollback (env : IKEnv) (T : Body) (self : JointPath)
    (end_p : Vector3) (end_R0 : Matrix33) (T' : Body) (tr : List IKEvent)
    (hfk : ∀ (P : JointPath) (B : Body) (l : Nat),
      ((env.calcForwardKinematics P B)[l]?).map Link.q = (B[l]?).map Link.q)
    (hne : self.joints ≠ [])
    (h : self.calcInverseKinematics env T end_p end_R0 = some (false, T', tr)) :
    (∀ j ∈ self.joints, (T'[j]?).map Link.q = (T[j]?).map Link.q) ∧
    ∃ (T1 : Body) (tr0 : List IKEvent), T' = env.calcForwardKinematics self T1 ∧
      tr = tr0 ++ [IKEvent.forwardKinematics] ∧
      ∀ j ∈ self.joints, (T1[j]?).map Link.q = (T[j]?).map Link.q := by
  obtain ⟨target, targetLink, qorg, st, T1, -, -, hq, -, hrest, hT', htr⟩ :=
    calcInverseKinematics_false hne h
  have hq1 := restoreQ_saveQ hq hrest
  refine ⟨fun j hj => ?_, T1, st.trace, hT', htr, hq1⟩
  rw [hT', hfk, hq1 j hj]

set_option maxRecDepth 100000

/-- Witness for C8: on the sample forest the target `(5, 0, 0)` is never met in strict mode
(the end link moves in steps of 0.9), so after 50 rounds the call fails and rolls back. -/
theorem calcInverseKinematics_rollback_witness :
    (∀ j ∈ samplePath.joints, (sampleBody[j]?).map Link.q = (sampleBody[j]?).map Link.q) ∧
    ∃ (T1 : Body) (tr0 : List IKEvent),
      sampleBody = sampleEnv.calcForwardKinematics samplePath T1 ∧
      (List.replicate 50 [IKEvent.jacobian, IKEvent.solveSVD, IKEvent.forwardKinematics]).flatten
          ++ [IKEvent.forwardKinematics] = tr0 ++ [IKEvent.forwardKinematics] ∧
      ∀ j ∈ samplePath.joints, (T1[j]?).map Link.q = (sampleBody[j]?).map Link.q :=
  calcInverseKinematics_rollback sampleEnv sampleBody samplePath ⟨5, 0, 0⟩
    ⟨⟨1, 0, 0⟩, ⟨0, 1, 0⟩, ⟨0, 0, 1⟩⟩ sampleBody
    ((List.replicate 50 [IKEvent.jacobian, IKEvent.solveSVD, IKEvent.forwardKinematics]).flatten
      ++ [IKEvent.forwardKinematics])
    sampleEnv_fk_keeps_q (by decide) (by with_unfolding_all decide)

/-- C9: for a `JointPath` whose joint sequence is empty and any target pose,
`JointPath::calcInverseKinematics(end_p, end_R)` returns `false`, makes no call at all (no
Jacobian, no linear solve, no forward kinematics) and returns the arena as it was. -/
theorem calcInverseKinematics_no_joints (env : IKEnv) (T : Body) (self : JointPath)
    (end_p : Vector3) (end_R0 : Matrix33) (h : self.joints = []) :
    self.calcInverseKinematics env T end_p end_R0 = some (false, T, []) := by
  unfold JointPath.calcInverseKinematics
  rw [h]
  rfl

/-- Witness for C9: the default-constructed `JointPath` on the sample forest. -/
theorem calcInverseKinematics_no_joints_witness :
    JointPath.fresh.calcInverseKinematics sampleEnv sampleBody ⟨1, 0, 0⟩
      ⟨⟨1, 0, 0⟩, ⟨0, 1, 0⟩, ⟨0, 0, 1⟩⟩ = some (false, sampleBody, []) :=
  calcInverseKinematics_no_joints sampleEnv sampleBody JointPath.fresh ⟨1, 0, 0⟩
    ⟨⟨1, 0, 0⟩, ⟨0, 1, 0⟩, ⟨0, 0, 1⟩⟩ rfl

/-- C10: in strict mode, for a non-empty joint path whose end link and joints are links of the
arena, and whatever the rounding of the `double` arithmetic (`env.fl`),
`JointPath::calcInverseKinematics(end_p, end_R)` returns `true` if and only if for some
`k < 50` the state reached after `k` damped updates has squared pose error (as the program
computes it) below `maxIKErrorSqr`; it then stops at the least such `k`, returns the arena of
that state, and has built one Jacobian more than that state; in particular, when the initial
state is already below the threshold it returns `true`, returns the arena unchanged and has
called no solver. When the joints are pairwise distinct, the state after `k` damped updates is
the one reached by `k` full iterations as the spec describes them (`DampedRounds`): in each,
every joint value is advanced once by `q_j += 0.9 * dq_j` for the step `dq` of the solver. -/
theorem calcInverseKinematics_strict (env : IKEnv) (T : Body) (self : JointPath)
    (end_p : Vector3) (end_R0 : Matrix33) (target : Nat) (targetLink : Link) (qorg : List ℚ)
    (hmode : self.isBestEffortIKMode = false) (hne : self.joints ≠ [])
    (htarget : self.links.getLast? = some target) (hlink : T[target]? = some targetLink)
    (hq : saveQ T self.joints = some qorg) :
    ((∃ T' tr, self.calcInverseKinematics env T end_p end_R0 = some (true, T', tr)) ↔
      ∃ k, k < 50 ∧ ∃ stk e,
        self.ikStateAfter env target end_p (end_R0.mul env.fl (trans targetLink.Rs)) k
          ⟨T, ⟨6, self.joints.length, env.freshJ⟩, env.freshDq, env.fl (self.maxIKErrorSqr * 100), []⟩
          = some stk ∧
        self.ikErrSqr env target end_p (end_R0.mul env.fl (trans targetLink.Rs)) stk = some e ∧
        e < self.maxIKErrorSqr) ∧
    (∀ (T' : Body) (tr : List IKEvent),
      self.calcInverseKinematics env T end_p end_R0 = some (true, T', tr) ↔
        ∃ k, k < 50 ∧ ∃ stk st',
          self.ikStateAfter env target end_p (end_R0.mul env.fl (trans targetLink.Rs)) k
            ⟨T, ⟨6, self.joints.length, env.freshJ⟩, env.freshDq, env.fl (self.maxIKErrorSqr * 100), []⟩
            = some stk ∧
          StrictHit env self target end_p (end_R0.mul env.fl (trans targetLink.Rs))
            ⟨T, ⟨6, self.joints.length, env.freshJ⟩, env.freshDq, env.fl (self.maxIKErrorSqr * 100), []⟩
            k st' ∧
          T' = stk.body ∧ tr = stk.trace ++ [IKEvent.jacobian]) ∧
    (∀ e, self.ikErrSqr env target end_p (end_R0.mul env.fl (trans targetLink.Rs))
        ⟨T, ⟨6, self.joints.length, env.freshJ⟩, env.freshDq, env.fl (self.maxIKErrorSqr * 100), []⟩
        = some e → e < self.maxIKErrorSqr →
      self.calcInverseKinematics env T end_p end_R0 = some (true, T, [IKEvent.jacobian])) ∧
    (self.joints.Nodup → ∀ (k : Nat) (stk : IKState),
      self.ikStateAfter env target end_p (end_R0.mul env.fl (trans targetLink.Rs)) k
        ⟨T, ⟨6, self.joints.length, env.freshJ⟩, env.freshDq, env.fl (self.maxIKErrorSqr * 100), []⟩
        = some stk →
      DampedRounds env self target end_p (end_R0.mul env.fl (trans targetLink.Rs)) k
        (T, ⟨6, self.joints.length, env.freshJ⟩, env.freshDq) (stk.body, stk.J, stk.dq)) := by
  have key : ∀ (T' : Body) (tr : List IKEvent),
      self.calcInverseKinematics env T end_p end_R0 = some (true, T', tr) ↔
        ∃ k, k < 50 ∧ ∃ stk st',
          self.ikStateAfter env target end_p (end_R0.mul env.fl (trans targetLink.Rs)) k
            ⟨T, ⟨6, self.joints.length, env.freshJ⟩, env.freshDq, env.fl (self.maxIKErrorSqr * 100), []⟩
            = some stk ∧
          StrictHit env self target end_p (end_R0.mul env.fl (trans targetLink.Rs))
            ⟨T, ⟨6, self.joints.length, env.freshJ⟩, env.freshDq, env.fl (self.maxIKErrorSqr * 100), []⟩
            k st' ∧
          T' = stk.body ∧ tr = stk.trace ++ [IKEvent.jacobian] := by
    intro T' tr
    rw [calcInverseKinematics_true_iff hne htarget hlink hq]
    constructor
    · rintro ⟨st', hloop, rfl, rfl⟩
      obtain ⟨k, hk, hit⟩ := (ikLoop_strict_true env self target end_p _ hmode _ _ _).1 hloop
      obtain ⟨stk, dp, omega, hstk, herr, -, -⟩ := id hit
      obtain ⟨hb, ht⟩ := ikError_body_trace herr
      exact ⟨k, hk, stk, st', hstk, hit, hb, ht⟩
    · rintro ⟨k, hk, stk, st', hstk, hit, rfl, rfl⟩
      obtain ⟨stk', dp, omega, hstk', herr, -, -⟩ := id hit
      obtain rfl : stk = stk' := Option.some.inj (hstk.symm.trans hstk')
      obtain ⟨hb, ht⟩ := ikError_body_trace herr
      exact ⟨st', (ikLoop_strict_true env self target end_p _ hmode _ _ _).2 ⟨k, hk, hit⟩,
        hb.symm, ht.symm⟩
  refine ⟨⟨?_, ?_⟩, key, fun e he hlt => ?_,
    fun hnd k stk h => ikStateAfter_rounds env self target end_p _ hnd k _ stk h⟩
  · rintro ⟨T', tr, h⟩
    obtain ⟨k, hk, stk, st', hstk, hit, -, -⟩ := (key T' tr).1 h
    obtain ⟨stk', dp, omega, hstk', herr, hlt, -⟩ := hit
    obtain rfl : stk = stk' := Option.some.inj (hstk.symm.trans hstk')
    refine ⟨k, hk, stk, _, hstk, ?_, hlt⟩
    rw [JointPath.ikErrSqr, herr]
  · rintro ⟨k, hk, stk, e, hstk, he, hlt⟩
    obtain ⟨k', hk', st', hit⟩ := strictHit_of_exists hstk he hlt
    obtain ⟨stk', dp, omega, hstk', herr, -, -⟩ := id hit
    exact ⟨stk'.body, stk'.trace ++ [IKEvent.jacobian],
      (key _ _).2 ⟨k', by omega, stk', st', hstk', hit, rfl, rfl⟩⟩
  · unfold JointPath.ikErrSqr at he
    split at he
    · exact absurd he (by simp)
    · rename_i dp omega st1 herr
      obtain rfl := Option.some.inj he
      exact (key T [IKEvent.jacobian]).2 ⟨0, by omega, _, st1, rfl,
        ⟨_, dp, omega, rfl, herr, hlt, fun j hj => absurd hj (by omega)⟩, rfl, rfl⟩

/-- Witness for C10 on the sample forest, in `double` arithmetic: the end link already sits
at the target `(0, 0, 0)`, so the call returns `true` at once; the target `(0.9, 0, 0)` is met
after one damped update, with the joint values 0.9 of that state; and with the threshold
`2^-110` the target `(9, 0, 0)` is never met, because ten updates by 0.9 give
9.000000000000002, so the call returns `false` after 50 rounds with the joint values
restored. -/
theorem calcInverseKinematics_strict_witness :
    samplePath.calcInverseKinematics sampleEnv sampleBody ⟨0, 0, 0⟩
        ⟨⟨1, 0, 0⟩, ⟨0, 1, 0⟩, ⟨0, 0, 1⟩⟩ = some (true, sampleBody, [IKEvent.jacobian]) ∧
    (samplePath.calcInverseKinematics sampleEnv sampleBody ⟨roundDouble (9 / 10), 0, 0⟩
        ⟨⟨1, 0, 0⟩, ⟨0, 1, 0⟩, ⟨0, 0, 1⟩⟩).map (fun r => (r.1, r.2.1.map Link.q, r.2.2))
      = some (true,
        [0, roundDouble (9 / 10), 0, roundDouble (9 / 10), roundDouble (9 / 10), 0, 0],
        [IKEvent.jacobian, IKEvent.solveSVD, IKEvent.forwardKinematics, IKEvent.jacobian]) ∧
    (JointPath.ikStateAfter sampleEnv ⟨⟨[3, 1, 0, 4], 2⟩, [3, 1, 4], 2, 1 / 2 ^ 110, false⟩ 4
        ⟨9, 0, 0⟩ ⟨⟨1, 0, 0⟩, ⟨0, 1, 0⟩, ⟨0, 0, 1⟩⟩ 10
        ⟨sampleBody, ⟨6, 3, sampleEnv.freshJ⟩, sampleEnv.freshDq, 0, []⟩).map
      (fun st => st.body.map Link.q) =
      some [0, 5066549580791809 / 562949953421312, 0, 5066549580791809 / 562949953421312,
        5066549580791809 / 562949953421312, 0, 0] ∧
    JointPath.calcInverseKinematics sampleEnv sampleBody
        ⟨⟨[3, 1, 0, 4], 2⟩, [3, 1, 4], 2, 1 / 2 ^ 110, false⟩ ⟨9, 0, 0⟩
        ⟨⟨1, 0, 0⟩, ⟨0, 1, 0⟩, ⟨0, 0, 1⟩⟩ =
      some (false, sampleBody,
        (List.replicate 50 [IKEvent.jacobian, IKEvent.solveSVD,
          IKEvent.forwardKinematics]).flatten ++ [IKEvent.forwardKinematics]) :=
  ⟨(calcInverseKinematics_strict sampleEnv sampleBody samplePath ⟨0, 0, 0⟩
      ⟨⟨1, 0, 0⟩, ⟨0, 1, 0⟩, ⟨0, 0, 1⟩⟩ 4
      (sampleLink "ARM" (some 0) none none JointType.ROTATIONAL_JOINT) [0, 0, 0]
      rfl (by decide) rfl rfl rfl).2.2.1 0 (by decide!) (by decide!),
    by decide!, by decide!, by decide!⟩

/-- C11 (the code departs from the claim): on the sample forest in best-effort mode with
threshold 0.01 and target `(1, 0, 0)`, in `double` arithmetic, the squared pose error of the
initial state is 1, which is 100 times the threshold and so equals the start value
`maxIKErrorSqr * 100` of `errsqr`; the call returns `true` in its first round, after a single
Jacobian and no update, so without two iterations whose errors could be compared. -/
theorem bestEffort_converges_in_first_round :
    sampleBestEffortPath.calcInverseKinematics sampleEnv sampleBody ⟨1, 0, 0⟩
        ⟨⟨1, 0, 0⟩, ⟨0, 1, 0⟩, ⟨0, 0, 1⟩⟩ = some (true, sampleBody, [IKEvent.jacobian]) ∧
    sampleBestEffortPath.ikErrSqr sampleEnv 4 ⟨1, 0, 0⟩
        (Matrix33.mul sampleEnv.fl ⟨⟨1, 0, 0⟩, ⟨0, 1, 0⟩, ⟨0, 0, 1⟩⟩
          (trans (sampleLink "ARM" (some 0) none none JointType.ROTATIONAL_JOINT).Rs))
        ⟨sampleBody, ⟨6, 3, sampleEnv.freshJ⟩, sampleEnv.freshDq,
          sampleEnv.fl (sampleBestEffortPath.maxIKErrorSqr * 100), []⟩ = some 1 ∧
    sampleEnv.fl (sampleBestEffortPath.maxIKErrorSqr * 100) = 1 :=
  ⟨by decide!, by decide!, by decide!⟩

/-- C12 counterexample: on the sample tool tree, in `double` arithmetic, `JointPath(0, 4)` has
the joints 3, 4 flagged downward and `JointPath(4, 0)` has the joints 4, 3 flagged upward, so
joint 3 occurs in both with its direction flag reversed; row 1 (a linear row) of its Jacobian
column is 1 for both paths, not 1 and -1: the arm is taken to the end link of each path,
`(2, 0, 0)` for the first and `(0, 0, 0)` for the second. -/
theorem reversed_rotational_column_not_negated :
    (JointPath.construct toolBody 10 0 (some 4)).map
        (fun P => (P.joints, P.isJointDownward 0)) = some ([3, 4], true) ∧
    (JointPath.construct toolBody 10 4 (some 0)).map
        (fun P => (P.joints, P.isJointDownward 1)) = some ([4, 3], false) ∧
    (JointPath.construct toolBody 10 0 (some 4)).bind
        (fun P => (P.calcJacobian roundDouble toolBody ⟨0, 0, fun _ _ => 0⟩).map
          (fun J => J.data 1 0)) = some 1 ∧
    (JointPath.construct toolBody 10 4 (some 0)).bind
        (fun P => (P.calcJacobian roundDouble toolBody ⟨0, 0, fun _ _ => 0⟩).map
          (fun J => J.data 1 1)) = some 1 :=
  ⟨by decide, by decide, by decide!, by decide!⟩

/-- C12 (amended): in a well-formed forest, for links `a`, `b` of the arena, any link state
and any rounding `fl` of the arithmetic that is sign-symmetric and fixes `double` values (as
IEEE round-to-nearest is, and as exact arithmetic is), the constructors `JointPath(a, b)` and
`JointPath(b, a)` return (given enough fuel), and for every joint that occurs in both joint
sequences (at index `i1` in the first, `i2` in the second) with reversed direction flags, both
Jacobians are produced and: the angular rows 3-5 of the joint's column are exactly negated;
for a prismatic joint the linear rows 0-2 are exactly negated as well; for a rotational joint
the linear rows are `w × (p_b - p_link)` in the first Jacobian and `-(w × (p_a - p_link))` in
the second, with the same signed axis `w` but the arm taken to each path's own end link, so
they are negated exactly when these two products agree. -/
theorem reversed_path_columns {T : Body} (hT : WellFormed T) (fl : ℚ → ℚ)
    (hodd : ∀ x, fl (-x) = -fl x) (hfix : ∀ x, fl (fl x) = fl x) (a b : Nat)
    (ha : a < T.length) (hb : b < T.length) :
    ∃ N, ∀ fuel1 fuel2, N ≤ fuel1 → N ≤ fuel2 →
      ∃ (P1 P2 : JointPath) (A B : Link),
        JointPath.construct T fuel1 a (some b) = some P1 ∧
        JointPath.construct T fuel2 b (some a) = some P2 ∧
        T[a]? = some A ∧ T[b]? = some B ∧
        ∀ (out1 out2 : dmatrix) (i1 i2 j : Nat) (link : Link),
          P1.joints[i1]? = some j → P2.joints[i2]? = some j →
          P2.isJointDownward i2 = (!P1.isJointDownward i1) → T[j]? = some link →
          ∃ (J1 J2 : dmatrix), P1.calcJacobian fl T out1 = some J1 ∧
            P2.calcJacobian fl T out2 = some J2 ∧
            (∀ r, 3 ≤ r → r < 6 → J2.data r i2 = -J1.data r i1) ∧
            (link.jointType = JointType.SLIDE_JOINT →
              ∀ r, r < 3 → J2.data r i2 = -J1.data r i1) ∧
            (link.jointType = JointType.ROTATIONAL_JOINT →
              J1.data 0 i1 =
                (cross fl (if P1.isJointDownward i1 then link.R.mulVec fl link.a
                  else (link.R.mulVec fl link.a).neg) (B.p.sub fl link.p)).x ∧
              J1.data 1 i1 =
                (cross fl (if P1.isJointDownward i1 then link.R.mulVec fl link.a
                  else (link.R.mulVec fl link.a).neg) (B.p.sub fl link.p)).y ∧
              J1.data 2 i1 =
                (cross fl (if P1.isJointDownward i1 then link.R.mulVec fl link.a
                  else (link.R.mulVec fl link.a).neg) (B.p.sub fl link.p)).z ∧
              J2.data 0 i2 =
                -(cross fl (if P1.isJointDownward i1 then link.R.mulVec fl link.a
                  else (link.R.mulVec fl link.a).neg) (A.p.sub fl link.p)).x ∧
              J2.data 1 i2 =
                -(cross fl (if P1.isJointDownward i1 then link.R.mulVec fl link.a
                  else (link.R.mulVec fl link.a).neg) (A.p.sub fl link.p)).y ∧
              J2.data 2 i2 =
                -(cross fl (if P1.isJointDownward i1 then link.R.mulVec fl link.a
                  else (link.R.mulVec fl link.a).neg) (A.p.sub fl link.p)).z) ∧
            (link.jointType = JointType.ROTATIONAL_JOINT →
              ((∀ r, r < 3 → J2.data r i2 = -J1.data r i1) ↔
                cross fl (if P1.isJointDownward i1 then link.R.mulVec fl link.a
                    else (link.R.mulVec fl link.a).neg) (A.p.sub fl link.p) =
                  cross fl (if P1.isJointDownward i1 then link.R.mulVec fl link.a
                    else (link.R.mulVec fl link.a).neg) (B.p.sub fl link.p))) := by
  obtain ⟨N1, hN1⟩ := construct_total hT a ha (some b)
  obtain ⟨N2, hN2⟩ := construct_total hT b hb (some a)
  refine ⟨max N1 N2, fun fuel1 fuel2 hf1 hf2 => ?_⟩
  obtain ⟨P1, h1⟩ := hN1 fuel1 (le_trans (le_max_left _ _) hf1)
  obtain ⟨P2, h2⟩ := hN2 fuel2 (le_trans (le_max_right _ _) hf2)
  refine ⟨P1, P2, T[a], T[b], h1, h2, List.getElem?_eq_getElem ha,
    List.getElem?_eq_getElem hb, fun out1 out2 i1 i2 j link hj1 hj2 hflag hl => ?_⟩
  obtain ⟨J1, J2, A, B, hJ1, hJ2, hA, hB, hc1, hc2⟩ :=
    reversed_columns_of_construct hT fl out1 out2 h1 h2 hj1 hj2 hflag hl
  obtain rfl : T[a] = A := Option.some.inj ((List.getElem?_eq_getElem ha).symm.trans hA)
  obtain rfl : T[b] = B := Option.some.inj ((List.getElem?_eq_getElem hb).symm.trans hB)
  refine ⟨J1, J2, hJ1, hJ2, fun r h3 h6 => ?_, fun hs r h3 => ?_, fun hs => ?_,
    fun hs => ?_⟩
  · rw [hc1 r h6, hc2 r h6]
    exact columnEntry_angular_reversed hodd hfix link _ _ _ r h3
  · rw [hc1 r (by omega), hc2 r (by omega)]
    exact columnEntry_slide_reversed hodd hfix link _ _ _ r hs
  · obtain ⟨e0, e1, e2⟩ := columnEntry_rot hodd hfix link T[b].p (P1.isJointDownward i1) hs
    obtain ⟨f0, f1, f2⟩ :=
      columnEntry_rot_reversed hodd hfix link T[a].p (P1.isJointDownward i1) hs
    rw [hc1 0 (by omega), hc1 1 (by omega), hc1 2 (by omega), hc2 0 (by omega),
      hc2 1 (by omega), hc2 2 (by omega)]
    exact ⟨e0, e1, e2, f0, f1, f2⟩
  · obtain ⟨e0, e1, e2⟩ := columnEntry_rot hodd hfix link T[b].p (P1.isJointDownward i1) hs
    obtain ⟨f0, f1, f2⟩ :=
      columnEntry_rot_reversed hodd hfix link T[a].p (P1.isJointDownward i1) hs
    constructor
    · intro h
      have h0 := h 0 (by omega)
      have h1 := h 1 (by omega)
      have h2 := h 2 (by omega)
      rw [hc1 _ (by omega), hc2 _ (by omega)] at h0 h1 h2
      rw [e0, f0, neg_inj] at h0
      rw [e1, f1, neg_inj] at h1
      rw [e2, f2, neg_inj] at h2
      exact vector3_ext h0 h1 h2
    · intro h r hr
      rw [hc1 r (by omega), hc2 r (by omega)]
      interval_cases r
      · rw [e0, f0, h]
      · rw [e1, f1, h]
      · rw [e2, f2, h]

/-- Witness for C12: the sample tool tree with `a = 0` (the base) and `b = 4` (the elbow),
where the shoulder joint 3 occurs in both joint sequences with reversed flags, in `double`
arithmetic: rounding to the nearest `double` is sign-symmetric and fixes `double` values. -/
theorem reversed_path_columns_witness :
    ∃ N, ∀ fuel1 fuel2, N ≤ fuel1 → N ≤ fuel2 →
      ∃ (P1 P2 : JointPath) (A B : Link),
        JointPath.construct toolBody fuel1 0 (some 4) = some P1 ∧
        JointPath.construct toolBody fuel2 4 (some 0) = some P2 ∧
        toolBody[0]? = some A ∧ toolBody[4]? = some B ∧
        ∀ (out1 out2 : dmatrix) (i1 i2 j : Nat) (link : Link),
          P1.joints[i1]? = some j → P2.joints[i2]? = some j →
          P2.isJointDownward i2 = (!P1.isJointDownward i1) → toolBody[j]? = some link →
          ∃ (J1 J2 : dmatrix), P1.calcJacobian roundDouble toolBody out1 = some J1 ∧
            P2.calcJacobian roundDouble toolBody out2 = some J2 ∧
            (∀ r, 3 ≤ r → r < 6 → J2.data r i2 = -J1.data r i1) ∧
            (link.jointType = JointType.SLIDE_JOINT →
              ∀ r, r < 3 → J2.data r i2 = -J1.data r i1) ∧
            (link.jointType = JointType.ROTATIONAL_JOINT →
              J1.data 0 i1 =
                (cross roundDouble (if P1.isJointDownward i1 then link.R.mulVec roundDouble link.a
                  else (link.R.mulVec roundDouble link.a).neg) (B.p.sub roundDouble link.p)).x ∧
              J1.data 1 i1 =
                (cross roundDouble (if P1.isJointDownward i1 then link.R.mulVec roundDouble link.a
                  else (link.R.mulVec roundDouble link.a).neg) (B.p.sub roundDouble link.p)).y ∧
              J1.data 2 i1 =
                (cross roundDouble (if P1.isJointDownward i1 then link.R.mulVec roundDouble link.a
                  else (link.R.mulVec roundDouble link.a).neg) (B.p.sub roundDouble link.p)).z ∧
              J2.data 0 i2 =
                -(cross roundDouble (if P1.isJointDownward i1 then link.R.mulVec roundDouble link.a
                  else (link.R.mulVec roundDouble link.a).neg) (A.p.sub roundDouble link.p)).x ∧
              J2.data 1 i2 =
                -(cross roundDouble (if P1.isJointDownward i1 then link.R.mulVec roundDouble link.a
                  else (link.R.mulVec roundDouble link.a).neg) (A.p.sub roundDouble link.p)).y ∧
              J2.data 2 i2 =
                -(cross roundDouble (if P1.isJointDownward i1 then link.R.mulVec roundDouble link.a
                  else (link.R.mulVec roundDouble link.a).neg) (A.p.sub roundDouble link.p)).z) ∧
            (link.jointType = JointType.ROTATIONAL_JOINT →
              ((∀ r, r < 3 → J2.data r i2 = -J1.data r i1) ↔
                cross roundDouble
                    (if P1.isJointDownward i1 then link.R.mulVec roundDouble link.a
                      else (link.R.mulVec roundDouble link.a).neg)
                    (A.p.sub roundDouble link.p) =
                  cross roundDouble
                    (if P1.isJointDownward i1 then link.R.mulVec roundDouble link.a
                      else (link.R.mulVec roundDouble link.a).neg)
                    (B.p.sub roundDouble link.p))) :=
  reversed_path_columns toolBody_wf roundDouble roundDouble_neg roundDouble_idem 0 4 (by decide)
    (by decide)

/-- C13 (the claim fails as stated): on the sample forest the path found from link 3 to its
parent, link 1, has an upward segment 0 (link 3 is a child of link 1, not its parent), and
`extractJoints` does put the first link, 3, into the joint sequence. -/
theorem first_link_counted_on_upward_segment :
    ∃ lp jp, LinkPath.find sampleBody 10 3 (some 1) ⟨[], 0⟩ = some (true, lp) ∧
      JointPath.extractJoints sampleBody ⟨lp, [], 0, 0, false⟩ = some jp ∧
      lp.links = [3, 1] ∧ lp.isDownward 0 = false ∧ par sampleBody 3 = some 1 ∧
      par sampleBody 1 ≠ some 3 ∧ jp.joints = [3] ∧ 3 ∈ jp.joints :=
  ⟨⟨[3, 1], 1⟩, ⟨⟨[3, 1], 1⟩, [3], 1, 0, false⟩, rfl, rfl, rfl, rfl, rfl, by decide, rfl,
    by decide⟩

/-- C13 (amended): for a path found by `LinkPath::find` in a well-formed forest with at least
two links, `extractJoints` counts the first link as a candidate joint only if segment 0 is
upward: the first link is in the joint sequence exactly when segment 0 steps from the first
link to its parent and the first link is rotational or prismatic; when segment 0 is downward
the first link is skipped. -/
theorem extractJoints_first_link (T : Body) (hT : WellFormed T) (fuel root : Nat) (end_ : Ptr)
    (self lp : LinkPath) (h : LinkPath.find T fuel root end_ self = some (true, lp))
    (x y : Nat) (rest : List Nat) (hl : lp.links = x :: y :: rest)
    (js : List Nat) (nj : Int) (err : ℚ) (mode : Bool) :
    ∃ jp, JointPath.extractJoints T ⟨lp, js, nj, err, mode⟩ = some jp ∧
      (x ∈ jp.joints ↔ par T x = some y ∧ isJointAt T x = true) ∧
      (lp.isDownward 0 = true → x ∉ jp.joints) := by
  have hn : 2 ≤ lp.links.length := by
    rw [hl]
    simp
  obtain ⟨jp, k, hk, hkn, hdir, hnd, hjp, -, hj, -⟩ := found_extract hT h hn js nj err mode
  obtain ⟨-, hact, hsub⟩ := found_joints_props (T := T) hnd k (1 ≤ k ∧ k + 1 < lp.links.length)
  rw [← hj] at hact
  have hd0 : lp.isDownward 0 = decide (k ≤ 0) := isDownward_natCast lp k 0 hk
  rw [hl] at hdir hnd
  have hxr : x ∉ y :: rest := (List.nodup_cons.1 hnd).1
  cases k with
  | zero =>
    have hyx : par T y = some x := hdir.1
    have hnot : x ∉ jp.joints := by
      intro hx
      rw [hj] at hx
      rcases List.mem_append.1 hx with h1 | h1
      · simp at h1
      · have hdrop : x ∈ lp.links.drop (0 + 1) := by
          rw [if_neg (by omega)] at h1
          exact (List.mem_filter.1 h1).1
        rw [hl] at hdrop
        exact hxr (by simpa using hdrop)
    refine ⟨jp, hjp, ⟨fun hx => absurd hx hnot, fun hx => ?_⟩, fun _ => hnot⟩
    exact absurd (no_two_cycle hT hx.1 hyx) id
  | succ k =>
    have hxy : par T x = some y := hdir.1
    refine ⟨jp, hjp, ⟨fun hx => ⟨hxy, hact x hx⟩, fun hx => ?_⟩, fun hd => ?_⟩
    · rw [hj, hl]
      apply List.mem_append_left
      rw [List.take_succ_cons]
      exact List.mem_filter.2 ⟨List.mem_cons_self _ _, hx.2⟩
    · rw [hd0] at hd
      simp at hd

/-- Witness for C13 (amended) on the sample forest: the path from link 3 to link 4. -/
theorem extractJoints_first_link_witness :
    ∃ jp, JointPath.extractJoints sampleBody ⟨⟨[3, 1, 0, 4], 2⟩, [], 0, 0, false⟩ = some jp ∧
      (3 ∈ jp.joints ↔ par sampleBody 3 = some 1 ∧ isJointAt sampleBody 3 = true) ∧
      (LinkPath.isDownward ⟨[3, 1, 0, 4], 2⟩ 0 = true → 3 ∉ jp.joints) :=
  extractJoints_first_link sampleBody sampleBody_wf 10 3 (some 4) ⟨[], 0⟩ ⟨[3, 1, 0, 4], 2⟩
    (by decide) 3 1 [0, 4] rfl [] 0 0 false

/-- C14: for a path found by `LinkPath::find` in a well-formed forest with at least two links
(so also a 2-link path), whose last two links are `y` and `z`, `extractJoints` emits the last
link `z` if and only if the segment before it is downward (`y` is the parent of `z`) and `z`
is rotational or prismatic; when emitted it is the final element of the joint sequence. -/
theorem extractJoints_last_link (T : Body) (hT : WellFormed T) (fuel root : Nat) (end_ : Ptr)
    (self lp : LinkPath) (h : LinkPath.find T fuel root end_ self = some (true, lp))
    (pre : List Nat) (y z : Nat) (hl : lp.links = pre ++ [y, z])
    (js : List Nat) (nj : Int) (err : ℚ) (mode : Bool) :
    ∃ jp, JointPath.extractJoints T ⟨lp, js, nj, err, mode⟩ = some jp ∧
      (z ∈ jp.joints ↔ par T z = some y ∧ isJointAt T z = true) ∧
      (z ∈ jp.joints → jp.joints.getLast? = some z) := by
  have hlen : lp.links.length = pre.length + 2 := by
    rw [hl]
    simp
  have hn : 2 ≤ lp.links.length := by omega
  obtain ⟨jp, k, hk, hkn, hdir, hnd, hjp, -, hj, -⟩ := found_extract hT h hn js nj err mode
  obtain ⟨-, hact, hsub⟩ := found_joints_props (T := T) hnd k (1 ≤ k ∧ k + 1 < lp.links.length)
  rw [← hj] at hact
  have hy : lp.links[pre.length]? = some y := by
    rw [hl, List.getElem?_append_right le_rfl]
    simp
  have hz : lp.links[pre.length + 1]? = some z := by
    rw [hl, List.getElem?_append_right (Nat.le_succ _)]
    simp
  obtain ⟨hup, hdown⟩ := directed_seg k lp.links hdir pre.length y z hy hz
  have hzlast : z ∈ lp.links.drop (pre.length + 1) := by
    rw [hl, drop_append_pair pre y z _ le_rfl]
    simp
  by_cases hkp : k ≤ pre.length
  · have hzy : par T z = some y := hdown hkp
    have hzk : z ∉ lp.links.take k := by
      intro hzt
      have hzd : z ∈ lp.links.drop k := by
        have hs : (lp.links.drop (pre.length + 1)).Sublist (lp.links.drop k) := by
          have : pre.length + 1 = k + (pre.length + 1 - k) := by omega
          rw [this, ← List.drop_drop]
          exact List.drop_sublist _ _
        exact hs.subset hzlast
      exact take_drop_disjoint hnd k hzt hzd
    have hX : ∃ l', (if 1 ≤ k ∧ k + 1 < lp.links.length then
        (lp.links.drop k).filter (isJointAt T)
        else (lp.links.drop (k + 1)).filter (isJointAt T)) = (l' ++ [z]).filter (isJointAt T) := by
      split
      · exact ⟨(pre ++ [y]).drop k, by rw [hl, drop_append_pair pre y z k (by omega)]⟩
      · exact ⟨(pre ++ [y]).drop (k + 1), by
          rw [hl, drop_append_pair pre y z (k + 1) (by omega)]⟩
    obtain ⟨l', hl'⟩ := hX
    rw [hl'] at hj
    refine ⟨jp, hjp, ⟨fun hzj => ⟨hzy, hact z hzj⟩, fun hzj => ?_⟩, fun hzj => ?_⟩
    · rw [hj]
      apply List.mem_append_right
      exact List.mem_filter.2 ⟨by simp, hzj.2⟩
    · rw [hj]
      exact getLast?_filter_append_last _ _ _ (hact z hzj)
  · have hyz : par T y = some z := hup (by omega)
    have hkeq : k = pre.length + 1 := by omega
    have hnot : z ∉ jp.joints := by
      intro hzj
      rw [hj] at hzj
      rcases List.mem_append.1 hzj with h1 | h1
      · have hzt : z ∈ lp.links.take k := (List.mem_filter.1 h1).1
        rw [hkeq] at hzt
        exact take_drop_disjoint hnd _ hzt hzlast
      · rw [if_neg (by omega)] at h1
        have hzd : z ∈ lp.links.drop (k + 1) := (List.mem_filter.1 h1).1
        rw [List.drop_eq_nil_of_le (by omega)] at hzd
        exact absurd hzd (by simp)
    refine ⟨jp, hjp, ⟨fun hzj => absurd hzj hnot, fun hzj => ?_⟩, fun hzj => absurd hzj hnot⟩
    exact absurd (no_two_cycle hT hzj.1 hyz) id

/-- Witness for C14 on the sample forest: the path from link 3 to link 4 ends with the
downward segment from link 0 to link 4. -/
theorem extractJoints_last_link_witness :
    ∃ jp, JointPath.extractJoints sampleBody ⟨⟨[3, 1, 0, 4], 2⟩, [], 0, 0, false⟩ = some jp ∧
      (4 ∈ jp.joints ↔ par sampleBody 4 = some 0 ∧ isJointAt sampleBody 4 = true) ∧
      (4 ∈ jp.joints → jp.joints.getLast? = some 4) :=
  extractJoints_last_link sampleBody sampleBody_wf 10 3 (some 4) ⟨[], 0⟩ ⟨[3, 1, 0, 4], 2⟩
    (by decide) [3, 1] 0 4 rfl [] 0 0 false

/-- C15 (the code departs from the claim): on the sample forest the path found from link 2 to
link 3 is 2, 1, 3 with one upward segment; `extractJoints` emits link 1 (Path position 1) as
joint 1 and flags it downward, although the segment that enters link 1, from link 2, is a
child-to-parent hop. -/
theorem turning_link_flagged_downward :
    ∃ lp jp, LinkPath.find sampleBody 10 2 (some 3) ⟨[], 0⟩ = some (true, lp) ∧
      JointPath.extractJoints sampleBody ⟨lp, [], 0, 0, false⟩ = some jp ∧
      lp.links = [2, 1, 3] ∧ lp.numUpwardConnections = 1 ∧
      jp.joints = [2, 1, 3] ∧ jp.numUpwardJointConnections = 1 ∧
      jp.isJointDownward 1 = true ∧ lp.isDownward 0 = false ∧
      par sampleBody 2 = some 1 ∧ par sampleBody 1 ≠ some 2 :=
  ⟨⟨[2, 1, 3], 1⟩, ⟨⟨[2, 1, 3], 1⟩, [2, 1, 3], 1, 0, false⟩, rfl, rfl, rfl, rfl, rfl, rfl, rfl,
    rfl, rfl, by decide⟩

/-- C16: for a non-empty joint path whose joints are pairwise distinct links of the arena
(as `extractJoints` produces them) and whose end link is in the arena, any target, either
convergence mode, any rounding of the arithmetic and forward kinematics that keeps the size of
the arena, `JointPath::calcInverseKinematics(end_p, end_R)` returns after `k <= 50` full
iterations. Each iteration is as the spec describes it (`DampedRound`): the Jacobian of the
current arena is built, the step `dq` is the output of the LU solve when the joint count is 6
and of the SVD solve otherwise, every joint value is advanced once by `q_j += 0.9 * dq_j` and
nothing else is written, and forward kinematics is run. After the `k` iterations the call
builds one more Jacobian and returns the arena reached when it converged (`k < 50`); when it
did not converge it has made exactly 50 iterations, hence 50 updates of every joint, before
it restores the saved joint values and runs forward kinematics. So it builds the Jacobian at
most 50 times and calls the solver `k` times, LU only when the joint count is 6 and SVD only
otherwise. -/
theorem calcInverseKinematics_bounded (env : IKEnv) (T : Body) (self : JointPath)
    (end_p : Vector3) (end_R0 : Matrix33) (target : Nat) (targetLink : Link)
    (hne : self.joints ≠ []) (hj : ∀ j ∈ self.joints, j < T.length)
    (hnd : self.joints.Nodup)
    (htarget : self.links.getLast? = some target) (hlink : T[target]? = some targetLink)
    (hfk : ∀ (P : JointPath) (B : Body), (env.calcForwardKinematics P B).length = B.length) :
    ∃ (b : Bool) (T' : Body) (tr : List IKEvent) (k : Nat) (sk : Body × dmatrix × dvector),
      self.calcInverseKinematics env T end_p end_R0 = some (b, T', tr) ∧ k ≤ 50 ∧
      tr = ikRounds self.joints.length k ++
        (if b then [IKEvent.jacobian] else [IKEvent.forwardKinematics]) ∧
      (b = false → k = 50) ∧
      tr.count IKEvent.jacobian ≤ 50 ∧
      tr.count IKEvent.solveLU + tr.count IKEvent.solveSVD = k ∧
      (self.joints.length = 6 → tr.count IKEvent.solveSVD = 0) ∧
      (self.joints.length ≠ 6 → tr.count IKEvent.solveLU = 0) ∧
      DampedRounds env self target end_p (end_R0.mul env.fl (trans targetLink.Rs)) k
        (T, ⟨6, self.joints.length, env.freshJ⟩, env.freshDq) sk ∧
      (b = true → T' = sk.1) ∧
      (b = false → ∃ (qorg : List ℚ) (U : Body), saveQ T self.joints = some qorg ∧
        restoreQ self.joints qorg sk.1 = some U ∧ T' = env.calcForwardKinematics self U) := by
  have htv : target < T.length := by
    by_contra hlt
    rw [List.getElem?_eq_none (Nat.le_of_not_lt hlt)] at hlink
    exact absurd hlink (by simp)
  obtain rfl : T[target] = targetLink :=
    Option.some.inj ((List.getElem?_eq_getElem htv).symm.trans hlink)
  have htl := htarget
  obtain ⟨qorg, hq⟩ := saveQ_some T self.joints hj
  obtain ⟨b, st, hloop, hlen⟩ := ikLoop_some env self target end_p
    (end_R0.mul env.fl (trans T[target].Rs)) T.length hj htl htv hfk MAX_IK_ITERATION
    ⟨T, ⟨6, self.joints.length, env.freshJ⟩, env.freshDq, env.fl (self.maxIKErrorSqr * 100), []⟩ rfl
  obtain ⟨k, sk, hk, htr, hb1, hb2, hrounds, hbody⟩ :=
    ikLoop_rounds env self target end_p _ hnd _ _ _ _ hloop
  simp only [List.nil_append] at htr
  obtain ⟨c1, c2, c3, c4⟩ := ikRounds_count self.joints.length k
  have he : self.joints.isEmpty = false := by
    cases hjs : self.joints with
    | nil => exact absurd hjs hne
    | cons _ _ => rfl
  have hn : ¬ self.joints.length < 1 := by
    intro hlt
    exact hne (List.length_eq_zero.1 (by omega))
  have hcall : self.calcInverseKinematics env T end_p end_R0 =
      (if !b then
        match restoreQ self.joints qorg st.body with
        | none => none
        | some T1 => some (false, env.calcForwardKinematics self T1,
            st.trace ++ [IKEvent.forwardKinematics])
      else some (true, st.body, st.trace)) := by
    unfold JointPath.calcInverseKinematics
    simp only [he, hn, if_false, Bool.false_eq_true, htl]
    rw [List.getElem?_eq_getElem htv]
    simp only [hq, hloop]
  have hk50 : k ≤ 50 := hk
  cases b with
  | true =>
    have hlt : k < 50 := hb1 rfl
    refine ⟨true, st.body, st.trace, k, sk, ?_, hk50, ?_, fun h => absurd h (by simp), ?_, ?_,
      ?_, ?_, hrounds, fun _ => hbody, fun h => absurd h (by simp)⟩
    · rw [hcall]
      rfl
    · rw [htr]
      rfl
    · rw [htr]
      simp only [if_true, List.count_append, c1]
      simp
      omega
    · rw [htr]
      simp only [if_true, List.count_append, c3, c4]
      split <;> simp
    · intro h6
      rw [htr, List.count_append, c4, if_pos h6]
      simp
    · intro h6
      rw [htr, List.count_append, c3, if_neg h6]
      simp
  | false =>
    have hkeq : k = 50 := hb2 rfl
    obtain ⟨T1, hT1⟩ := restoreQ_some self.joints qorg st.body (fun l hl => by
      rw [hlen]
      exact hj l hl)
    have htr' : st.trace = ikRounds self.joints.length k := by
      rw [htr]
      simp
    refine ⟨false, env.calcForwardKinematics self T1, st.trace ++ [IKEvent.forwardKinematics],
      k, sk, ?_, hk50, ?_, fun _ => hkeq, ?_, ?_, ?_, ?_, hrounds,
      fun h => absurd h (by simp), fun _ => ⟨qorg, T1, hq, by rw [← hbody]; exact hT1, rfl⟩⟩
    · rw [hcall]
      simp only [Bool.not_false, if_true, hT1]
    · rw [htr']
      rfl
    · rw [htr']
      simp only [List.count_append, c1]
      simp
      omega
    · rw [htr']
      simp only [List.count_append, c3, c4]
      split <;> simp
    · intro h6
      rw [htr', List.count_append, c4, if_pos h6]
      simp
    · intro h6
      rw [htr', List.count_append, c3, if_neg h6]
      simp

theorem sampleEnv_fk_length (P : JointPath) (B : Body) :
    (sampleEnv.calcForwardKinematics P B).length = B.length := by
  show (B.map _).length = B.length
  exact List.length_map _ _

/-- Witness for C16: the sample joint path 3, 1, 4 on the sample forest, target `(5, 0, 0)`,
in `double` arithmetic. -/
theorem calcInverseKinematics_bounded_witness :
    ∃ (b : Bool) (T' : Body) (tr : List IKEvent) (k : Nat) (sk : Body × dmatrix × dvector),
      samplePath.calcInverseKinematics sampleEnv sampleBody ⟨5, 0, 0⟩
        ⟨⟨1, 0, 0⟩, ⟨0, 1, 0⟩, ⟨0, 0, 1⟩⟩ = some (b, T', tr) ∧ k ≤ 50 ∧
      tr = ikRounds samplePath.joints.length k ++
        (if b then [IKEvent.jacobian] else [IKEvent.forwardKinematics]) ∧
      (b = false → k = 50) ∧
      tr.count IKEvent.jacobian ≤ 50 ∧
      tr.count IKEvent.solveLU + tr.count IKEvent.solveSVD = k ∧
      (samplePath.joints.length = 6 → tr.count IKEvent.solveSVD = 0) ∧
      (samplePath.joints.length ≠ 6 → tr.count IKEvent.solveLU = 0) ∧
      DampedRounds sampleEnv samplePath 4 ⟨5, 0, 0⟩
        (Matrix33.mul sampleEnv.fl ⟨⟨1, 0, 0⟩, ⟨0, 1, 0⟩, ⟨0, 0, 1⟩⟩
          (trans (sampleLink "ARM" (some 0) none none JointType.ROTATIONAL_JOINT).Rs)) k
        (sampleBody, ⟨6, samplePath.joints.length, sampleEnv.freshJ⟩, sampleEnv.freshDq) sk ∧
      (b = true → T' = sk.1) ∧
      (b = false → ∃ (qorg : List ℚ) (U : Body), saveQ sampleBody samplePath.joints = some qorg ∧
        restoreQ samplePath.joints qorg sk.1 = some U ∧
        T' = sampleEnv.calcForwardKinematics samplePath U) :=
  calcInverseKinematics_bounded sampleEnv sampleBody samplePath ⟨5, 0, 0⟩
    ⟨⟨1, 0, 0⟩, ⟨0, 1, 0⟩, ⟨0, 0, 1⟩⟩ 4
    (sampleLink "ARM" (some 0) none none JointType.ROTATIONAL_JOINT)
    (by decide) (by decide) (by decide) rfl rfl sampleEnv_fk_length

/-- C17: for a path found by `LinkPath::find` in a well-formed forest with at least two links,
after `extractJoints` the counter `numUpwardJointConnections` equals `numUpwardConnections`
minus the number of non-actuated links at upward positions (Path index below
`numUpwardConnections`), which is the number of emitted joints whose Path index is below
`numUpwardConnections`; it lies between 0 and the number of joints, the joints flagged upward
are exactly those with joint index below it, and these first joints are the actuated links
of the upward positions. -/
theorem extractJoints_upward_count (T : Body) (hT : WellFormed T) (fuel root : Nat)
    (end_ : Ptr) (self lp : LinkPath)
    (h : LinkPath.find T fuel root end_ self = some (true, lp)) (hn : 2 ≤ lp.links.length)
    (js : List Nat) (nj : Int) (err : ℚ) (mode : Bool) :
    ∃ jp, JointPath.extractJoints T ⟨lp, js, nj, err, mode⟩ = some jp ∧
      jp.numUpwardJointConnections = lp.numUpwardConnections -
        ((lp.links.take lp.numUpwardConnections.toNat).countP (fun l => !isJointAt T l) : Int) ∧
      jp.numUpwardJointConnections = ((jp.joints.filter
        (fun l => decide (l ∈ lp.links.take lp.numUpwardConnections.toNat))).length : Int) ∧
      0 ≤ jp.numUpwardJointConnections ∧
      jp.numUpwardJointConnections ≤ (jp.joints.length : Int) ∧
      (∀ j : Nat, j < jp.joints.length →
        (jp.isJointDownward j = false ↔ (j : Int) < jp.numUpwardJointConnections)) ∧
      jp.joints.take jp.numUpwardJointConnections.toNat
        = (lp.links.take lp.numUpwardConnections.toNat).filter (isJointAt T) := by
  obtain ⟨jp, k, hk, hkn, -, hnd, hjp, -, hj, hc⟩ := found_extract hT h hn js nj err mode
  obtain ⟨-, -, hsub⟩ := found_joints_props (T := T) hnd k (1 ≤ k ∧ k + 1 < lp.links.length)
  have hkt : lp.numUpwardConnections.toNat = k := by
    rw [hk]
    exact Int.toNat_ofNat k
  rw [hkt]
  refine ⟨jp, hjp, ?_, ?_, ?_, ?_, ?_, ?_⟩
  · rw [hc, hk]
    have hlen : (lp.links.take k).length = k := by
      rw [List.length_take]
      omega
    have hsum := List.length_eq_countP_add_countP (isJointAt T) (lp.links.take k)
    rw [hlen] at hsum
    rw [← List.countP_eq_length_filter]
    have hnot : (lp.links.take k).countP (fun l => !isJointAt T l)
        = (lp.links.take k).countP (fun a => ¬ isJointAt T a = true) := by
      apply List.countP_congr
      intro a _
      simp
    rw [hnot]
    omega
  · rw [hc, hj, List.filter_append]
    have h1 : ((lp.links.take k).filter (isJointAt T)).filter
        (fun l => decide (l ∈ lp.links.take k)) = (lp.links.take k).filter (isJointAt T) := by
      rw [List.filter_eq_self]
      intro a ha
      simpa using (List.mem_filter.1 ha).1
    have h2 : (if 1 ≤ k ∧ k + 1 < lp.links.length then (lp.links.drop k).filter (isJointAt T)
        else (lp.links.drop (k + 1)).filter (isJointAt T)).filter
        (fun l => decide (l ∈ lp.links.take k)) = [] := by
      rw [List.filter_eq_nil_iff]
      intro a ha hat
      exact take_drop_disjoint hnd k (by simpa using hat) (hsub a ha)
    rw [h1, h2, List.append_nil]
  · rw [hc]
    exact Int.natCast_nonneg _
  · rw [hc, hj, List.length_append]
    push_cast
    omega
  · intro j _
    unfold JointPath.isJointDownward
    rw [decide_eq_false_iff_not, not_le]
  · rw [hc, Int.toNat_ofNat, hj, List.take_left]

/-- Witness for C17 on the sample forest: the path from link 3 to link 4. -/
theorem extractJoints_upward_count_witness :
    ∃ jp, JointPath.extractJoints sampleBody ⟨⟨[3, 1, 0, 4], 2⟩, [], 0, 0, false⟩ = some jp ∧
      jp.numUpwardJointConnections = (2 : Int) -
        (([3, 1, 0, 4].take (2 : Int).toNat).countP
          (fun l => !isJointAt sampleBody l) : Int) ∧
      jp.numUpwardJointConnections = ((jp.joints.filter
        (fun l => decide (l ∈ [3, 1, 0, 4].take (2 : Int).toNat))).length : Int) ∧
      0 ≤ jp.numUpwardJointConnections ∧
      jp.numUpwardJointConnections ≤ (jp.joints.length : Int) ∧
      (∀ j : Nat, j < jp.joints.length →
        (jp.isJointDownward j = false ↔ (j : Int) < jp.numUpwardJointConnections)) ∧
      jp.joints.take jp.numUpwardJointConnections.toNat
        = ([3, 1, 0, 4].take (2 : Int).toNat).filter (isJointAt sampleBody) :=
  extractJoints_upward_count sampleBody sampleBody_wf 10 3 (some 4) ⟨[], 0⟩
    ⟨[3, 1, 0, 4], 2⟩ (by decide) (by decide) [] 0 0 false

/-- C18: for a path found by `LinkPath::find` in a well-formed forest, every rotational or
prismatic link that is the child endpoint of a segment of the path (the segment `x`, `y` at
positions `i`, `i+1` has child endpoint `x` when `y` is the parent of `x`, and `y` when `x` is
the parent of `y`) is emitted by `extractJoints` exactly once; for a 2-link path the joint
sequence is the child one of the two links when it is actuated, and empty otherwise. -/
theorem extractJoints_complete (T : Body) (hT : WellFormed T) (fuel root : Nat) (end_ : Ptr)
    (self lp : LinkPath) (h : LinkPath.find T fuel root end_ self = some (true, lp))
    (i x y : Nat) (hx : lp.links[i]? = some x) (hy : lp.links[i + 1]? = some y)
    (js : List Nat) (nj : Int) (err : ℚ) (mode : Bool) :
    ∃ jp, JointPath.extractJoints T ⟨lp, js, nj, err, mode⟩ = some jp ∧
      (par T x = some y → isJointAt T x = true → jp.joints.count x = 1) ∧
      (par T y = some x → isJointAt T y = true → jp.joints.count y = 1) ∧
      (lp.links.length = 2 →
        jp.joints = if par T x = some y then [x].filter (isJointAt T)
          else [y].filter (isJointAt T)) := by
  have hi : i + 1 < lp.links.length := by
    by_contra hlt
    rw [List.getElem?_eq_none (Nat.le_of_not_lt hlt)] at hy
    exact absurd hy (by simp)
  have hn : 2 ≤ lp.links.length := by omega
  obtain ⟨jp, k, hk, hkn, hdir, hnd, hjp, -, hj, -⟩ := found_extract hT h hn js nj err mode
  obtain ⟨hjnd, -, -⟩ := found_joints_props (T := T) hnd k (1 ≤ k ∧ k + 1 < lp.links.length)
  rw [← hj] at hjnd
  obtain ⟨hup, hdown⟩ := directed_seg k lp.links hdir i x y hx hy
  refine ⟨jp, hjp, fun hxy hax => ?_, fun hyx hay => ?_, fun h2 => ?_⟩
  · have hik : i < k := by
      by_contra hik
      exact no_two_cycle hT hxy (hdown (Nat.le_of_not_lt hik))
    have hmem : x ∈ lp.links.take k := by
      apply List.getElem?_mem (n := i)
      rw [List.getElem?_take_of_lt hik]
      exact hx
    apply List.count_eq_one_of_mem hjnd
    rw [hj]
    exact List.mem_append_left _ (List.mem_filter.2 ⟨hmem, hax⟩)
  · have hik : k ≤ i := by
      by_contra hik
      exact no_two_cycle hT hyx (hup (Nat.lt_of_not_le hik))
    have hmem1 : y ∈ lp.links.drop (k + 1) := by
      apply List.getElem?_mem (n := i - k)
      rw [List.getElem?_drop]
      have : k + 1 + (i - k) = i + 1 := by omega
      rw [this]
      exact hy
    have hmem0 : y ∈ lp.links.drop k := by
      have hs : (lp.links.drop (k + 1)).Sublist (lp.links.drop k) := by
        rw [← List.drop_drop]
        exact List.drop_sublist _ _
      exact hs.subset hmem1
    apply List.count_eq_one_of_mem hjnd
    rw [hj]
    apply List.mem_append_right
    split
    · exact List.mem_filter.2 ⟨hmem0, hay⟩
    · exact List.mem_filter.2 ⟨hmem1, hay⟩
  · have hi0 : i = 0 := by omega
    subst hi0
    obtain ⟨a, b, hab⟩ : ∃ a b, lp.links = [a, b] := by
      match hlinks : lp.links, h2 with
      | [a, b], _ => exact ⟨a, b, rfl⟩
    rw [hab] at hx hy
    simp only [List.getElem?_cons_zero, Option.some.injEq, zero_add, List.getElem?_cons_succ]
      at hx hy
    subst hx hy
    have hcond : ¬ (1 ≤ k ∧ k + 1 < lp.links.length) := by
      rw [h2]
      omega
    rw [hj, if_neg hcond, hab]
    by_cases hk0 : k = 0
    · subst hk0
      have hba : par T b = some a := hdown le_rfl
      have hnab : ¬ par T a = some b := fun hab' => no_two_cycle hT hab' hba
      rw [if_neg hnab]
      simp
    · have hk1 : k = 1 := by
        rw [hab] at hkn
        simp only [List.length_cons, List.length_nil] at hkn
        omega
      subst hk1
      have hab' : par T a = some b := hup (by omega)
      rw [if_pos hab']
      simp

/-- Witness for C18 on the sample forest: segment 0 of the path from link 3 to link 4, whose
child endpoint is link 3. -/
theorem extractJoints_complete_witness :
    ∃ jp, JointPath.extractJoints sampleBody ⟨⟨[3, 1, 0, 4], 2⟩, [], 0, 0, false⟩ = some jp ∧
      (par sampleBody 3 = some 1 → isJointAt sampleBody 3 = true → jp.joints.count 3 = 1) ∧
      (par sampleBody 1 = some 3 → isJointAt sampleBody 1 = true → jp.joints.count 1 = 1) ∧
      ([3, 1, 0, 4].length = 2 →
        jp.joints = if par sampleBody 3 = some 1 then [3].filter (isJointAt sampleBody)
          else [1].filter (isJointAt sampleBody)) :=
  extractJoints_complete sampleBody sampleBody_wf 10 3 (some 4) ⟨[], 0⟩ ⟨[3, 1, 0, 4], 2⟩
    (by decide) 0 3 1 rfl rfl [] 0 0 false

/-- C19 (the code departs from the claim): on the sample forest the path found from link 2 to
link 3 is 2, 1, 3, whose segments have the child endpoints 2 and 3; `extractJoints` also emits
link 1, the turning point, whose parent, link 0, is not on the path. -/
theorem turning_link_emitted :
    ∃ lp jp, LinkPath.find sampleBody 10 2 (some 3) ⟨[], 0⟩ = some (true, lp) ∧
      JointPath.extractJoints sampleBody ⟨lp, [], 0, 0, false⟩ = some jp ∧
      lp.links = [2, 1, 3] ∧ jp.joints = [2, 1, 3] ∧ 1 ∈ jp.joints ∧
      par sampleBody 2 = some 1 ∧ par sampleBody 3 = some 1 ∧ par sampleBody 1 = some 0 ∧
      0 ∉ lp.links :=
  ⟨⟨[2, 1, 3], 1⟩, ⟨⟨[2, 1, 3], 1⟩, [2, 1, 3], 1, 0, false⟩, rfl, rfl, rfl, rfl, by decide,
    rfl, rfl, rfl, by decide⟩

/-- C20 (the code departs from the claim): on the sample tool tree, `JointPath(2, 4)` has the
links 2, 1, 0, 3, 4 with `numUpwardConnections = 2` and the three joints 2, 3, 4 with
`numUpwardJointConnections = 1`, so joint 1 (the shoulder) is flagged downward by
`isJointDownward` while `isDownward(1)` of the link path is false; `putInformation` writes
`TOOL <= SHOULDER <= ELBOW => ` and a line feed: three arrows for three names, the last one
after the last name, and ` <= ` after the shoulder where the per-joint flag asks for ` => `. -/
theorem putInformation_arrows :
    (JointPath.construct toolBody 10 2 (some 4)).map
        (fun P => (P.links, P.numUpwardConnections, P.joints, P.numUpwardJointConnections)) =
      some ([2, 1, 0, 3, 4], 2, [2, 3, 4], 1) ∧
    (JointPath.construct toolBody 10 2 (some 4)).map
        (fun P => [P.isJointDownward 0, P.isJointDownward 1, P.isJointDownward 2]) =
      some [false, true, true] ∧
    (JointPath.construct toolBody 10 2 (some 4)).map
        (fun P => [P.isDownward 0, P.isDownward 1, P.isDownward 2]) =
      some [false, false, true] ∧
    (JointPath.construct toolBody 10 2 (some 4)).bind
        (fun P => P.putInformation toolBody "") = some "TOOL <= SHOULDER <= ELBOW => \n" ∧
    "TOOL <= SHOULDER <= ELBOW => \n" ≠ "TOOL <= SHOULDER => ELBOW\n" :=
  ⟨by decide, by decide, by decide, by decide, by decide⟩

end hrp
